import Mathlib

/-!
Memory-Manager: verification development.

Shallow embedding of `src/MemoryManager.cpp` (class `MemoryManager`, the node
type `Node`, and the placement functions `bestFit` and `worstFit`), followed by
the properties of the allocator proved or refuted on it.

Machine types are modelled on mathematical integers with explicit reduction, for
the usual 64-bit data model: `int` is 32-bit two-complement (`toInt`), `unsigned`
is 32-bit (`toUnsigned`), `size_t` is 64-bit (`toSizeT`) and `uint16_t` is 16-bit
(`toUint16`). Pointers are integers (byte addresses); a returned `nullptr` is
`none`.

Loops whose counter is a `uint16_t` compared against an `int` bound can run
forever in the source; they are modelled with a fuel argument, `none` meaning
that the fuel ran out before the loop exited. A call returns a result exactly
when some amount of fuel gives `some`.

Where the source has undefined behaviour the model fixes one outcome: signed
additions of `int` wrap around, a word size of 0 divides like the integers of
Lean, and reads of `holeList[i]` outside the vector give a zero node. The
theorems below do not depend on these outcomes except where they say so.

The array that `getBitmap` returns is a list of optional bytes: an element that
was never assigned is `none`, and the whole result is `none` when the method
divides by a zero word size or stores outside the array. Of `dumpMemoryMap` the
model keeps the text handed to `write`, as a list of characters; the file
operations are not modelled.
-/

/-! ## Machine integer conversions -/

/-- Conversion to `int` (32-bit, two-complement wrap-around). -/
def toInt (x : Int) : Int := (x + 2147483648) % 4294967296 - 2147483648

/-- Conversion to `unsigned` (32-bit). -/
def toUnsigned (x : Int) : Int := x % 4294967296

/-- Conversion to `size_t` (64-bit). -/
def toSizeT (x : Int) : Int := x % 18446744073709551616

/-- Conversion to `uint16_t`. -/
def toUint16 (x : Int) : Int := x % 65536

/-! ## Data model -/

/-- The struct `Node`: a run of words starting at word `head`, `len` words long,
free when `isHole` is set. -/
structure Node where
  head : Int
  len : Int
  isHole : Bool
deriving DecidableEq, Repr

/-- The type `std::function<int(int, void *)>` of placement functions: requested
size in words and the array produced by `getList`; the extra first argument is
the fuel of the model, and `none` means the call did not return within it. -/
abbrev Allocator := Nat → Int → List Int → Option Int

/-- The private fields of class `MemoryManager`. -/
structure MemoryManager where
  natWordSize : Int
  defAllocator : Allocator
  memoryLimit : Int
  memBlock : Int
  holeList : List Node

/-- Read `holeList[i]`; every use in the model is at an index inside the vector. -/
def nodeAt (holeList : List Node) (i : Nat) : Node := holeList.getD i ⟨0, 0, false⟩

/-- The traversal `for (i = 0; i < holeList.size(); i++) if (holeList[i].head == offset)
{ offsetIndex = i; break; }` used by `allocate` and `free`; started with `i = 0`,
`none` stands for `offsetIndex == -1`. -/
def findHead (offset : Int) : List Node → Nat → Option Nat
  | [], _ => none
  | nd :: rest, i => if nd.head = offset then some i else findHead offset rest (i + 1)

/-! ## Placement functions -/

/-- The loop of `bestFit`: `holeList` is the array after the count word, `i` the
`uint16_t` counter, compared as `int` with `holeListlength * 2`. -/
def bestFitLoop (sizeInWords : Int) (holeList : List Int) (holeListlength : Int) :
    Nat → Nat → Int → Int → Option Int
  | 0, _, _, _ => none
  | fuel + 1, i, minLen, offset =>
    if (i : Int) < holeListlength * 2 then
      if holeList.getD i 0 ≥ sizeInWords ∧ holeList.getD i 0 < minLen then
        bestFitLoop sizeInWords holeList holeListlength fuel ((i + 2) % 65536)
          (holeList.getD i 0) (holeList.getD (i - 1) 0)
      else
        bestFitLoop sizeInWords holeList holeListlength fuel ((i + 2) % 65536) minLen offset
    else some offset

/-- The function `bestFit(sizeInWords, list)`. -/
def bestFit : Allocator := fun fuel sizeInWords list =>
  bestFitLoop sizeInWords list.tail (list.headD 0) fuel 1 65536 (-1)

/-- The loop of `worstFit`. -/
def worstFitLoop (sizeInWords : Int) (holeList : List Int) (holeListlength : Int) :
    Nat → Nat → Int → Int → Option Int
  | 0, _, _, _ => none
  | fuel + 1, i, maxLen, offset =>
    if (i : Int) < holeListlength * 2 then
      if holeList.getD i 0 ≥ sizeInWords ∧ holeList.getD i 0 > maxLen then
        worstFitLoop sizeInWords holeList holeListlength fuel ((i + 2) % 65536)
          (holeList.getD i 0) (holeList.getD (i - 1) 0)
      else
        worstFitLoop sizeInWords holeList holeListlength fuel ((i + 2) % 65536) maxLen offset
    else some offset

/-- The function `worstFit(sizeInWords, list)`. -/
def worstFit : Allocator := fun fuel sizeInWords list =>
  worstFitLoop sizeInWords list.tail (list.headD 0) fuel 1 (-1) (-1)

/-! ## The class `MemoryManager` -/

namespace MemoryManager

/-- The constructor: word size and default allocator; `holeList` starts empty and
`memoryLimit` is 0. The field `memBlock` has no initialiser in the source, its
initial content is the parameter `memBlock0`. -/
def construct (wordSize : Int) (allocator : Allocator) (memBlock0 : Int) : MemoryManager :=
  { natWordSize := wordSize, defAllocator := allocator, memoryLimit := 0,
    memBlock := memBlock0, holeList := [] }

/-- The method `shutdown()`. -/
def shutdown (m : MemoryManager) : MemoryManager :=
  { m with memBlock := 0, holeList := [] }

/-- The method `initialize(sizeInWords)`; `newBlock` is the address returned by
`new char[memoryLimit]`. The test `sizeInWords < 0` never holds for a `size_t`. -/
def initializeArena (m : MemoryManager) (sizeInWords : Int) (newBlock : Int) : MemoryManager :=
  if sizeInWords > 65536 then m
  else
    let m1 := if ¬ m.holeList.isEmpty then shutdown m else m
    { m1 with
      memoryLimit := toUnsigned (toSizeT (sizeInWords * m1.natWordSize))
      memBlock := newBlock
      holeList := m1.holeList ++ [⟨0, toInt sizeInWords, true⟩] }

/-- First loop of `getList()`: count the holes in the `uint16_t` counter `lenHoles`
and push head and length of each hole, converted to `uint16_t`, on `holes`. -/
def getListScan : List Node → Int → List Int → Int × List Int
  | [], lenHoles, holes => (lenHoles, holes)
  | nd :: rest, lenHoles, holes =>
    if nd.isHole then
      getListScan rest (toUint16 (lenHoles + 1)) (holes ++ [toUint16 nd.head, toUint16 nd.len])
    else getListScan rest lenHoles holes

/-- Second loop of `getList()`: `for (uint16_t i = 0; i < 2 * lenHoles; i++)
list[i + 1] = holes[i];`. -/
def getListCopy (holes : List Int) (lenHoles : Int) : Nat → Nat → List Int → Option (List Int)
  | 0, _, _ => none
  | fuel + 1, i, list =>
    if (i : Int) < 2 * lenHoles then
      getListCopy holes lenHoles fuel ((i + 1) % 65536) (list.set (i + 1) (holes.getD i 0))
    else some list

/-- The method `getList()`: the array `[lenHoles, head_0, len_0, head_1, len_1, ...]`.
The fresh array is modelled as zero-filled before it is written. -/
def getList (fuel : Nat) (m : MemoryManager) : Option (List Int) :=
  let scan := getListScan m.holeList 0 []
  let lenHoles := scan.1
  let holes := scan.2
  let listSize := (2 * lenHoles) + 1
  let list := (List.replicate listSize.toNat (0 : Int)).set 0 lenHoles
  getListCopy holes lenHoles fuel 0 list

/-- The statement `sizeInBytes = (sizeInBytes - 1)/natWordSize + 1;` of `allocate`,
computed in `size_t`: the request converted to words. -/
def sizeInWordsOf (natWordSize sizeInBytes : Int) : Int :=
  toSizeT (toSizeT (sizeInBytes - 1) / natWordSize + 1)

/-- The method `allocate(sizeInBytes)`. The result is `none` when the fuel ran out,
otherwise the returned pointer (`none` for `nullptr`) and the state after the call. -/
def allocate (fuel : Nat) (m : MemoryManager) (sizeInBytes : Int) :
    Option (Option Int × MemoryManager) :=
  let sizeInBytes := sizeInWordsOf m.natWordSize sizeInBytes
  match getList fuel m with
  | none => none
  | some list =>
    match m.defAllocator fuel (toInt sizeInBytes) list with
    | none => none
    | some offset =>
      if offset = -1 then some (none, m)
      else
        match findHead offset m.holeList 0 with
        | none => some (none, m)
        | some offsetIndex =>
          if toSizeT (nodeAt m.holeList offsetIndex).len = sizeInBytes then
            let holeList1 := m.holeList.set offsetIndex
              { nodeAt m.holeList offsetIndex with isHole := false }
            some (some (m.memBlock +
                toUnsigned (toUnsigned (nodeAt holeList1 offsetIndex).head * m.natWordSize)),
              { m with holeList := holeList1 })
          else
            let offsetHead := (nodeAt m.holeList offsetIndex).head
            let insertNode : Node := ⟨offsetHead, toInt sizeInBytes, false⟩
            let holeList1 := m.holeList.insertIdx offsetIndex insertNode
            let holeList2 := holeList1.set (offsetIndex + 1)
              { nodeAt holeList1 (offsetIndex + 1) with
                head := toInt (toSizeT (toSizeT offsetHead + sizeInBytes)) }
            let holeList3 := holeList2.set (offsetIndex + 1)
              { nodeAt holeList2 (offsetIndex + 1) with
                len := toInt (toSizeT (toSizeT (nodeAt holeList2 (offsetIndex + 1)).len
                  - sizeInBytes)) }
            some (some (m.memBlock +
                toUnsigned (toUnsigned (nodeAt holeList3 offsetIndex).head * m.natWordSize)),
              { m with holeList := holeList3 })

/-- First merge step of `free`: absorb the next node when it is a hole. -/
def mergeNext (holeList : List Node) (offsetIndex : Nat) : List Node :=
  if offsetIndex + 1 < holeList.length ∧ (nodeAt holeList (offsetIndex + 1)).isHole then
    (holeList.set offsetIndex
      { nodeAt holeList offsetIndex with
        len := toInt ((nodeAt holeList offsetIndex).len
          + (nodeAt holeList (offsetIndex + 1)).len) }).eraseIdx (offsetIndex + 1)
  else holeList

/-- Second merge step of `free`: absorb the previous node when it is a hole; the
second component is `offsetIndex` after the step. -/
def mergePrev (holeList : List Node) (offsetIndex : Nat) : List Node × Nat :=
  if 1 ≤ offsetIndex ∧ (nodeAt holeList (offsetIndex - 1)).isHole then
    let holeList1 := holeList.set offsetIndex
      { nodeAt holeList offsetIndex with head := (nodeAt holeList (offsetIndex - 1)).head }
    let holeList2 := holeList1.set offsetIndex
      { nodeAt holeList1 offsetIndex with
        len := toInt ((nodeAt holeList1 offsetIndex).len
          + (nodeAt holeList1 (offsetIndex - 1)).len) }
    (holeList2.eraseIdx (offsetIndex - 1), offsetIndex - 1)
  else (holeList, offsetIndex)

/-- The method `free(address)`. In `ceil(((char *) address - memBlock) / natWordSize)`
the division is the integer division of a `ptrdiff_t`, which truncates, so `ceil`
receives an integral value and changes nothing; the offset is that quotient, taken to
be representable as `int`. -/
def free (m : MemoryManager) (address : Int) : MemoryManager :=
  let offset := Int.tdiv (address - m.memBlock) m.natWordSize
  match findHead offset m.holeList 0 with
  | none => m
  | some offsetIndex =>
    let holeList1 := mergeNext m.holeList offsetIndex
    let step := mergePrev holeList1 offsetIndex
    { m with holeList := step.1.set step.2 { nodeAt step.1 step.2 with isHole := true } }

/-- The method `setAllocator(allocator)`. -/
def setAllocator (m : MemoryManager) (allocator : Allocator) : MemoryManager :=
  { m with defAllocator := allocator }

end MemoryManager

/-! ## Call sequences -/

/-- One call on the public interface of the allocator. -/
inductive Call where
  | allocate (sizeInBytes : Int)
  | free (address : Int)
  | setAllocator (allocator : Allocator)

/-- Run a sequence of calls, each with the given fuel; `none` when some call did
not return within the fuel. -/
def runCalls (fuel : Nat) : MemoryManager → List Call → Option MemoryManager
  | m, [] => some m
  | m, Call.allocate sizeInBytes :: rest =>
    match MemoryManager.allocate fuel m sizeInBytes with
    | none => none
    | some r => runCalls fuel r.2 rest
  | m, Call.free address :: rest => runCalls fuel (MemoryManager.free m address) rest
  | m, Call.setAllocator allocator :: rest =>
    runCalls fuel (MemoryManager.setAllocator m allocator) rest

/-! ## Invariants of the hole list -/

/-- The nodes tile the word range from `start` to `stop`: each node begins where
the previous one ended and has positive length. -/
def PartitionFrom : Int → List Node → Int → Prop
  | start, [], stop => start = stop
  | start, nd :: rest, stop =>
    nd.head = start ∧ 0 < nd.len ∧ PartitionFrom (start + nd.len) rest stop

/-- The hole list partitions the arena `[0, n)`. -/
def Partition (n : Int) (holeList : List Node) : Prop := PartitionFrom 0 holeList n

/-- Decision procedure for `PartitionFrom`. -/
def decPartitionFrom : (start : Int) → (l : List Node) → (stop : Int) →
    Decidable (PartitionFrom start l stop)
  | start, [], stop => inferInstanceAs (Decidable (start = stop))
  | start, nd :: rest, stop =>
    have := decPartitionFrom (start + nd.len) rest stop
    inferInstanceAs (Decidable (nd.head = start ∧ 0 < nd.len ∧
      PartitionFrom (start + nd.len) rest stop))

instance (start : Int) (l : List Node) (stop : Int) : Decidable (PartitionFrom start l stop) :=
  decPartitionFrom start l stop

instance (n : Int) (l : List Node) : Decidable (Partition n l) :=
  decPartitionFrom 0 l n

/-- No two consecutive nodes are both holes. -/
def NoAdjacentHoles : List Node → Prop
  | [] => True
  | [_] => True
  | a :: b :: rest => ¬ (a.isHole = true ∧ b.isHole = true) ∧ NoAdjacentHoles (b :: rest)

/-- Decision procedure for `NoAdjacentHoles`. -/
def decNoAdjacentHoles : (l : List Node) → Decidable (NoAdjacentHoles l)
  | [] => isTrue trivial
  | [_] => isTrue trivial
  | a :: b :: rest =>
    have := decNoAdjacentHoles (b :: rest)
    inferInstanceAs (Decidable (¬ (a.isHole = true ∧ b.isHole = true) ∧
      NoAdjacentHoles (b :: rest)))

instance (l : List Node) : Decidable (NoAdjacentHoles l) := decNoAdjacentHoles l

/-- The hole list of an optional state. -/
def holeListOf (r : Option MemoryManager) : Option (List Node) := r.map (fun m => m.holeList)

/-- Returned pointer and hole list of the result of `allocate`. -/
def outcome (r : Option (Option Int × MemoryManager)) : Option (Option Int × List Node) :=
  r.map (fun p => (p.1, p.2.holeList))

/-! ## Structural form of `free` -/

/-- Structural form of the first merge step of `free`, on the node and the nodes after it. -/
def absorbNext (x : Node) : List Node → Node × List Node
  | [] => (x, [])
  | y :: post =>
    if y.isHole = true then ({ x with len := toInt (x.len + y.len) }, post) else (x, y :: post)

/-- Structural form of the second merge step of `free`, on the nodes before the node
and the node. -/
def absorbPrev (pre : List Node) (x : Node) : List Node × Node :=
  match pre.getLast? with
  | none => (pre, x)
  | some p =>
    if p.isHole = true then
      (pre.dropLast, { x with head := p.head, len := toInt (x.len + p.len) })
    else (pre, x)

/-- Structural form of the list that `free` leaves when it found the node `x`
between `pre` and `post`. -/
def coalesce (pre : List Node) (x : Node) (post : List Node) : List Node :=
  (absorbPrev pre (absorbNext x post).1).1 ++
    { (absorbPrev pre (absorbNext x post).1).2 with isHole := true } :: (absorbNext x post).2

/-! ## Structural form of `allocate` -/

/-- Structural form of the list that `allocate` leaves when the placement function
chose the node `x` between `pre` and `post` for a request of `sizeInWords` words. -/
def place (pre : List Node) (x : Node) (post : List Node) (sizeInWords : Int) : List Node :=
  if toSizeT x.len = sizeInWords then pre ++ { x with isHole := false } :: post
  else
    pre ++ ⟨x.head, toInt sizeInWords, false⟩ ::
      ⟨toInt (toSizeT (toSizeT x.head + sizeInWords)),
        toInt (toSizeT (toSizeT x.len - sizeInWords)), x.isHole⟩ :: post

/-! ## The placement functions on a hole summary -/

/-- Offset of hole `j` in the body of a hole summary (the array after the count). -/
def holeOffset (body : List Int) (j : Nat) : Int := body.getD (2 * j) 0

/-- Length of hole `j` in the body of a hole summary. -/
def holeLength (body : List Int) (j : Nat) : Int := body.getD (2 * j + 1) 0

/-- The value `res` is what best fit selects among the first `c` holes for a request
of `r` words: -1 when no hole has length at least `r`, otherwise the offset of the
hole of least index among the qualifying holes of minimal length. -/
def BestSel (r : Int) (body : List Int) (c : Nat) (res : Int) : Prop :=
  (res = -1 ∧ ∀ j, j < c → holeLength body j < r) ∨
  ∃ i, i < c ∧ r ≤ holeLength body i ∧ res = holeOffset body i ∧
    (∀ j, j < c → r ≤ holeLength body j → holeLength body i ≤ holeLength body j) ∧
    (∀ j, j < i → r ≤ holeLength body j → holeLength body i < holeLength body j)

/-- The value `res` is what worst fit selects among the first `c` holes for a request
of `r` words: -1 when no hole has length at least `r`, otherwise the offset of the
hole of least index among the holes of maximal length. -/
def WorstSel (r : Int) (body : List Int) (c : Nat) (res : Int) : Prop :=
  (res = -1 ∧ ∀ j, j < c → holeLength body j < r) ∨
  ∃ i, i < c ∧ r ≤ holeLength body i ∧ res = holeOffset body i ∧
    (∀ j, j < c → holeLength body j ≤ holeLength body i) ∧
    (∀ j, j < i → holeLength body j < holeLength body i)

/-- Loop invariant of `bestFit` after the first `p` holes. -/
def BestInv (r : Int) (body : List Int) (p : Nat) (minLen offset : Int) : Prop :=
  (offset = -1 ∧ minLen = 65536 ∧ ∀ j, j < p → holeLength body j < r) ∨
  ∃ i, i < p ∧ r ≤ holeLength body i ∧ minLen = holeLength body i ∧
    offset = holeOffset body i ∧
    (∀ j, j < p → r ≤ holeLength body j → holeLength body i ≤ holeLength body j) ∧
    (∀ j, j < i → r ≤ holeLength body j → holeLength body i < holeLength body j)

/-- Loop invariant of `worstFit` after the first `p` holes. -/
def WorstInv (r : Int) (body : List Int) (p : Nat) (maxLen offset : Int) : Prop :=
  (offset = -1 ∧ maxLen = -1 ∧ ∀ j, j < p → holeLength body j < r) ∨
  ∃ i, i < p ∧ r ≤ holeLength body i ∧ maxLen = holeLength body i ∧
    offset = holeOffset body i ∧
    (∀ j, j < p → holeLength body j ≤ holeLength body i) ∧
    (∀ j, j < i → holeLength body j < holeLength body i)

/-! ## Concrete states used below -/

/-- A 20-word arena of 2-byte words at address 4096, best fit, freshly initialised. -/
def arena20 : MemoryManager :=
  MemoryManager.initializeArena (MemoryManager.construct 2 bestFit 0) 20 4096

/-- A 16-word arena of 4-byte words at address 4096, worst fit, freshly initialised. -/
def arena16 : MemoryManager :=
  MemoryManager.initializeArena (MemoryManager.construct 4 worstFit 0) 16 4096

/-- A 65536-word arena of 1-byte words at address 4096, best fit, freshly initialised. -/
def arena65536 : MemoryManager :=
  MemoryManager.initializeArena (MemoryManager.construct 1 bestFit 0) 65536 4096

/-- A 3-word arena of words of 2147483648 bytes at address 4096, best fit, after
`initialize(3)` and `allocate(2147483649)`: two words occupied, one free. -/
def wideWords3 : MemoryManager :=
  ⟨2147483648, bestFit, 2147483648, 4096, [⟨0, 2, false⟩, ⟨2, 1, true⟩]⟩

/-- A 4-word arena of words of 2147483648 bytes at address 4096, worst fit, after
`initialize(4)` and `allocate(2147483649)`: two words occupied, two free. -/
def wideWords4 : MemoryManager :=
  ⟨2147483648, worstFit, 0, 4096, [⟨0, 2, false⟩, ⟨2, 2, true⟩]⟩

/-- The state of `arena20` after `allocate(10)`: five words occupied, fifteen free. -/
def arena20Used : MemoryManager :=
  ⟨2, bestFit, 40, 4096, [⟨0, 5, false⟩, ⟨5, 15, true⟩]⟩

/-- The hole list after `allocate(sizeInBytes)` immediately followed by `free` of the
returned pointer; `none` when `allocate` did not return or returned `nullptr`. -/
def allocateThenFree (fuel : Nat) (m : MemoryManager) (sizeInBytes : Int) :
    Option (List Node) :=
  match MemoryManager.allocate fuel m sizeInBytes with
  | some (some address, m1) => some (MemoryManager.free m1 address).holeList
  | _ => none

/-- The body of a hole summary of `n` one-word holes at every second word from `off`. -/
def oneWordHoles : Nat → Int → List Int
  | 0, _ => []
  | n + 1, off => off :: 1 :: oneWordHoles n (off + 2)

/-- The hole summary of a 65535-word arena in which every even word is a one-word
hole and every odd word is occupied: 32768 holes. -/
def summary32768 : List Int := 32768 :: oneWordHoles 32768 0

/-! ## The hole summary read off the hole list -/

/-- Number of holes of a hole list. -/
def holeCount : List Node → Nat
  | [] => 0
  | nd :: rest => if nd.isHole = true then holeCount rest + 1 else holeCount rest

/-- Head and length, as `uint16_t`, of every hole of a hole list, in list order. -/
def holePairs : List Node → List Int
  | [] => []
  | nd :: rest =>
    if nd.isHole = true then toUint16 nd.head :: toUint16 nd.len :: holePairs rest
    else holePairs rest

/-- The array that `getList` builds when it returns: the `uint16_t` hole count followed
by that many pairs. -/
def holeSummary (l : List Node) : List Int :=
  ((holeCount l % 65536 : Nat) : Int) :: (holePairs l).take (2 * (holeCount l % 65536))

/-! ## The selection of a placement function in terms of the hole list -/

/-- The node `x` between `pre` and `post` is the best fit for `r` words: the first
hole of minimal length among the holes of length at least `r`. -/
def IsBestFit (pre : List Node) (x : Node) (post : List Node) (r : Int) : Prop :=
  x.isHole = true ∧ r ≤ x.len ∧
  (∀ y ∈ pre ++ x :: post, y.isHole = true → r ≤ y.len → x.len ≤ y.len) ∧
  (∀ y ∈ pre, y.isHole = true → r ≤ y.len → x.len < y.len)

/-- The node `x` between `pre` and `post` is the worst fit for `r` words: the first
hole of maximal length, and that length is at least `r`. -/
def IsWorstFit (pre : List Node) (x : Node) (post : List Node) (r : Int) : Prop :=
  x.isHole = true ∧ r ≤ x.len ∧
  (∀ y ∈ pre ++ x :: post, y.isHole = true → y.len ≤ x.len) ∧
  (∀ y ∈ pre, y.isHole = true → y.len < x.len)

/-- Head and length of every node are unchanged by the conversion to `uint16_t`. -/
def Fits16 (l : List Node) : Prop :=
  ∀ y ∈ l, toUint16 y.head = y.head ∧ toUint16 y.len = y.len

/-- What a placement function returned, read on the hole list: -1 and no hole of
length at least `r`, or the head of the node selected by `sel`. -/
def Selected (sel : List Node → Node → List Node → Int → Prop) (l : List Node) (r res : Int) :
    Prop :=
  (res = -1 ∧ ∀ y ∈ l, y.isHole = true → y.len < r) ∨
  ∃ pre x post, l = pre ++ x :: post ∧ res = x.head ∧ sel pre x post r

/-- The placement function `f` returns, on the summary of every hole list with fewer
than 32768 holes whose heads and lengths fit 16 bits, the head of the node that `sel`
describes (or -1 when no hole is long enough), as soon as the fuel exceeds the number
of holes. -/
def Implements (f : Allocator) (sel : List Node → Node → List Node → Int → Prop) : Prop :=
  ∀ (l : List Node) (r : Int), Fits16 l → holeCount l < 32768 →
    ∀ fuel : Nat,
      (holeCount l < fuel → ∃ res, f fuel r (holeSummary l) = some res) ∧
      ∀ res, f fuel r (holeSummary l) = some res → Selected sel l r res

/-! ## Calls with representable requests -/

/-- A call whose arguments the code handles within its integer types: an allocation of
at least one byte whose size in words is below 2^31, any `free`, and `setAllocator`
with one of the two placement functions of the repository. -/
def SaneCall (wordSize : Int) : Call → Prop
  | Call.allocate sz =>
    1 ≤ sz ∧ sz < 18446744073709551616 ∧ (sz - 1) / wordSize + 1 < 2147483648
  | Call.free _ => True
  | Call.setAllocator f => f = bestFit ∨ f = worstFit

/-- The state invariant carried along a sequence of calls on an arena of `n` words. -/
def ArenaInv (wordSize n : Int) (m : MemoryManager) : Prop :=
  m.natWordSize = wordSize ∧ (m.defAllocator = bestFit ∨ m.defAllocator = worstFit) ∧
  Partition n m.holeList ∧ NoAdjacentHoles m.holeList ∧
  (n = 65536 → m.holeList = [⟨0, 65536, true⟩])

/-! ## Accessors -/

/-- The method `getWordSize()`. -/
def MemoryManager.getWordSize (m : MemoryManager) : Int := m.natWordSize

/-- The method `getMemoryStart()`; the null pointer is 0. -/
def MemoryManager.getMemoryStart (m : MemoryManager) : Int :=
  if m.memBlock ≠ 0 then m.memBlock else 0

/-- The method `getMemoryLimit()`. -/
def MemoryManager.getMemoryLimit (m : MemoryManager) : Int := m.memoryLimit

/-! ## The hole summary in the words of the specification -/

/-- The free segments of a hole list, in list order. -/
def freeSegments (l : List Node) : List Node := l.filter (fun nd => nd.isHole)

/-- Start and length of each of the given segments, in order. -/
def encodePairs : List Node → List Int
  | [] => []
  | nd :: rest => nd.head :: nd.len :: encodePairs rest

/-- The hole summary as the specification words it: the number of free segments, then
start and length of each free segment in hole-list order. -/
def summaryEncoding (l : List Node) : List Int :=
  ((freeSegments l).length : Int) :: encodePairs (freeSegments l)

/-- A 65536-word arena of 2-byte words at address 8192, worst fit, freshly initialised. -/
def arena65536w : MemoryManager :=
  MemoryManager.initializeArena (MemoryManager.construct 2 worstFit 0) 65536 8192

/-- A 65536-word arena of 65536-byte words at address 4096, best fit, freshly
initialised: 4294967296 bytes. -/
def arena4GiB : MemoryManager :=
  MemoryManager.initializeArena (MemoryManager.construct 65536 bestFit 0) 65536 4096

/-! ## `free` in the words of the specification -/

/-- Length that a neighbour contributes to the merged segment: its length when it is a
free segment, 0 when it is occupied or absent. -/
def absorbedLen : Option Node → Int
  | some nd => if nd.isHole = true then nd.len else 0
  | none => 0

/-- Whether a neighbour is present and free. -/
def isFreeNeighbour : Option Node → Bool
  | some nd => nd.isHole
  | none => false

/-- The hole list after freeing the segment `x` between `pre` and `post`, as the
specification words it: `x` and its free immediate neighbours are replaced by one free
segment, starting at the previous segment when that one is free and else at `x`, whose
length is the sum of the lengths replaced; all other segments stay. -/
def freedList (pre : List Node) (x : Node) (post : List Node) : List Node :=
  (if isFreeNeighbour pre.getLast? = true then pre.dropLast else pre) ++
    ⟨(match pre.getLast? with
        | some p => if p.isHole = true then p.head else x.head
        | none => x.head),
      x.len + absorbedLen pre.getLast? + absorbedLen post.head?, true⟩ ::
    (if isFreeNeighbour post.head? = true then post.tail else post)

/-- The word offset that `free(address)` looks up. -/
def MemoryManager.freeOffset (m : MemoryManager) (address : Int) : Int :=
  Int.tdiv (address - m.memBlock) m.natWordSize

/-- The body of `free` after the offset is computed: look the offset up, merge, mark. -/
def MemoryManager.freeAt (m : MemoryManager) (offset : Int) : MemoryManager :=
  match findHead offset m.holeList 0 with
  | none => m
  | some offsetIndex =>
    let holeList1 := MemoryManager.mergeNext m.holeList offsetIndex
    let step := MemoryManager.mergePrev holeList1 offsetIndex
    { m with holeList := step.1.set step.2 { nodeAt step.1 step.2 with isHole := true } }

/-- The quotient of `a` by `b > 0` rounded up. -/
def ceilDiv (a b : Int) : Int := -((-a) / b)

/-- The 20-word arena of 2-byte words after `allocate(10)`, `allocate(8)` and `free` of
the first block. -/
def arena20Middle : MemoryManager :=
  ⟨2, bestFit, 40, 4096, [⟨0, 5, true⟩, ⟨5, 4, false⟩, ⟨9, 11, true⟩]⟩

/-- The 20-word arena of 2-byte words after two calls `allocate(2)`: two occupied
one-word segments and a hole of 18 words. -/
def arena20Two : MemoryManager :=
  ⟨2, bestFit, 40, 4096, [⟨0, 1, false⟩, ⟨1, 1, false⟩, ⟨2, 18, true⟩]⟩

/-- The hole list in which, from word `start` on, every second word is a one-word hole
and the words between are one-word occupied segments: `n + 1` holes, `n` occupied. -/
def alternating : Nat → Int → List Node
  | 0, start => [⟨start, 1, true⟩]
  | n + 1, start => ⟨start, 1, true⟩ :: ⟨start + 1, 1, false⟩ :: alternating n (start + 2)

/-- A 65535-word arena of 1-byte words in which every even word is a one-word hole and
every odd word is occupied: 32768 holes. -/
def arenaAlternating : MemoryManager :=
  ⟨1, bestFit, 65535, 4096, alternating 32767 0⟩

/-! ## The method `dumpMemoryMap`: the text written -/

/-- The characters of `std::to_string(x)` for an `int`: the decimal digits, after a
minus sign when `x` is negative. -/
def toChars (x : Int) : List Char := (toString x).toList

/-- The characters that the loop of `dumpMemoryMap` appends for a hole:
`"[" + to_string(head) + ", " + to_string(len) + "] - "`. -/
def dumpEntry (nd : Node) : List Char :=
  ['['] ++ toChars nd.head ++ [',', ' '] ++ toChars nd.len ++ [']', ' ', '-', ' ']

/-- The loop of `dumpMemoryMap` over the hole list, appending to `memMap`. -/
def dumpLoop : List Node → List Char → List Char
  | [], memMap => memMap
  | nd :: rest, memMap =>
    if nd.isHole = true then dumpLoop rest (memMap ++ dumpEntry nd) else dumpLoop rest memMap

/-- The text that `dumpMemoryMap` hands to `write`: the string built by the loop, cut
by `memMap.substr(0, memMap.size() - 3)`; the count is computed in `size_t` and
`substr` returns at most the characters there are. -/
def MemoryManager.memoryMapText (m : MemoryManager) : List Char :=
  (dumpLoop m.holeList []).take (toSizeT ((dumpLoop m.holeList []).length - 3)).toNat

/-- The text of one free segment in the words of the specification: `[start, length]`
in decimal. -/
def segmentText (nd : Node) : List Char :=
  ['['] ++ toChars nd.head ++ [',', ' '] ++ toChars nd.len ++ [']']

/-- The given texts joined by `" - "`, without a separator before the first or after
the last. -/
def joinedByDash : List (List Char) → List Char
  | [] => []
  | [e] => e
  | e :: e2 :: rest => e ++ [' ', '-', ' '] ++ joinedByDash (e2 :: rest)

/-! ## States and placement functions for the safety claims -/

/-- A 20-word arena of 1-byte words at address 4096, best fit, freshly initialised. -/
def arena20Bytes : MemoryManager :=
  MemoryManager.initializeArena (MemoryManager.construct 1 bestFit 0) 20 4096

/-- A placement function that returns the same offset whatever it is asked. -/
def alwaysOffset (offset : Int) : Allocator := fun _ _ _ => some offset

/-! ## The method `getBitmap` -/

/-- The assignment `list[i] = v` on a `uint8_t` array: the value is stored modulo 256;
`none` when `i` is outside the array. An element that was never assigned is `none`,
since `new uint8_t[n]` leaves the bytes indeterminate. -/
def storeByte (list : List (Option Int)) (i v : Int) : Option (List (Option Int)) :=
  if 0 ≤ i ∧ i < list.length then some (list.set i.toNat (some (v % 256))) else none

/-- The variables of `getBitmap` that its loops change: the array `list` and the `int`
counters `numEight` and `bite`. -/
structure BitmapState where
  list : List (Option Int)
  numEight : Int
  bite : Int
deriving DecidableEq

/-- The inner loop of `getBitmap`, `count` more rounds for a node with the given `bit`:
add `bit << numEight % 8` to `bite`, count the word, and after every eighth word store
`bite` at `list[numEight / 8 + 1]` and clear it. The `int` counters are not reduced
here: `bite` stays below 256 and `numEight` counts the words of the list. -/
def bitmapInner : Nat → Int → BitmapState → Option BitmapState
  | 0, _, s => some s
  | count + 1, bit, s =>
    let bite := s.bite + bit * 2 ^ (s.numEight % 8).toNat
    let numEight := s.numEight + 1
    if numEight % 8 = 0 then
      match storeByte s.list (numEight / 8 + 1) bite with
      | none => none
      | some list => bitmapInner count bit ⟨list, numEight, 0⟩
    else bitmapInner count bit ⟨s.list, numEight, bite⟩

/-- The outer loop of `getBitmap` over the hole list: `len` rounds of the inner loop
for each node (none when `len` is not positive), with bit 0 for a hole and 1 otherwise. -/
def bitmapOuter : List Node → BitmapState → Option BitmapState
  | [], s => some s
  | nd :: rest, s =>
    match bitmapInner nd.len.toNat (if nd.isHole = true then 0 else 1) s with
    | none => none
    | some s1 => bitmapOuter rest s1

/-- The method `getBitmap()`: the array it returns, `none` when it divides by a zero
word size or writes outside the array it allocated. `numByte` is computed in `unsigned`
from `memoryLimit / natWordSize` and narrowed to `int`; the array has `2 + numByte`
bytes. -/
def MemoryManager.getBitmap (m : MemoryManager) : Option (List (Option Int)) :=
  if m.natWordSize = 0 then none
  else
    let numByte := toInt (toUnsigned (m.memoryLimit / m.natWordSize + 7) / 8)
    match storeByte (List.replicate (2 + numByte).toNat none) 0 (numByte % 256) with
    | none => none
    | some list1 =>
      match storeByte list1 1 (numByte / 256) with
      | none => none
      | some list2 =>
        match bitmapOuter m.holeList ⟨list2, 0, 0⟩ with
        | none => none
        | some s =>
          if s.numEight % 8 ≠ 0 then storeByte s.list (numByte + 1) s.bite else some s.list

/-- The number of body bytes of the bitmap in the words of the specification:
`ceil(n / 8)`. -/
def bitmapBodySize (n : Int) : Int := ceilDiv n 8

/-- The occupancy bit of word `i` in the words of the specification: 1 when `i` lies in
an occupied segment, else 0. -/
def occupiedBit (l : List Node) (i : Int) : Int :=
  if ∃ nd ∈ l, nd.isHole = false ∧ nd.head ≤ i ∧ i < nd.head + nd.len then 1 else 0

/-- The bits `β base`, ..., `β (base + count - 1)` packed into a number, lowest bit
first. -/
def packBits (β : Int → Int) (base : Int) : Nat → Int
  | 0 => 0
  | t + 1 => packBits β base t + β (base + t) * 2 ^ t

/-- The bitmap in the words of the specification for a hole list over `n` words: the
number of body bytes in two bytes, low byte first, then one body byte for every eight
words with the occupancy bit of word `i` at bit `i mod 8` of body byte `i div 8`. -/
def bitmapBytes (l : List Node) (n : Int) : List Int :=
  bitmapBodySize n % 256 :: bitmapBodySize n / 256 ::
    (List.range (bitmapBodySize n).toNat).map
      (fun b : Nat => packBits (occupiedBit l) (8 * (b : Int)) 8)

/-- The state of the loops of `getBitmap` after `p` words, for the bits `β` and an array
of `nb` body bytes: the counters, the two count bytes, and the body bytes completed so
far. -/
def BitmapInv (β : Int → Int) (nb : Int) (p : Nat) (s : BitmapState) : Prop :=
  s.numEight = p ∧ s.bite = packBits β (8 * (p / 8 : Nat)) (p % 8) ∧
  s.list.length = (nb + 2).toNat ∧
  s.list[0]? = some (some (nb % 256)) ∧ s.list[1]? = some (some (nb / 256)) ∧
  ∀ b : Nat, b < p / 8 → s.list[b + 2]? = some (some (packBits β (8 * b) 8))

/-! ## Live blocks -/

/-- Run a sequence of calls and keep the record `live` of the blocks that `allocate`
has returned and that have not been freed since: the address and the number of words
requested, `(sizeInBytes - 1) / natWordSize + 1`. The result is `none` when a call does
not return within the fuel, and also when `free` is called with an address that is not
the address of a live block. -/
def runLive (fuel : Nat) :
    MemoryManager → List (Int × Int) → List Call → Option (MemoryManager × List (Int × Int))
  | m, live, [] => some (m, live)
  | m, live, Call.allocate sizeInBytes :: rest =>
    match MemoryManager.allocate fuel m sizeInBytes with
    | none => none
    | some (none, m1) => runLive fuel m1 live rest
    | some (some address, m1) =>
      runLive fuel m1
        ((address, MemoryManager.sizeInWordsOf m.natWordSize sizeInBytes) :: live) rest
  | m, live, Call.free address :: rest =>
    if live.any (fun b => b.1 = address) = true then
      runLive fuel (MemoryManager.free m address) (live.filter (fun b => b.1 ≠ address)) rest
    else none
  | m, live, Call.setAllocator allocator :: rest =>
    runLive fuel (MemoryManager.setAllocator m allocator) live rest

/-- Every live block is an occupied node of the hole list: its address is the byte
address of the node's first word and its size is the node's length; no two live blocks
have the same address. -/
def LiveInv (base : Int) (m : MemoryManager) (live : List (Int × Int)) : Prop :=
  m.memBlock = base ∧ (live.map Prod.fst).Nodup ∧
  ∀ b ∈ live, ∃ nd ∈ m.holeList,
    nd.isHole = false ∧ b.1 = base + nd.head * m.natWordSize ∧ b.2 = nd.len

/-- The live blocks lie inside the arena of `n` words at `base`, start on a word
boundary, have different addresses, and no two of them share a byte. -/
def LiveSafe (wordSize n base : Int) (live : List (Int × Int)) : Prop :=
  (∀ b ∈ live, base ≤ b.1 ∧ (b.1 - base) % wordSize = 0 ∧ 1 ≤ b.2 ∧
    b.1 + b.2 * wordSize ≤ base + n * wordSize) ∧
  (live.map Prod.fst).Nodup ∧
  ∀ b ∈ live, ∀ c ∈ live, b.1 ≠ c.1 →
    b.1 + b.2 * wordSize ≤ c.1 ∨ c.1 + c.2 * wordSize ≤ b.1

/-! ## List lemmas -/

theorem nodeAt_append_length (pre : List Node) (x : Node) (post : List Node) :
    nodeAt (pre ++ x :: post) pre.length = x := by
  induction pre with
  | nil => rfl
  | cons a pre ih => simpa [nodeAt] using ih

theorem nodeAt_append_succ (pre : List Node) (x y : Node) (post : List Node) :
    nodeAt (pre ++ x :: y :: post) (pre.length + 1) = y := by
  induction pre with
  | nil => rfl
  | cons a pre ih => simpa [nodeAt] using ih

theorem nodeAt_concat_pred (pre : List Node) (p x : Node) (post : List Node) :
    nodeAt ((pre ++ [p]) ++ x :: post) pre.length = p := by
  induction pre with
  | nil => rfl
  | cons a pre ih => simpa [nodeAt] using ih

theorem set_append_length (pre : List Node) (x z : Node) (post : List Node) :
    (pre ++ x :: post).set pre.length z = pre ++ z :: post := by
  simp [List.set_append_right]

theorem set_append_succ (pre : List Node) (x y z : Node) (post : List Node) :
    (pre ++ x :: y :: post).set (pre.length + 1) z = pre ++ x :: z :: post := by
  simp [List.set_append_right]

theorem eraseIdx_append_succ (pre : List Node) (x y : Node) (post : List Node) :
    (pre ++ x :: y :: post).eraseIdx (pre.length + 1) = pre ++ x :: post := by
  rw [List.eraseIdx_append_of_length_le (by omega)]
  simp

theorem eraseIdx_concat (pre : List Node) (p : Node) (rest : List Node) :
    ((pre ++ [p]) ++ rest).eraseIdx pre.length = pre ++ rest := by
  rw [List.append_assoc, List.eraseIdx_append_of_length_le (by omega)]
  simp

theorem insertIdx_append_length (pre : List Node) (z : Node) (rest : List Node) :
    (pre ++ rest).insertIdx pre.length z = pre ++ z :: rest := by
  induction pre with
  | nil => simp
  | cons a pre ih => simpa [List.insertIdx_succ_cons] using ih

theorem findHead_decomp (offset : Int) : ∀ (l : List Node) (i k : Nat),
    findHead offset l i = some k →
    ∃ pre x post, l = pre ++ x :: post ∧ k = i + pre.length ∧ x.head = offset ∧
      ∀ y ∈ pre, y.head ≠ offset := by
  intro l
  induction l with
  | nil => intro i k h; simp [findHead] at h
  | cons nd rest ih =>
    intro i k h
    unfold findHead at h
    by_cases hd : nd.head = offset
    · rw [if_pos hd] at h
      refine ⟨[], nd, rest, rfl, ?_, hd, ?_⟩
      · simp at h; simp [h]
      · simp
    · rw [if_neg hd] at h
      obtain ⟨pre, x, post, hl, hk, hx, hpre⟩ := ih (i + 1) k h
      refine ⟨nd :: pre, x, post, by simp [hl], by simp [hk]; omega, hx, ?_⟩
      intro y hy
      rcases List.mem_cons.mp hy with rfl | hy
      · exact hd
      · exact hpre y hy

theorem findHead_none (offset : Int) : ∀ (l : List Node) (i : Nat),
    (∀ y ∈ l, y.head ≠ offset) → findHead offset l i = none := by
  intro l
  induction l with
  | nil => intro i _; rfl
  | cons nd rest ih =>
    intro i h
    unfold findHead
    rw [if_neg (h nd (List.mem_cons_self _ _))]
    exact ih (i + 1) (fun y hy => h y (List.mem_cons_of_mem _ hy))

theorem findHead_append (offset : Int) : ∀ (pre : List Node) (x : Node) (post : List Node) (i : Nat),
    (∀ y ∈ pre, y.head ≠ offset) → x.head = offset →
    findHead offset (pre ++ x :: post) i = some (i + pre.length) := by
  intro pre
  induction pre with
  | nil => intro x post i _ hx; simp [findHead, hx]
  | cons nd rest ih =>
    intro x post i h hx
    rw [List.cons_append, findHead]
    rw [if_neg (h nd (List.mem_cons_self _ _))]
    rw [ih x post (i + 1) (fun y hy => h y (List.mem_cons_of_mem _ hy)) hx]
    simp; omega

/-! ## Structural form of `free` -/

theorem mergeNext_append (pre : List Node) (x : Node) (post : List Node) :
    MemoryManager.mergeNext (pre ++ x :: post) pre.length =
      pre ++ (absorbNext x post).1 :: (absorbNext x post).2 := by
  cases post with
  | nil => simp [MemoryManager.mergeNext, absorbNext]
  | cons y post =>
    unfold MemoryManager.mergeNext
    rw [nodeAt_append_succ, nodeAt_append_length]
    by_cases hy : y.isHole = true
    · rw [if_pos ⟨by simp, hy⟩, set_append_length, eraseIdx_append_succ]
      simp [absorbNext, hy]
    · rw [if_neg (fun h => hy h.2)]
      simp [absorbNext, hy]

theorem absorbPrev_nil (x : Node) : absorbPrev [] x = ([], x) := rfl

theorem absorbPrev_concat (pre : List Node) (p x : Node) :
    absorbPrev (pre ++ [p]) x =
      if p.isHole = true then (pre, { x with head := p.head, len := toInt (x.len + p.len) })
      else (pre ++ [p], x) := by
  simp [absorbPrev]

theorem mergePrev_append (pre : List Node) (x : Node) (post : List Node) :
    MemoryManager.mergePrev (pre ++ x :: post) pre.length =
      ((absorbPrev pre x).1 ++ (absorbPrev pre x).2 :: post, (absorbPrev pre x).1.length) := by
  rcases List.eq_nil_or_concat pre with rfl | ⟨pre1, p, rfl⟩
  · simp [MemoryManager.mergePrev, absorbPrev]
  · rw [List.concat_eq_append]
    have hlen : (pre1 ++ [p]).length - 1 = pre1.length := by simp
    have hlen1 : 1 ≤ (pre1 ++ [p]).length := by simp
    unfold MemoryManager.mergePrev
    rw [absorbPrev_concat]
    simp only [hlen, nodeAt_concat_pred]
    by_cases hp : p.isHole = true
    · rw [if_pos ⟨hlen1, hp⟩, if_pos hp]
      simp only [set_append_length, nodeAt_append_length, nodeAt_concat_pred]
      rw [eraseIdx_concat]
    · rw [if_neg (fun h => hp h.2), if_neg hp]

theorem free_of_findHead_none (m : MemoryManager) (address : Int)
    (h : findHead (Int.tdiv (address - m.memBlock) m.natWordSize) m.holeList 0 = none) :
    MemoryManager.free m address = m := by
  unfold MemoryManager.free
  simp only [h]

theorem free_of_decomp (m : MemoryManager) (address : Int) (pre : List Node) (x : Node)
    (post : List Node) (hl : m.holeList = pre ++ x :: post)
    (hx : x.head = Int.tdiv (address - m.memBlock) m.natWordSize)
    (hpre : ∀ y ∈ pre, y.head ≠ Int.tdiv (address - m.memBlock) m.natWordSize) :
    MemoryManager.free m address = { m with holeList := coalesce pre x post } := by
  have hf := findHead_append _ pre x post 0 hpre hx
  unfold MemoryManager.free
  rw [hl]
  simp only [hf, Nat.zero_add, mergeNext_append, mergePrev_append, nodeAt_append_length,
    set_append_length, coalesce]

/-! ## Structural form of `allocate` -/

theorem allocate_of_decomp (fuel : Nat) (m : MemoryManager) (n : Int) (list : List Int)
    (offset : Int) (pre : List Node) (x : Node) (post : List Node)
    (hg : MemoryManager.getList fuel m = some list)
    (ha : m.defAllocator fuel (toInt (MemoryManager.sizeInWordsOf m.natWordSize n)) list = some offset)
    (ho : offset ≠ -1) (hl : m.holeList = pre ++ x :: post) (hx : x.head = offset)
    (hpre : ∀ y ∈ pre, y.head ≠ offset) :
    MemoryManager.allocate fuel m n =
      some (some (m.memBlock + toUnsigned (toUnsigned x.head * m.natWordSize)),
        { m with holeList := place pre x post (MemoryManager.sizeInWordsOf m.natWordSize n) }) := by
  have hf := findHead_append offset pre x post 0 hpre hx
  unfold MemoryManager.allocate
  simp only [hg, ha, if_neg ho, hl, hf, Nat.zero_add, nodeAt_append_length]
  by_cases hfit : toSizeT x.len = MemoryManager.sizeInWordsOf m.natWordSize n
  · simp only [if_pos hfit, set_append_length, nodeAt_append_length, place]
  · simp only [if_neg hfit, insertIdx_append_length, nodeAt_append_succ, set_append_succ,
      nodeAt_append_length, place]

theorem allocate_cases (fuel : Nat) (m : MemoryManager) (n : Int) (r : Option Int)
    (m' : MemoryManager) (h : MemoryManager.allocate fuel m n = some (r, m')) :
    (r = none ∧ m' = m) ∨
    ∃ list offset pre x post,
      MemoryManager.getList fuel m = some list ∧
      m.defAllocator fuel (toInt (MemoryManager.sizeInWordsOf m.natWordSize n)) list = some offset ∧
      offset ≠ -1 ∧ m.holeList = pre ++ x :: post ∧ x.head = offset ∧
      (∀ y ∈ pre, y.head ≠ offset) ∧
      r = some (m.memBlock + toUnsigned (toUnsigned x.head * m.natWordSize)) ∧
      m' = { m with holeList := place pre x post (MemoryManager.sizeInWordsOf m.natWordSize n) } := by
  cases hg : MemoryManager.getList fuel m with
  | none => simp [MemoryManager.allocate, hg] at h
  | some list =>
    cases ha : m.defAllocator fuel (toInt (MemoryManager.sizeInWordsOf m.natWordSize n)) list with
    | none => simp [MemoryManager.allocate, hg, ha] at h
    | some offset =>
      by_cases ho : offset = -1
      · left
        simp [MemoryManager.allocate, hg, ha, ho] at h
        exact ⟨h.1.symm, h.2.symm⟩
      · cases hf : findHead offset m.holeList 0 with
        | none =>
          left
          simp [MemoryManager.allocate, hg, ha, ho, hf] at h
          exact ⟨h.1.symm, h.2.symm⟩
        | some idx =>
          right
          obtain ⟨pre, x, post, hl, _, hx, hpre⟩ := findHead_decomp offset m.holeList 0 idx hf
          rw [allocate_of_decomp fuel m n list offset pre x post hg ha ho hl hx hpre] at h
          simp only [Option.some.injEq, Prod.mk.injEq] at h
          exact ⟨list, offset, pre, x, post, rfl, ha, ho, hl, hx, hpre, h.1.symm, h.2.symm⟩

/-! ## Preservation of `NoAdjacentHoles` -/

theorem noAdjacentHoles_iff_chain (l : List Node) :
    NoAdjacentHoles l ↔ List.Chain' (fun a b => ¬ (a.isHole = true ∧ b.isHole = true)) l := by
  induction l with
  | nil => simp [NoAdjacentHoles]
  | cons a l ih =>
    cases l with
    | nil => simp [NoAdjacentHoles]
    | cons b rest =>
      rw [NoAdjacentHoles, List.chain'_cons, ih]

theorem noAdjacentHoles_mid (pre : List Node) (x : Node) (post : List Node) :
    NoAdjacentHoles (pre ++ x :: post) ↔
      NoAdjacentHoles pre ∧ NoAdjacentHoles post ∧
      (∀ p, pre.getLast? = some p → ¬ (p.isHole = true ∧ x.isHole = true)) ∧
      (∀ y, post.head? = some y → ¬ (x.isHole = true ∧ y.isHole = true)) := by
  simp only [noAdjacentHoles_iff_chain, List.chain'_append, List.chain'_cons', List.head?_cons,
    Option.mem_def, Option.some.injEq]
  constructor
  · rintro ⟨h1, ⟨h2, h3⟩, h4⟩
    exact ⟨h1, h3, fun p hp => h4 p hp x rfl, h2⟩
  · rintro ⟨h1, h2, h3, h4⟩
    exact ⟨h1, ⟨h4, h2⟩, fun p hp y hy => hy ▸ h3 p hp⟩

theorem noAdjacentHoles_place (pre : List Node) (x : Node) (post : List Node) (k : Int)
    (h : NoAdjacentHoles (pre ++ x :: post)) : NoAdjacentHoles (place pre x post k) := by
  obtain ⟨h1, h2, h3, h4⟩ := (noAdjacentHoles_mid pre x post).mp h
  unfold place
  split
  · exact (noAdjacentHoles_mid _ _ _).mpr ⟨h1, h2, by simp, by simp⟩
  · refine (noAdjacentHoles_mid _ _ _).mpr ⟨h1, ?_, by simp, by simp⟩
    exact (noAdjacentHoles_mid [] _ post).mpr ⟨trivial, h2, by simp, h4⟩

theorem absorbNext_snd (x : Node) (post : List Node) (h : NoAdjacentHoles post) :
    NoAdjacentHoles (absorbNext x post).2 ∧
      ∀ y, (absorbNext x post).2.head? = some y → y.isHole = false := by
  cases post with
  | nil => simp [absorbNext, NoAdjacentHoles]
  | cons y post =>
    obtain ⟨_, h2, _, h4⟩ := (noAdjacentHoles_mid [] y post).mp h
    by_cases hy : y.isHole = true
    · simp only [absorbNext, if_pos hy]
      refine ⟨h2, fun z hz => ?_⟩
      have := h4 z hz
      simpa [hy] using this
    · simp only [absorbNext, if_neg hy]
      refine ⟨h, fun z hz => ?_⟩
      simp at hz
      subst hz
      simpa using hy

theorem absorbPrev_fst (pre : List Node) (x : Node) (h : NoAdjacentHoles pre) :
    NoAdjacentHoles (absorbPrev pre x).1 ∧
      ∀ p, (absorbPrev pre x).1.getLast? = some p → p.isHole = false := by
  rcases List.eq_nil_or_concat pre with rfl | ⟨pre1, p, rfl⟩
  · simp [absorbPrev_nil, NoAdjacentHoles]
  · rw [List.concat_eq_append] at h ⊢
    rw [absorbPrev_concat]
    obtain ⟨h1, _, h3, _⟩ := (noAdjacentHoles_mid pre1 p []).mp h
    by_cases hp : p.isHole = true
    · rw [if_pos hp]
      refine ⟨h1, fun q hq => ?_⟩
      have := h3 q hq
      simpa [hp] using this
    · rw [if_neg hp]
      refine ⟨h, fun q hq => ?_⟩
      simp at hq
      subst hq
      simpa using hp

theorem noAdjacentHoles_coalesce (pre : List Node) (x : Node) (post : List Node)
    (h : NoAdjacentHoles (pre ++ x :: post)) : NoAdjacentHoles (coalesce pre x post) := by
  obtain ⟨h1, h2, _, _⟩ := (noAdjacentHoles_mid pre x post).mp h
  obtain ⟨a1, a2⟩ := absorbNext_snd x post h2
  obtain ⟨b1, b2⟩ := absorbPrev_fst pre (absorbNext x post).1 h1
  unfold coalesce
  refine (noAdjacentHoles_mid _ _ _).mpr ⟨b1, a1, fun p hp => ?_, fun y hy => ?_⟩
  · simp [b2 p hp]
  · simp [a2 y hy]

theorem noAdjacentHoles_allocate (fuel : Nat) (m : MemoryManager) (n : Int) (r : Option Int)
    (m' : MemoryManager) (h : MemoryManager.allocate fuel m n = some (r, m'))
    (hm : NoAdjacentHoles m.holeList) : NoAdjacentHoles m'.holeList := by
  rcases allocate_cases fuel m n r m' h with ⟨_, rfl⟩ | ⟨_, _, pre, x, post, _, _, _, hl, _, _, _, rfl⟩
  · exact hm
  · rw [hl] at hm
    exact noAdjacentHoles_place pre x post _ hm

theorem noAdjacentHoles_free (m : MemoryManager) (address : Int)
    (hm : NoAdjacentHoles m.holeList) : NoAdjacentHoles (MemoryManager.free m address).holeList := by
  cases hf : findHead (Int.tdiv (address - m.memBlock) m.natWordSize) m.holeList 0 with
  | none => rw [free_of_findHead_none m address hf]; exact hm
  | some idx =>
    obtain ⟨pre, x, post, hl, _, hx, hpre⟩ := findHead_decomp _ m.holeList 0 idx hf
    rw [free_of_decomp m address pre x post hl hx hpre]
    rw [hl] at hm
    exact noAdjacentHoles_coalesce pre x post hm

theorem noAdjacentHoles_runCalls (fuel : Nat) : ∀ (calls : List Call) (m m' : MemoryManager),
    runCalls fuel m calls = some m' → NoAdjacentHoles m.holeList →
    NoAdjacentHoles m'.holeList := by
  intro calls
  induction calls with
  | nil =>
    intro m m' h hm
    simp only [runCalls, Option.some.injEq] at h
    exact h ▸ hm
  | cons c rest ih =>
    intro m m' h hm
    cases c with
    | allocate n =>
      simp only [runCalls] at h
      cases ha : MemoryManager.allocate fuel m n with
      | none => simp [ha] at h
      | some r =>
        rw [ha] at h
        exact ih r.2 m' h (noAdjacentHoles_allocate fuel m n r.1 r.2 ha hm)
    | free a =>
      simp only [runCalls] at h
      exact ih _ m' h (noAdjacentHoles_free m a hm)
    | setAllocator f =>
      simp only [runCalls] at h
      exact ih _ m' h hm

theorem noAdjacentHoles_initializeArena (m : MemoryManager) (sizeInWords newBlock : Int)
    (hm : NoAdjacentHoles m.holeList) :
    NoAdjacentHoles (MemoryManager.initializeArena m sizeInWords newBlock).holeList := by
  unfold MemoryManager.initializeArena
  split
  · exact hm
  · cases hl : m.holeList with
    | nil => simp [hl, NoAdjacentHoles]
    | cons a l => simp [hl, MemoryManager.shutdown, NoAdjacentHoles]

/-- C2. From a freshly constructed allocator, `initialize` followed by any sequence of
`allocate`, `free` and `setAllocator` calls that all return leaves a hole list in
which no two consecutive nodes are both holes; this holds for every word size, every
arena size, every placement function and every argument of the calls, so in
particular after each call of the sequence. -/
theorem no_adjacent_holes_invariant (wordSize : Int) (allocator : Allocator)
    (memBlock0 sizeInWords newBlock : Int) (fuel : Nat) (calls : List Call) (m : MemoryManager)
    (h : runCalls fuel (MemoryManager.initializeArena
      (MemoryManager.construct wordSize allocator memBlock0) sizeInWords newBlock) calls = some m) :
    NoAdjacentHoles m.holeList :=
  noAdjacentHoles_runCalls fuel calls _ m h
    (noAdjacentHoles_initializeArena _ sizeInWords newBlock trivial)

/-- Claim C2 after `allocate(10)`, `allocate(8)` and `free` of the first block in a
20-word arena of 2-byte words. -/
theorem no_adjacent_holes_invariant_witness :
    NoAdjacentHoles [⟨0, 5, true⟩, ⟨5, 4, false⟩, ⟨9, 11, true⟩] :=
  no_adjacent_holes_invariant 2 bestFit 0 20 4096 10
    [Call.allocate 10, Call.allocate 8, Call.free 4096]
    ⟨2, bestFit, 40, 4096, [⟨0, 5, true⟩, ⟨5, 4, false⟩, ⟨9, 11, true⟩]⟩ rfl

/-! ## The placement functions on a hole summary -/

theorem bestInv_step (r : Int) (body : List Int) (p : Nat) (minLen offset : Int)
    (h16 : holeLength body p < 65536) (h : BestInv r body p minLen offset) :
    if holeLength body p ≥ r ∧ holeLength body p < minLen then
      BestInv r body (p + 1) (holeLength body p) (holeOffset body p)
    else BestInv r body (p + 1) minLen offset := by
  split
  next hc =>
    right
    refine ⟨p, by omega, hc.1, rfl, rfl, ?_, ?_⟩
    · intro j hj hq
      rcases Nat.lt_succ_iff_lt_or_eq.mp hj with hj | rfl
      · rcases h with ⟨_, _, hn⟩ | ⟨i, _, _, hm, _, hmin, _⟩
        · have := hn j hj; omega
        · have := hmin j hj hq; omega
      · exact le_refl _
    · intro j hj hq
      rcases h with ⟨_, _, hn⟩ | ⟨i, _, _, hm, _, hmin, _⟩
      · have := hn j hj; omega
      · have := hmin j hj hq; omega
  next hc =>
    rcases h with ⟨ho, hm, hn⟩ | ⟨i, hi, hq, hm, ho, hmin, hfirst⟩
    · left
      refine ⟨ho, hm, fun j hj => ?_⟩
      rcases Nat.lt_succ_iff_lt_or_eq.mp hj with hj | rfl
      · exact hn j hj
      · by_contra hcon
        exact hc ⟨by omega, by omega⟩
    · right
      refine ⟨i, by omega, hq, hm, ho, fun j hj hqj => ?_, hfirst⟩
      rcases Nat.lt_succ_iff_lt_or_eq.mp hj with hj | rfl
      · exact hmin j hj hqj
      · by_contra hcon
        exact hc ⟨hqj, by omega⟩

theorem bestFitLoop_returns (r : Int) (body : List Int) (c : Nat) (hc : c < 32768)
    (h16 : ∀ j, j < c → holeLength body j < 65536) :
    ∀ (n p : Nat) (minLen offset : Int) (fuel : Nat), p + n = c → n < fuel →
      BestInv r body p minLen offset →
      ∃ res ml, bestFitLoop r body (c : Int) fuel (2 * p + 1) minLen offset = some res ∧
        BestInv r body c ml res := by
  intro n
  induction n with
  | zero =>
    intro p minLen offset fuel hp hf hinv
    obtain ⟨fuel, rfl⟩ : ∃ k, fuel = k + 1 := ⟨fuel - 1, by omega⟩
    refine ⟨offset, minLen, ?_, by simpa [← hp] using hinv⟩
    unfold bestFitLoop
    rw [if_neg (by push_cast; omega)]
  | succ n ih =>
    intro p minLen offset fuel hp hf hinv
    obtain ⟨fuel, rfl⟩ : ∃ k, fuel = k + 1 := ⟨fuel - 1, by omega⟩
    have hstep := bestInv_step r body p minLen offset (h16 p (by omega)) hinv
    have hnext : (2 * p + 1 + 2) % 65536 = 2 * (p + 1) + 1 := by omega
    have hoff : body.getD (2 * p + 1 - 1) 0 = holeOffset body p := by
      simp [holeOffset]
    have hlen : body.getD (2 * p + 1) 0 = holeLength body p := rfl
    unfold bestFitLoop
    rw [if_pos (by push_cast; omega), hnext, hoff, hlen]
    by_cases hcond : holeLength body p ≥ r ∧ holeLength body p < minLen
    · rw [if_pos hcond] at hstep ⊢
      exact ih (p + 1) _ _ fuel (by omega) (by omega) hstep
    · rw [if_neg hcond] at hstep ⊢
      exact ih (p + 1) _ _ fuel (by omega) (by omega) hstep

theorem holeLength_mem (body : List Int) (j : Nat) (h : 2 * j + 1 < body.length) :
    holeLength body j ∈ body := by
  unfold holeLength
  rw [List.getD_eq_getElem _ _ h]
  exact List.getElem_mem h

theorem bestFit_returns (r : Int) (c : Nat) (body : List Int) (hc : c < 32768)
    (hlen : body.length = 2 * c) (h16 : ∀ v ∈ body, 0 ≤ v ∧ v < 65536)
    (fuel : Nat) (hf : c < fuel) :
    ∃ res, bestFit fuel r ((c : Int) :: body) = some res ∧ BestSel r body c res := by
  have hb : ∀ j, j < c → holeLength body j < 65536 := fun j hj =>
    (h16 _ (holeLength_mem body j (by omega))).2
  obtain ⟨res, ml, hres, hinv⟩ := bestFitLoop_returns r body c hc hb c 0 65536 (-1) fuel
    (by omega) hf (Or.inl ⟨rfl, rfl, fun j hj => absurd hj (Nat.not_lt_zero j)⟩)
  refine ⟨res, hres, ?_⟩
  rcases hinv with ⟨h1, _, h3⟩ | ⟨i, h1, h2, _, h4, h5, h6⟩
  · exact Or.inl ⟨h1, h3⟩
  · exact Or.inr ⟨i, h1, h2, h4, h5, h6⟩

theorem worstInv_step (r : Int) (body : List Int) (p : Nat) (maxLen offset : Int)
    (h16 : 0 ≤ holeLength body p) (h : WorstInv r body p maxLen offset) :
    if holeLength body p ≥ r ∧ holeLength body p > maxLen then
      WorstInv r body (p + 1) (holeLength body p) (holeOffset body p)
    else WorstInv r body (p + 1) maxLen offset := by
  split
  next hc =>
    right
    refine ⟨p, by omega, hc.1, rfl, rfl, ?_, ?_⟩
    · intro j hj
      rcases Nat.lt_succ_iff_lt_or_eq.mp hj with hj | rfl
      · rcases h with ⟨_, _, hn⟩ | ⟨i, _, _, hm, _, hmax, _⟩
        · have := hn j hj; omega
        · have := hmax j hj; omega
      · exact le_refl _
    · intro j hj
      rcases h with ⟨_, _, hn⟩ | ⟨i, _, _, hm, _, hmax, _⟩
      · have := hn j hj; omega
      · have := hmax j hj; omega
  next hc =>
    rcases h with ⟨ho, hm, hn⟩ | ⟨i, hi, hq, hm, ho, hmax, hfirst⟩
    · left
      refine ⟨ho, hm, fun j hj => ?_⟩
      rcases Nat.lt_succ_iff_lt_or_eq.mp hj with hj | rfl
      · exact hn j hj
      · by_contra hcon
        exact hc ⟨by omega, by omega⟩
    · right
      refine ⟨i, by omega, hq, hm, ho, fun j hj => ?_, hfirst⟩
      rcases Nat.lt_succ_iff_lt_or_eq.mp hj with hj | rfl
      · exact hmax j hj
      · by_contra hcon
        exact hc ⟨by omega, by omega⟩

theorem worstFitLoop_returns (r : Int) (body : List Int) (c : Nat) (hc : c < 32768)
    (h16 : ∀ j, j < c → 0 ≤ holeLength body j) :
    ∀ (n p : Nat) (maxLen offset : Int) (fuel : Nat), p + n = c → n < fuel →
      WorstInv r body p maxLen offset →
      ∃ res ml, worstFitLoop r body (c : Int) fuel (2 * p + 1) maxLen offset = some res ∧
        WorstInv r body c ml res := by
  intro n
  induction n with
  | zero =>
    intro p maxLen offset fuel hp hf hinv
    obtain ⟨fuel, rfl⟩ : ∃ k, fuel = k + 1 := ⟨fuel - 1, by omega⟩
    refine ⟨offset, maxLen, ?_, by simpa [← hp] using hinv⟩
    unfold worstFitLoop
    rw [if_neg (by push_cast; omega)]
  | succ n ih =>
    intro p maxLen offset fuel hp hf hinv
    obtain ⟨fuel, rfl⟩ : ∃ k, fuel = k + 1 := ⟨fuel - 1, by omega⟩
    have hstep := worstInv_step r body p maxLen offset (h16 p (by omega)) hinv
    have hnext : (2 * p + 1 + 2) % 65536 = 2 * (p + 1) + 1 := by omega
    have hoff : body.getD (2 * p + 1 - 1) 0 = holeOffset body p := by
      simp [holeOffset]
    have hlen : body.getD (2 * p + 1) 0 = holeLength body p := rfl
    unfold worstFitLoop
    rw [if_pos (by push_cast; omega), hnext, hoff, hlen]
    by_cases hcond : holeLength body p ≥ r ∧ holeLength body p > maxLen
    · rw [if_pos hcond] at hstep ⊢
      exact ih (p + 1) _ _ fuel (by omega) (by omega) hstep
    · rw [if_neg hcond] at hstep ⊢
      exact ih (p + 1) _ _ fuel (by omega) (by omega) hstep

theorem worstFit_returns (r : Int) (c : Nat) (body : List Int) (hc : c < 32768)
    (hlen : body.length = 2 * c) (h16 : ∀ v ∈ body, 0 ≤ v ∧ v < 65536)
    (fuel : Nat) (hf : c < fuel) :
    ∃ res, worstFit fuel r ((c : Int) :: body) = some res ∧ WorstSel r body c res := by
  have hb : ∀ j, j < c → 0 ≤ holeLength body j := fun j hj =>
    (h16 _ (holeLength_mem body j (by omega))).1
  obtain ⟨res, ml, hres, hinv⟩ := worstFitLoop_returns r body c hc hb c 0 (-1) (-1) fuel
    (by omega) hf (Or.inl ⟨rfl, rfl, fun j hj => absurd hj (Nat.not_lt_zero j)⟩)
  refine ⟨res, hres, ?_⟩
  rcases hinv with ⟨h1, _, h3⟩ | ⟨i, h1, h2, _, h4, h5, h6⟩
  · exact Or.inl ⟨h1, h3⟩
  · exact Or.inr ⟨i, h1, h2, h4, h5, h6⟩

/-! ### Summaries with 32768 holes or more -/

theorem bestFitLoop_diverges (r : Int) (body : List Int) (len : Int) (hlen : 32768 ≤ len) :
    ∀ (fuel i : Nat) (minLen offset : Int), i < 65536 →
      bestFitLoop r body len fuel i minLen offset = none := by
  intro fuel
  induction fuel with
  | zero => intro i minLen offset _; rfl
  | succ fuel ih =>
    intro i minLen offset hi
    unfold bestFitLoop
    rw [if_pos (by omega)]
    split
    · exact ih _ _ _ (Nat.mod_lt _ (by norm_num))
    · exact ih _ _ _ (Nat.mod_lt _ (by norm_num))

theorem worstFitLoop_diverges (r : Int) (body : List Int) (len : Int) (hlen : 32768 ≤ len) :
    ∀ (fuel i : Nat) (maxLen offset : Int), i < 65536 →
      worstFitLoop r body len fuel i maxLen offset = none := by
  intro fuel
  induction fuel with
  | zero => intro i maxLen offset _; rfl
  | succ fuel ih =>
    intro i maxLen offset hi
    unfold worstFitLoop
    rw [if_pos (by omega)]
    split
    · exact ih _ _ _ (Nat.mod_lt _ (by norm_num))
    · exact ih _ _ _ (Nat.mod_lt _ (by norm_num))

theorem bestFit_cons (fuel : Nat) (r c : Int) (body : List Int) :
    bestFit fuel r (c :: body) = bestFitLoop r body c fuel 1 65536 (-1) := rfl

theorem worstFit_cons (fuel : Nat) (r c : Int) (body : List Int) :
    worstFit fuel r (c :: body) = worstFitLoop r body c fuel 1 (-1) (-1) := rfl

/-! ## The method `getList` -/

theorem holePairs_length (l : List Node) : (holePairs l).length = 2 * holeCount l := by
  induction l with
  | nil => rfl
  | cons nd rest ih =>
    unfold holePairs holeCount
    split
    · simp [ih]; omega
    · exact ih

theorem getListScan_eq : ∀ (l : List Node) (c : Int) (h : List Int),
    MemoryManager.getListScan l (toUint16 c) h = (toUint16 (c + holeCount l), h ++ holePairs l) := by
  intro l
  induction l with
  | nil => intro c h; simp [MemoryManager.getListScan, holeCount, holePairs]
  | cons nd rest ih =>
    intro c h
    unfold MemoryManager.getListScan holeCount holePairs
    by_cases hh : nd.isHole = true
    · have e : toUint16 (toUint16 c + 1) = toUint16 (c + 1) := by
        unfold toUint16; omega
      simp only [if_pos hh, e, ih]
      simp
      ring_nf
    · simp only [if_neg hh]
      exact ih c h

theorem getListScan_zero (l : List Node) :
    MemoryManager.getListScan l 0 [] = (((holeCount l % 65536 : Nat) : Int), holePairs l) := by
  have h := getListScan_eq l 0 []
  have e0 : toUint16 0 = 0 := rfl
  rw [e0] at h
  rw [h]
  simp [toUint16]

theorem take_append_set (holes junk : List Int) (i : Nat) (v j0 : Int)
    (hi : i < holes.length) (hv : holes.getD i 0 = v) :
    (holes.take i ++ j0 :: junk).set i v = holes.take (i + 1) ++ junk := by
  have hl : (holes.take i).length = i := by simp; omega
  rw [List.set_append_right _ _ (by omega), hl, Nat.sub_self, List.take_succ]
  have : holes[i]? = some v := by
    rw [← hv, List.getD_eq_getElem _ _ hi]
    exact List.getElem?_eq_getElem hi
  simp [this]

theorem getListCopy_eq (holes : List Int) (c : Nat) (hc : c < 32768)
    (hlen : 2 * c ≤ holes.length) :
    ∀ (fuel i : Nat) (junk : List Int), i ≤ 2 * c → junk.length = 2 * c - i →
      MemoryManager.getListCopy holes (c : Int) fuel i ((c : Int) :: (holes.take i ++ junk)) =
        if 2 * c - i < fuel then some ((c : Int) :: holes.take (2 * c)) else none := by
  intro fuel
  induction fuel with
  | zero => intro i junk _ _; simp [MemoryManager.getListCopy]
  | succ fuel ih =>
    intro i junk hi hj
    unfold MemoryManager.getListCopy
    by_cases hlt : i < 2 * c
    · rw [if_pos (by omega)]
      obtain ⟨j0, jt, rfl⟩ : ∃ j0 jt, junk = j0 :: jt := by
        cases junk with
        | nil => simp at hj; omega
        | cons a b => exact ⟨a, b, rfl⟩
      have hmod : (i + 1) % 65536 = i + 1 := by omega
      rw [hmod, List.set_cons_succ, take_append_set holes jt i _ j0 (by omega) rfl]
      rw [ih (i + 1) jt (by omega) (by simp at hj; omega)]
      by_cases hf : 2 * c - (i + 1) < fuel
      · rw [if_pos hf, if_pos (by omega)]
      · rw [if_neg hf, if_neg (by omega)]
    · rw [if_neg (by omega), if_pos (by omega)]
      have hi2 : i = 2 * c := by omega
      have hjn : junk = [] := by
        apply List.eq_nil_of_length_eq_zero; omega
      rw [hjn, hi2]; simp

theorem getListCopy_diverges (holes : List Int) (lenHoles : Int) (hc : 32768 ≤ lenHoles) :
    ∀ (fuel i : Nat) (list : List Int), i < 65536 →
      MemoryManager.getListCopy holes lenHoles fuel i list = none := by
  intro fuel
  induction fuel with
  | zero => intro i list _; rfl
  | succ fuel ih =>
    intro i list hi
    unfold MemoryManager.getListCopy
    rw [if_pos (by omega)]
    exact ih _ _ (Nat.mod_lt _ (by norm_num))

theorem getList_eq (fuel : Nat) (m : MemoryManager) (hc : holeCount m.holeList % 65536 < 32768) :
    MemoryManager.getList fuel m =
      if 2 * (holeCount m.holeList % 65536) < fuel then some (holeSummary m.holeList) else none := by
  unfold MemoryManager.getList
  simp only [getListScan_zero]
  have hinit : (List.replicate (2 * ((holeCount m.holeList % 65536 : Nat) : Int) + 1).toNat
      (0 : Int)).set 0 ((holeCount m.holeList % 65536 : Nat) : Int) =
      ((holeCount m.holeList % 65536 : Nat) : Int) ::
        ((holePairs m.holeList).take 0 ++ List.replicate (2 * (holeCount m.holeList % 65536)) 0) := by
    have : (2 * ((holeCount m.holeList % 65536 : Nat) : Int) + 1).toNat =
        2 * (holeCount m.holeList % 65536) + 1 := by omega
    rw [this, List.replicate_succ]
    simp
  rw [hinit, getListCopy_eq (holePairs m.holeList) _ hc
    (by rw [holePairs_length]; have := Nat.mod_le (holeCount m.holeList) 65536; omega)
    fuel 0 _ (by omega) (by simp)]
  simp [holeSummary]

theorem getList_diverges (fuel : Nat) (m : MemoryManager)
    (hc : 32768 ≤ holeCount m.holeList % 65536) : MemoryManager.getList fuel m = none := by
  unfold MemoryManager.getList
  simp only [getListScan_zero]
  exact getListCopy_diverges _ _ (by omega) fuel 0 _ (by norm_num)

/-! ## Facts about partitions -/

theorem partitionFrom_cons (a b : Int) (nd : Node) (rest : List Node) :
    PartitionFrom a (nd :: rest) b ↔
      nd.head = a ∧ 0 < nd.len ∧ PartitionFrom (a + nd.len) rest b := Iff.rfl

theorem partitionFrom_nil (a b : Int) : PartitionFrom a [] b ↔ a = b := Iff.rfl

theorem partitionFrom_mid (pre : List Node) (x : Node) (post : List Node) :
    ∀ (a b : Int), PartitionFrom a (pre ++ x :: post) b ↔
      PartitionFrom a pre x.head ∧ 0 < x.len ∧ PartitionFrom (x.head + x.len) post b := by
  induction pre with
  | nil =>
    intro a b
    rw [List.nil_append, partitionFrom_cons, partitionFrom_nil]
    constructor
    · rintro ⟨h1, h2, h3⟩
      exact ⟨h1.symm, h2, h1 ▸ h3⟩
    · rintro ⟨h1, h2, h3⟩
      exact ⟨h1.symm, h2, h1 ▸ h3⟩
  | cons nd pre ih =>
    intro a b
    rw [List.cons_append, partitionFrom_cons, partitionFrom_cons, ih]
    tauto

theorem partitionFrom_le : ∀ (l : List Node) (a b : Int), PartitionFrom a l b → a ≤ b := by
  intro l
  induction l with
  | nil => intro a b h; rw [partitionFrom_nil] at h; omega
  | cons nd rest ih =>
    intro a b h
    rw [partitionFrom_cons] at h
    have := ih _ _ h.2.2
    omega

theorem partitionFrom_bounds : ∀ (l : List Node) (a b : Int), PartitionFrom a l b →
    ∀ nd ∈ l, a ≤ nd.head ∧ 0 < nd.len ∧ nd.head + nd.len ≤ b := by
  intro l
  induction l with
  | nil => intro a b _ nd hnd; simp at hnd
  | cons x rest ih =>
    intro a b h nd hnd
    rw [partitionFrom_cons] at h
    rcases List.mem_cons.mp hnd with rfl | hmem
    · have := partitionFrom_le _ _ _ h.2.2
      omega
    · have := ih _ _ h.2.2 nd hmem
      omega

theorem partition_heads_before (pre : List Node) (x : Node) (post : List Node) (a b : Int)
    (h : PartitionFrom a (pre ++ x :: post) b) : ∀ y ∈ pre, y.head < x.head := by
  intro y hy
  have h1 := ((partitionFrom_mid pre x post a b).mp h).1
  have := partitionFrom_bounds pre a x.head h1 y hy
  omega

/-! ## The hole summary and the holes of the list -/

theorem holeCount_cons (nd : Node) (rest : List Node) :
    holeCount (nd :: rest) = if nd.isHole = true then holeCount rest + 1 else holeCount rest :=
  rfl

theorem holePairs_cons (nd : Node) (rest : List Node) :
    holePairs (nd :: rest) =
      if nd.isHole = true then toUint16 nd.head :: toUint16 nd.len :: holePairs rest
      else holePairs rest :=
  rfl

theorem holeCount_append (pre post : List Node) :
    holeCount (pre ++ post) = holeCount pre + holeCount post := by
  induction pre with
  | nil => simp [holeCount]
  | cons nd pre ih =>
    rw [List.cons_append, holeCount_cons, holeCount_cons, ih]
    split <;> omega

theorem holePairs_append (pre post : List Node) :
    holePairs (pre ++ post) = holePairs pre ++ holePairs post := by
  induction pre with
  | nil => simp [holePairs]
  | cons nd pre ih =>
    rw [List.cons_append, holePairs_cons, holePairs_cons, ih]
    split <;> simp

theorem holePairs_of_hole (pre : List Node) (x : Node) (post : List Node)
    (hx : x.isHole = true) :
    holeCount pre < holeCount (pre ++ x :: post) ∧
    holeOffset (holePairs (pre ++ x :: post)) (holeCount pre) = toUint16 x.head ∧
    holeLength (holePairs (pre ++ x :: post)) (holeCount pre) = toUint16 x.len := by
  have hl := holePairs_length pre
  refine ⟨?_, ?_, ?_⟩
  · rw [holeCount_append]
    simp [holeCount, hx]
  · unfold holeOffset
    rw [holePairs_append, List.getD_append_right _ _ _ _ (by omega), hl]
    simp [holePairs, hx]
  · unfold holeLength
    rw [holePairs_append, List.getD_append_right _ _ _ _ (by omega), hl]
    simp [holePairs, hx]

theorem holePairs_index : ∀ (l : List Node) (j : Nat), j < holeCount l →
    ∃ pre x post, l = pre ++ x :: post ∧ x.isHole = true ∧ holeCount pre = j := by
  intro l
  induction l with
  | nil => intro j hj; simp [holeCount] at hj
  | cons nd rest ih =>
    intro j hj
    by_cases hh : nd.isHole = true
    · simp only [holeCount, if_pos hh] at hj
      cases j with
      | zero => exact ⟨[], nd, rest, rfl, hh, rfl⟩
      | succ j =>
        obtain ⟨pre, x, post, hl, hx, hc⟩ := ih j (by omega)
        exact ⟨nd :: pre, x, post, by simp [hl], hx, by simp [holeCount, hh, hc]⟩
    · simp only [holeCount, if_neg hh] at hj
      obtain ⟨pre, x, post, hl, hx, hc⟩ := ih j hj
      exact ⟨nd :: pre, x, post, by simp [hl], hx, by simp [holeCount, hh, hc]⟩

theorem holeOffset_take (body : List Int) (c j : Nat) (hj : j < c) :
    holeOffset (body.take (2 * c)) j = holeOffset body j := by
  unfold holeOffset
  simp only [List.getD_eq_getElem?_getD]
  rw [List.getElem?_take_of_lt (by omega)]

theorem holeLength_take (body : List Int) (c j : Nat) (hj : j < c) :
    holeLength (body.take (2 * c)) j = holeLength body j := by
  unfold holeLength
  simp only [List.getD_eq_getElem?_getD]
  rw [List.getElem?_take_of_lt (by omega)]

theorem holePairs_range (l : List Node) : ∀ v ∈ holePairs l, 0 ≤ v ∧ v < 65536 := by
  induction l with
  | nil => intro v hv; simp [holePairs] at hv
  | cons nd rest ih =>
    intro v hv
    rw [holePairs_cons] at hv
    split at hv
    · rcases List.mem_cons.mp hv with rfl | hv
      · unfold toUint16; omega
      · rcases List.mem_cons.mp hv with rfl | hv
        · unfold toUint16; omega
        · exact ih v hv
    · exact ih v hv

theorem holeSummary_eq (l : List Node) (hc : holeCount l < 65536) :
    holeSummary l = (holeCount l : Int) :: holePairs l := by
  unfold holeSummary
  rw [Nat.mod_eq_of_lt hc, List.take_of_length_le (by rw [holePairs_length])]

theorem holeCount_le_length (l : List Node) : holeCount l ≤ l.length := by
  induction l with
  | nil => simp [holeCount]
  | cons nd rest ih =>
    rw [holeCount_cons, List.length_cons]
    split <;> omega

theorem partitionFrom_length : ∀ (l : List Node) (a b : Int), PartitionFrom a l b →
    (l.length : Int) ≤ b - a := by
  intro l
  induction l with
  | nil => intro a b h; rw [partitionFrom_nil] at h; simp; omega
  | cons nd rest ih =>
    intro a b h
    rw [partitionFrom_cons] at h
    have := ih _ _ h.2.2
    rw [List.length_cons]
    push_cast
    omega

theorem holeCount_le_of_partition (l : List Node) (n : Int) (h : Partition n l) :
    (holeCount l : Int) ≤ n := by
  have h1 := partitionFrom_length l 0 n h
  have h2 := holeCount_le_length l
  omega

/-! ### Fuel needed by the placement functions -/

theorem bestFitLoop_none (r : Int) (body : List Int) (c : Nat) (hc : c < 32768) :
    ∀ (fuel n p : Nat) (minLen offset : Int), p + n = c → fuel ≤ n →
      bestFitLoop r body (c : Int) fuel (2 * p + 1) minLen offset = none := by
  intro fuel
  induction fuel with
  | zero => intro n p minLen offset _ _; rfl
  | succ fuel ih =>
    intro n p minLen offset hp hf
    have hnext : (2 * p + 1 + 2) % 65536 = 2 * (p + 1) + 1 := by omega
    unfold bestFitLoop
    rw [if_pos (by omega), hnext]
    split
    · exact ih (n - 1) (p + 1) _ _ (by omega) (by omega)
    · exact ih (n - 1) (p + 1) _ _ (by omega) (by omega)

theorem worstFitLoop_none (r : Int) (body : List Int) (c : Nat) (hc : c < 32768) :
    ∀ (fuel n p : Nat) (maxLen offset : Int), p + n = c → fuel ≤ n →
      worstFitLoop r body (c : Int) fuel (2 * p + 1) maxLen offset = none := by
  intro fuel
  induction fuel with
  | zero => intro n p maxLen offset _ _; rfl
  | succ fuel ih =>
    intro n p maxLen offset hp hf
    have hnext : (2 * p + 1 + 2) % 65536 = 2 * (p + 1) + 1 := by omega
    unfold worstFitLoop
    rw [if_pos (by omega), hnext]
    split
    · exact ih (n - 1) (p + 1) _ _ (by omega) (by omega)
    · exact ih (n - 1) (p + 1) _ _ (by omega) (by omega)

theorem bestFit_fuel (r : Int) (c : Nat) (body : List Int) (hc : c < 32768) (fuel : Nat)
    (res : Int) (h : bestFit fuel r ((c : Int) :: body) = some res) : c < fuel := by
  by_contra hcon
  rw [bestFit_cons] at h
  have := bestFitLoop_none r body c hc fuel c 0 65536 (-1) (by omega) (by omega)
  simp only [Nat.mul_zero, Nat.zero_add] at this
  rw [this] at h
  exact Option.noConfusion h

theorem worstFit_fuel (r : Int) (c : Nat) (body : List Int) (hc : c < 32768) (fuel : Nat)
    (res : Int) (h : worstFit fuel r ((c : Int) :: body) = some res) : c < fuel := by
  by_contra hcon
  rw [worstFit_cons] at h
  have := worstFitLoop_none r body c hc fuel c 0 (-1) (-1) (by omega) (by omega)
  simp only [Nat.mul_zero, Nat.zero_add] at this
  rw [this] at h
  exact Option.noConfusion h

/-! ### The selection in terms of the hole list -/

theorem fits16_of_partition (l : List Node) (n : Int) (hp : Partition n l) (hn : n ≤ 65535) :
    Fits16 l := by
  intro y hy
  have := partitionFrom_bounds l 0 n hp y hy
  unfold toUint16
  omega

theorem holeLength_of_mem (l : List Node) (y : Node) (hy : y ∈ l) (hh : y.isHole = true) :
    ∃ j, j < holeCount l ∧ holeLength (holePairs l) j = toUint16 y.len := by
  obtain ⟨s, t, rfl⟩ := List.append_of_mem hy
  obtain ⟨h1, _, h3⟩ := holePairs_of_hole s y t hh
  exact ⟨holeCount s, h1, h3⟩

theorem bestSel_none (l : List Node) (r : Int) (hu : Fits16 l)
    (h : ∀ j, j < holeCount l → holeLength (holePairs l) j < r) :
    ∀ y ∈ l, y.isHole = true → y.len < r := by
  intro y hy hh
  obtain ⟨j, hj, hlen⟩ := holeLength_of_mem l y hy hh
  have := h j hj
  rw [hlen, (hu y hy).2] at this
  exact this

theorem bestSel_some (l : List Node) (r : Int) (hu : Fits16 l) (i : Nat)
    (hi : i < holeCount l) (hq : r ≤ holeLength (holePairs l) i)
    (hmin : ∀ j, j < holeCount l → r ≤ holeLength (holePairs l) j →
      holeLength (holePairs l) i ≤ holeLength (holePairs l) j)
    (hfirst : ∀ j, j < i → r ≤ holeLength (holePairs l) j →
      holeLength (holePairs l) i < holeLength (holePairs l) j) :
    ∃ pre x post, l = pre ++ x :: post ∧ holeOffset (holePairs l) i = x.head ∧
      IsBestFit pre x post r := by
  obtain ⟨pre, x, post, hl, hx, hc⟩ := holePairs_index l i hi
  subst hl
  obtain ⟨_, ho, hlen⟩ := holePairs_of_hole pre x post hx
  rw [hc] at ho hlen
  have hxm : x ∈ pre ++ x :: post := by simp
  rw [(hu x hxm).1] at ho
  rw [(hu x hxm).2] at hlen
  refine ⟨pre, x, post, rfl, ho, hx, by rw [← hlen]; exact hq, ?_, ?_⟩
  · intro y hy hh hqy
    obtain ⟨j, hj, hjl⟩ := holeLength_of_mem _ y hy hh
    rw [(hu y hy).2] at hjl
    have := hmin j hj (by rw [hjl]; exact hqy)
    rw [hlen, hjl] at this
    exact this
  · intro y hy hh hqy
    obtain ⟨s, t, rfl⟩ := List.append_of_mem hy
    have hym : y ∈ (s ++ y :: t) ++ x :: post := by simp
    obtain ⟨hlt, _, hjl⟩ := holePairs_of_hole s y (t ++ x :: post) hh
    have e : s ++ y :: (t ++ x :: post) = (s ++ y :: t) ++ x :: post := by simp
    rw [e] at hjl
    rw [(hu y hym).2] at hjl
    have hsi : holeCount s < i := by
      rw [← hc, holeCount_append]
      simp [holeCount_cons, hh]
    have := hfirst (holeCount s) hsi (by rw [hjl]; exact hqy)
    rw [hlen, hjl] at this
    exact this

theorem worstSel_some (l : List Node) (r : Int) (hu : Fits16 l) (i : Nat)
    (hi : i < holeCount l) (hq : r ≤ holeLength (holePairs l) i)
    (hmax : ∀ j, j < holeCount l → holeLength (holePairs l) j ≤ holeLength (holePairs l) i)
    (hfirst : ∀ j, j < i → holeLength (holePairs l) j < holeLength (holePairs l) i) :
    ∃ pre x post, l = pre ++ x :: post ∧ holeOffset (holePairs l) i = x.head ∧
      IsWorstFit pre x post r := by
  obtain ⟨pre, x, post, hl, hx, hc⟩ := holePairs_index l i hi
  subst hl
  obtain ⟨_, ho, hlen⟩ := holePairs_of_hole pre x post hx
  rw [hc] at ho hlen
  have hxm : x ∈ pre ++ x :: post := by simp
  rw [(hu x hxm).1] at ho
  rw [(hu x hxm).2] at hlen
  refine ⟨pre, x, post, rfl, ho, hx, by rw [← hlen]; exact hq, ?_, ?_⟩
  · intro y hy hh
    obtain ⟨j, hj, hjl⟩ := holeLength_of_mem _ y hy hh
    rw [(hu y hy).2] at hjl
    have := hmax j hj
    rw [hlen, hjl] at this
    exact this
  · intro y hy hh
    obtain ⟨s, t, rfl⟩ := List.append_of_mem hy
    have hym : y ∈ (s ++ y :: t) ++ x :: post := by simp
    obtain ⟨hlt, _, hjl⟩ := holePairs_of_hole s y (t ++ x :: post) hh
    have e : s ++ y :: (t ++ x :: post) = (s ++ y :: t) ++ x :: post := by simp
    rw [e] at hjl
    rw [(hu y hym).2] at hjl
    have hsi : holeCount s < i := by
      rw [← hc, holeCount_append]
      simp [holeCount_cons, hh]
    have := hfirst (holeCount s) hsi
    rw [hlen, hjl] at this
    exact this

theorem bestFit_on_holeList (l : List Node) (r : Int) (hu : Fits16 l)
    (hc : holeCount l < 32768) (fuel : Nat) :
    (holeCount l < fuel → ∃ res, bestFit fuel r (holeSummary l) = some res) ∧
    ∀ res, bestFit fuel r (holeSummary l) = some res → Selected IsBestFit l r res := by
  rw [holeSummary_eq l (by omega)]
  have key : ∀ fuel, holeCount l < fuel → ∃ res,
      bestFit fuel r ((holeCount l : Int) :: holePairs l) = some res ∧
        Selected IsBestFit l r res := by
    intro fuel hf
    obtain ⟨res, hres, hsel⟩ := bestFit_returns r (holeCount l) (holePairs l) hc
      (holePairs_length l) (holePairs_range l) fuel hf
    refine ⟨res, hres, ?_⟩
    rcases hsel with ⟨h1, h2⟩ | ⟨i, hi, hq, ho, hmin, hfirst⟩
    · exact Or.inl ⟨h1, bestSel_none l r hu h2⟩
    · obtain ⟨pre, x, post, hl, hox, hbest⟩ := bestSel_some l r hu i hi hq hmin hfirst
      exact Or.inr ⟨pre, x, post, hl, by rw [ho, hox], hbest⟩
  constructor
  · intro hf
    obtain ⟨res, hres, _⟩ := key fuel hf
    exact ⟨res, hres⟩
  · intro res hres
    obtain ⟨res1, hres1, hsel⟩ := key fuel (bestFit_fuel r _ _ hc fuel res hres)
    rw [hres] at hres1
    cases hres1
    exact hsel

theorem worstFit_on_holeList (l : List Node) (r : Int) (hu : Fits16 l)
    (hc : holeCount l < 32768) (fuel : Nat) :
    (holeCount l < fuel → ∃ res, worstFit fuel r (holeSummary l) = some res) ∧
    ∀ res, worstFit fuel r (holeSummary l) = some res → Selected IsWorstFit l r res := by
  rw [holeSummary_eq l (by omega)]
  have key : ∀ fuel, holeCount l < fuel → ∃ res,
      worstFit fuel r ((holeCount l : Int) :: holePairs l) = some res ∧
        Selected IsWorstFit l r res := by
    intro fuel hf
    obtain ⟨res, hres, hsel⟩ := worstFit_returns r (holeCount l) (holePairs l) hc
      (holePairs_length l) (holePairs_range l) fuel hf
    refine ⟨res, hres, ?_⟩
    rcases hsel with ⟨h1, h2⟩ | ⟨i, hi, hq, ho, hmax, hfirst⟩
    · exact Or.inl ⟨h1, bestSel_none l r hu h2⟩
    · obtain ⟨pre, x, post, hl, hox, hworst⟩ := worstSel_some l r hu i hi hq hmax hfirst
      exact Or.inr ⟨pre, x, post, hl, by rw [ho, hox], hworst⟩
  constructor
  · intro hf
    obtain ⟨res, hres, _⟩ := key fuel hf
    exact ⟨res, hres⟩
  · intro res hres
    obtain ⟨res1, hres1, hsel⟩ := key fuel (worstFit_fuel r _ _ hc fuel res hres)
    rw [hres] at hres1
    cases hres1
    exact hsel

/-! ## `allocate` on a partitioned arena -/

theorem bestFit_implements : Implements bestFit IsBestFit :=
  fun l r hu hc fuel => bestFit_on_holeList l r hu hc fuel

theorem worstFit_implements : Implements worstFit IsWorstFit :=
  fun l r hu hc fuel => worstFit_on_holeList l r hu hc fuel

theorem allocate_of_getList_none (fuel : Nat) (m : MemoryManager) (sz : Int)
    (h : MemoryManager.getList fuel m = none) : MemoryManager.allocate fuel m sz = none := by
  unfold MemoryManager.allocate
  simp only [h]

theorem allocate_of_noFit (fuel : Nat) (m : MemoryManager) (sz : Int) (list : List Int)
    (hg : MemoryManager.getList fuel m = some list)
    (ha : m.defAllocator fuel (toInt (MemoryManager.sizeInWordsOf m.natWordSize sz)) list =
      some (-1)) :
    MemoryManager.allocate fuel m sz = some (none, m) := by
  unfold MemoryManager.allocate
  simp only [hg, ha, if_true]

theorem toInt_of_range (k : Int) (h1 : -2147483648 ≤ k) (h2 : k < 2147483648) : toInt k = k := by
  unfold toInt
  omega

theorem allocate_returns (m : MemoryManager) (sel : List Node → Node → List Node → Int → Prop)
    (hsel : Implements m.defAllocator sel) (n sz : Int) (hp : Partition n m.holeList)
    (hu : Fits16 m.holeList) (hc : holeCount m.holeList < 32768) (fuel : Nat)
    (hf : 2 * holeCount m.holeList < fuel) :
    ∃ out, MemoryManager.allocate fuel m sz = some out := by
  have hc2 : holeCount m.holeList % 65536 = holeCount m.holeList := Nat.mod_eq_of_lt (by omega)
  have hg := getList_eq fuel m (by omega)
  rw [hc2, if_pos hf] at hg
  obtain ⟨res, hres⟩ := (hsel m.holeList (toInt (MemoryManager.sizeInWordsOf m.natWordSize sz))
    hu hc fuel).1 (by omega)
  have hs := (hsel m.holeList _ hu hc fuel).2 res hres
  rcases hs with ⟨h1, _⟩ | ⟨pre, x, post, hl, hx, _⟩
  · rw [h1] at hres
    exact ⟨_, allocate_of_noFit fuel m sz _ hg hres⟩
  · have hb := partitionFrom_bounds _ 0 n hp x (by rw [hl]; simp)
    have hpre : ∀ y ∈ pre, y.head ≠ res := by
      intro y hy
      have := partition_heads_before pre x post 0 n (hl ▸ hp) y hy
      omega
    exact ⟨_, allocate_of_decomp fuel m sz _ res pre x post hg hres (by omega) hl hx.symm hpre⟩

theorem allocate_spec (m : MemoryManager) (sel : List Node → Node → List Node → Int → Prop)
    (hsel : Implements m.defAllocator sel) (n sz : Int) (hp : Partition n m.holeList)
    (hu : Fits16 m.holeList) (hcn : holeCount m.holeList < 65536) (fuel : Nat)
    (r : Option Int) (m' : MemoryManager)
    (h : MemoryManager.allocate fuel m sz = some (r, m')) :
    (r = none ∧ m' = m ∧ ∀ y ∈ m.holeList, y.isHole = true →
      y.len < toInt (MemoryManager.sizeInWordsOf m.natWordSize sz)) ∨
    ∃ pre x post, m.holeList = pre ++ x :: post ∧
      sel pre x post (toInt (MemoryManager.sizeInWordsOf m.natWordSize sz)) ∧
      r = some (m.memBlock + toUnsigned (toUnsigned x.head * m.natWordSize)) ∧
      m' = { m with holeList := place pre x post (MemoryManager.sizeInWordsOf m.natWordSize sz) } := by
  have hc2 : holeCount m.holeList % 65536 = holeCount m.holeList := Nat.mod_eq_of_lt (by omega)
  have hc : holeCount m.holeList < 32768 := by
    by_contra hcon
    rw [allocate_of_getList_none fuel m sz (getList_diverges fuel m (by omega))] at h
    exact Option.noConfusion h
  have hg := getList_eq fuel m (by omega)
  rw [hc2] at hg
  by_cases hf : 2 * holeCount m.holeList < fuel
  · rw [if_pos hf] at hg
    obtain ⟨res, hres⟩ := (hsel m.holeList
      (toInt (MemoryManager.sizeInWordsOf m.natWordSize sz)) hu hc fuel).1 (by omega)
    have hs := (hsel m.holeList _ hu hc fuel).2 res hres
    rcases hs with ⟨h1, h2⟩ | ⟨pre, x, post, hl, hx, hsx⟩
    · rw [h1] at hres
      rw [allocate_of_noFit fuel m sz _ hg hres] at h
      simp only [Option.some.injEq, Prod.mk.injEq] at h
      exact Or.inl ⟨h.1.symm, h.2.symm, h2⟩
    · have hb := partitionFrom_bounds _ 0 n hp x (by rw [hl]; simp)
      have hpre : ∀ y ∈ pre, y.head ≠ res := by
        intro y hy
        have := partition_heads_before pre x post 0 n (hl ▸ hp) y hy
        omega
      rw [allocate_of_decomp fuel m sz _ res pre x post hg hres (by omega) hl hx.symm hpre] at h
      simp only [Option.some.injEq, Prod.mk.injEq] at h
      exact Or.inr ⟨pre, x, post, hl, hsx, h.1.symm, h.2.symm⟩
  · rw [if_neg hf] at hg
    rw [allocate_of_getList_none fuel m sz hg] at h
    exact Option.noConfusion h

/-! ## Preservation of the partition -/

theorem sizeInWordsOf_eq (ws sz : Int) (hws : 0 < ws) (h1 : 1 ≤ sz)
    (h2 : sz < 18446744073709551616) :
    MemoryManager.sizeInWordsOf ws sz = (sz - 1) / ws + 1 ∧
      1 ≤ MemoryManager.sizeInWordsOf ws sz ∧ MemoryManager.sizeInWordsOf ws sz ≤ sz := by
  have e1 : toSizeT (sz - 1) = sz - 1 := by unfold toSizeT; omega
  have hq0 : 0 ≤ (sz - 1) / ws := Int.ediv_nonneg (by omega) (by omega)
  have hq1 : (sz - 1) / ws ≤ sz - 1 := Int.ediv_le_self _ (by omega)
  have e2 : toSizeT ((sz - 1) / ws + 1) = (sz - 1) / ws + 1 := by unfold toSizeT; omega
  unfold MemoryManager.sizeInWordsOf
  rw [e1, e2]
  omega

theorem place_eq (pre : List Node) (x : Node) (post : List Node) (k : Int)
    (hh : 0 ≤ x.head) (hl : x.head + x.len ≤ 65536) (hk1 : 0 ≤ k) (hk2 : k ≤ x.len) :
    place pre x post k =
      if x.len = k then pre ++ { x with isHole := false } :: post
      else pre ++ ⟨x.head, k, false⟩ :: ⟨x.head + k, x.len - k, x.isHole⟩ :: post := by
  have e1 : toSizeT x.len = x.len := by unfold toSizeT; omega
  have e2 : toInt k = k := by unfold toInt; omega
  have e3 : toInt (toSizeT (toSizeT x.head + k)) = x.head + k := by
    unfold toInt toSizeT; omega
  have e4 : toInt (toSizeT (x.len - k)) = x.len - k := by
    unfold toInt toSizeT; omega
  unfold place
  rw [e3, e1, e2, e4]

theorem partition_place (pre : List Node) (x : Node) (post : List Node) (n k : Int)
    (hp : Partition n (pre ++ x :: post)) (hn : n ≤ 65536) (hk1 : 1 ≤ k) (hk2 : k ≤ x.len) :
    Partition n (place pre x post k) := by
  have hb := partitionFrom_bounds _ 0 n hp x (by simp)
  rw [place_eq pre x post k (by omega) (by omega) (by omega) hk2]
  obtain ⟨h1, h2, h3⟩ := (partitionFrom_mid pre x post 0 n).mp hp
  unfold Partition
  split
  · exact (partitionFrom_mid pre _ post 0 n).mpr ⟨h1, h2, h3⟩
  · refine (partitionFrom_mid pre _ _ 0 n).mpr ⟨h1, by simpa using hk1, ?_⟩
    rw [partitionFrom_cons]
    refine ⟨rfl, by simp only; omega, ?_⟩
    have e : x.head + k + (x.len - k) = x.head + x.len := by ring
    simp only [e]
    exact h3

theorem partition_coalesce (pre : List Node) (x : Node) (post : List Node) (n : Int)
    (hp : Partition n (pre ++ x :: post)) (hn : n ≤ 65536) :
    Partition n (coalesce pre x post) := by
  obtain ⟨h1, h2, h3⟩ := (partitionFrom_mid pre x post 0 n).mp hp
  have hx := partitionFrom_bounds _ 0 n hp x (by simp)
  -- the node after the first merge step
  have hnext : (absorbNext x post).1.head = x.head ∧ 0 < (absorbNext x post).1.len ∧
      (absorbNext x post).1.len ≤ n ∧
      PartitionFrom (x.head + (absorbNext x post).1.len) (absorbNext x post).2 n := by
    cases post with
    | nil => exact ⟨rfl, h2, by simp only [absorbNext]; omega, h3⟩
    | cons y post =>
      have hy := partitionFrom_bounds _ 0 n hp y (by simp)
      rw [partitionFrom_cons] at h3
      by_cases hh : y.isHole = true
      · simp only [absorbNext, if_pos hh]
        have e : toInt (x.len + y.len) = x.len + y.len := by unfold toInt; omega
        rw [e]
        refine ⟨trivial, by omega, by omega, ?_⟩
        have e2 : x.head + (x.len + y.len) = x.head + x.len + y.len := by ring
        rw [e2]
        exact h3.2.2
      · simp only [absorbNext, if_neg hh]
        exact ⟨trivial, h2, by omega, (partitionFrom_cons _ _ _ _).mpr h3⟩
  obtain ⟨g1, g2, g3, g4⟩ := hnext
  unfold Partition coalesce
  rcases List.eq_nil_or_concat pre with rfl | ⟨pre1, p, rfl⟩
  · rw [absorbPrev_nil]
    rw [partitionFrom_nil] at h1
    refine (partitionFrom_mid [] _ _ 0 n).mpr ⟨?_, g2, ?_⟩
    · rw [partitionFrom_nil]; simp only; omega
    · simp only [g1]; exact g4
  · rw [List.concat_eq_append] at h1 hp ⊢
    have hpb := partitionFrom_bounds _ 0 n hp p (by simp)
    obtain ⟨q1, q2, q3⟩ := (partitionFrom_mid pre1 p [] 0 x.head).mp h1
    rw [partitionFrom_nil] at q3
    rw [absorbPrev_concat]
    by_cases hh : p.isHole = true
    · rw [if_pos hh]
      have e : toInt ((absorbNext x post).1.len + p.len) = (absorbNext x post).1.len + p.len := by
        unfold toInt; omega
      refine (partitionFrom_mid pre1 _ _ 0 n).mpr ⟨q1, ?_, ?_⟩
      · simp only [e]; omega
      · simp only [e]
        have e2 : p.head + ((absorbNext x post).1.len + p.len) =
            x.head + (absorbNext x post).1.len := by omega
        rw [e2]
        exact g4
    · rw [if_neg hh]
      refine (partitionFrom_mid (pre1 ++ [p]) _ _ 0 n).mpr ⟨?_, g2, ?_⟩
      · simp only [g1]; exact h1
      · simp only [g1]; exact g4

/-! ## The invariants along sequences of calls with representable requests -/

theorem selected_fits (f : Allocator) (hf : f = bestFit ∨ f = worstFit) :
    ∃ sel, Implements f sel ∧
      ∀ pre x post r, sel pre x post r → x.isHole = true ∧ r ≤ x.len := by
  rcases hf with rfl | rfl
  · exact ⟨IsBestFit, bestFit_implements, fun _ _ _ _ h => ⟨h.1, h.2.1⟩⟩
  · exact ⟨IsWorstFit, worstFit_implements, fun _ _ _ _ h => ⟨h.1, h.2.1⟩⟩

theorem strategy_on_full_arena (f : Allocator) (hf : f = bestFit ∨ f = worstFit) (fuel : Nat)
    (r res : Int) (hr : 1 ≤ r) (h : f fuel r [1, 0, 0] = some res) : res = -1 := by
  have h16 : ∀ v ∈ ([0, 0] : List Int), 0 ≤ v ∧ v < 65536 := by decide
  rcases hf with rfl | rfl
  · have hfuel := bestFit_fuel r 1 [0, 0] (by norm_num) fuel res h
    obtain ⟨res1, h1, hsel⟩ := bestFit_returns r 1 [0, 0] (by norm_num) rfl h16 fuel hfuel
    have e : res1 = res := by
      have := h1.symm.trans h
      exact Option.some.inj this
    subst e
    rcases hsel with ⟨h2, _⟩ | ⟨i, hi, hq, _⟩
    · exact h2
    · have hi0 : i = 0 := by omega
      subst hi0
      have : holeLength [0, 0] 0 = 0 := rfl
      omega
  · have hfuel := worstFit_fuel r 1 [0, 0] (by norm_num) fuel res h
    obtain ⟨res1, h1, hsel⟩ := worstFit_returns r 1 [0, 0] (by norm_num) rfl h16 fuel hfuel
    have e : res1 = res := by
      have := h1.symm.trans h
      exact Option.some.inj this
    subst e
    rcases hsel with ⟨h2, _⟩ | ⟨i, hi, hq, _⟩
    · exact h2
    · have hi0 : i = 0 := by omega
      subst hi0
      have : holeLength [0, 0] 0 = 0 := rfl
      omega

theorem arenaInv_allocate (wordSize n : Int) (hws : 0 < wordSize) (hn : n ≤ 65536)
    (m : MemoryManager) (hm : ArenaInv wordSize n m) (fuel : Nat) (sz : Int)
    (hsz : SaneCall wordSize (Call.allocate sz)) (r : Option Int) (m' : MemoryManager)
    (h : MemoryManager.allocate fuel m sz = some (r, m')) : ArenaInv wordSize n m' := by
  obtain ⟨hw, hf, hp, hadj, hfull⟩ := hm
  obtain ⟨hs1, hs2, hs3⟩ := hsz
  obtain ⟨hk, hk1, _⟩ := sizeInWordsOf_eq wordSize sz hws hs1 hs2
  rw [← hw] at hk hk1
  have hkr : toInt (MemoryManager.sizeInWordsOf m.natWordSize sz) =
      MemoryManager.sizeInWordsOf m.natWordSize sz := by
    apply toInt_of_range
    · omega
    · rw [hk, hw]; exact hs3
  have hadj' := noAdjacentHoles_allocate fuel m sz r m' h hadj
  by_cases hn2 : n = 65536
  · -- nothing can be allocated from an arena of 65536 words
    have hl := hfull hn2
    have hsame : m' = m := by
      rcases allocate_cases fuel m sz r m' h with ⟨_, h2⟩ | ⟨list, offset, _, _, _, hg, ha, ho, _⟩
      · exact h2
      · exfalso
        have hc : holeCount m.holeList = 1 := by rw [hl]; rfl
        have hg2 := getList_eq fuel m (by rw [hc]; norm_num)
        rw [hg] at hg2
        split at hg2
        · have hsum : holeSummary m.holeList = [1, 0, 0] := by rw [hl]; rfl
          rw [hsum] at hg2
          have hlist : list = [1, 0, 0] := Option.some.inj hg2
          rw [hlist, hkr] at ha
          exact ho (strategy_on_full_arena _ hf fuel _ offset hk1 ha)
        · exact Option.noConfusion hg2
    rw [hsame]
    exact ⟨hw, hf, hp, hadj, hfull⟩
  · obtain ⟨sel, himp, hfit⟩ := selected_fits m.defAllocator hf
    have hcn := holeCount_le_of_partition m.holeList n hp
    rcases allocate_spec m sel himp n sz hp (fits16_of_partition _ n hp (by omega)) (by omega)
        fuel r m' h with
      ⟨_, h2, _⟩ | ⟨pre, x, post, hl, hsx, _, h4⟩
    · rw [h2]
      exact ⟨hw, hf, hp, hadj, hfull⟩
    · obtain ⟨_, hle⟩ := hfit pre x post _ hsx
      rw [hkr] at hle
      refine ⟨?_, ?_, ?_, hadj', fun h6 => absurd h6 hn2⟩
      · rw [h4]; exact hw
      · rw [h4]; exact hf
      · rw [h4]
        exact partition_place pre x post n _ (hl ▸ hp) hn hk1 hle

theorem arenaInv_free (wordSize n : Int) (hn : n ≤ 65536) (m : MemoryManager)
    (hm : ArenaInv wordSize n m) (address : Int) :
    ArenaInv wordSize n (MemoryManager.free m address) := by
  obtain ⟨hw, hf, hp, hadj, hfull⟩ := hm
  have hadj' := noAdjacentHoles_free m address hadj
  cases hfind : findHead (Int.tdiv (address - m.memBlock) m.natWordSize) m.holeList 0 with
  | none =>
    rw [free_of_findHead_none m address hfind]
    exact ⟨hw, hf, hp, hadj, hfull⟩
  | some idx =>
    obtain ⟨pre, x, post, hl, _, hx, hpre⟩ := findHead_decomp _ m.holeList 0 idx hfind
    have hfree := free_of_decomp m address pre x post hl hx hpre
    refine ⟨by rw [hfree]; exact hw, by rw [hfree]; exact hf, ?_, hadj', ?_⟩
    · rw [hfree]
      exact partition_coalesce pre x post n (hl ▸ hp) hn
    · intro h6
      have hl2 := hfull h6
      rw [hl2] at hl
      rw [hfree]
      cases pre with
      | nil =>
        simp only [List.nil_append, List.cons.injEq] at hl
        obtain ⟨hx1, hpost⟩ := hl
        rw [← hx1, ← hpost]
        rfl
      | cons a pre =>
        simp only [List.cons_append, List.cons.injEq] at hl
        have := hl.2
        cases pre <;> simp at this

theorem arenaInv_runCalls (wordSize n : Int) (hws : 0 < wordSize) (hn : n ≤ 65536) (fuel : Nat) :
    ∀ (calls : List Call) (m m' : MemoryManager), (∀ c ∈ calls, SaneCall wordSize c) →
      runCalls fuel m calls = some m' → ArenaInv wordSize n m → ArenaInv wordSize n m' := by
  intro calls
  induction calls with
  | nil =>
    intro m m' _ h hm
    simp only [runCalls, Option.some.injEq] at h
    exact h ▸ hm
  | cons c rest ih =>
    intro m m' hs h hm
    have hc := hs c (List.mem_cons_self _ _)
    have hrest : ∀ c ∈ rest, SaneCall wordSize c := fun c hc => hs c (List.mem_cons_of_mem _ hc)
    cases c with
    | allocate sz =>
      simp only [runCalls] at h
      cases ha : MemoryManager.allocate fuel m sz with
      | none => simp [ha] at h
      | some out =>
        rw [ha] at h
        exact ih out.2 m' hrest h (arenaInv_allocate wordSize n hws hn m hm fuel sz hc out.1 out.2 ha)
    | free a =>
      simp only [runCalls] at h
      exact ih _ m' hrest h (arenaInv_free wordSize n hn m hm a)
    | setAllocator f =>
      simp only [runCalls] at h
      refine ih _ m' hrest h ?_
      obtain ⟨hw, _, hp, hadj, hfull⟩ := hm
      exact ⟨hw, hc, hp, hadj, hfull⟩

theorem arenaInv_initializeArena (wordSize n memBlock0 newBlock : Int) (allocator : Allocator)
    (halloc : allocator = bestFit ∨ allocator = worstFit) (hn1 : 1 ≤ n) (hn2 : n ≤ 65536) :
    ArenaInv wordSize n (MemoryManager.initializeArena
      (MemoryManager.construct wordSize allocator memBlock0) n newBlock) := by
  have e : toInt n = n := toInt_of_range n (by omega) (by omega)
  unfold MemoryManager.initializeArena MemoryManager.construct
  rw [if_neg (by omega)]
  simp only [List.isEmpty_nil, not_true_eq_false, if_false, List.nil_append, e]
  refine ⟨rfl, halloc, ?_, trivial, fun h => by rw [h]⟩
  exact ⟨rfl, hn1, by simp [PartitionFrom]⟩

/-- Both invariants of the hole list hold after `initialize(n)`, `1 ≤ n ≤ 65536`, and
any sequence of calls that all return, when every allocation asks for at least one
byte and fewer than 2^31 words. -/
theorem invariants_of_sane_calls (wordSize n memBlock0 newBlock : Int) (allocator : Allocator)
    (hws : 0 < wordSize) (halloc : allocator = bestFit ∨ allocator = worstFit)
    (hn1 : 1 ≤ n) (hn2 : n ≤ 65536) (fuel : Nat) (calls : List Call)
    (hsane : ∀ c ∈ calls, SaneCall wordSize c) (m : MemoryManager)
    (h : runCalls fuel (MemoryManager.initializeArena
      (MemoryManager.construct wordSize allocator memBlock0) n newBlock) calls = some m) :
    Partition n m.holeList ∧ NoAdjacentHoles m.holeList := by
  have := arenaInv_runCalls wordSize n hws hn2 fuel calls _ m hsane h
    (arenaInv_initializeArena wordSize n memBlock0 newBlock allocator halloc hn1 hn2)
  exact ⟨this.2.2.1, this.2.2.2.1⟩

/-! ## `allocate` and `free` on a partitioned arena: the nominal behaviour -/

/-- On an arena of at most 65535 words, with best fit or worst fit and a request of at
least one byte and fewer than 2^31 words, `allocate` returns whenever the fuel exceeds
twice the number of holes (fewer than 32768); and when it returns, it returns
`nullptr` exactly when no hole has the requested number of words, leaving the state
as it was. -/
theorem allocate_null_iff_no_fit (m : MemoryManager) (n sz : Int) (fuel : Nat)
    (hws : 0 < m.natWordSize) (hf : m.defAllocator = bestFit ∨ m.defAllocator = worstFit)
    (hp : Partition n m.holeList) (hn : n ≤ 65535) (hs1 : 1 ≤ sz)
    (hs2 : sz < 18446744073709551616) (hs3 : (sz - 1) / m.natWordSize + 1 < 2147483648) :
    (holeCount m.holeList < 32768 → 2 * holeCount m.holeList < fuel →
      ∃ out, MemoryManager.allocate fuel m sz = some out) ∧
    ∀ r m', MemoryManager.allocate fuel m sz = some (r, m') →
      (r = none ↔ ∀ y ∈ m.holeList, y.isHole = true → y.len < (sz - 1) / m.natWordSize + 1) ∧
      (r = none → m' = m) := by
  obtain ⟨sel, himp, hfit⟩ := selected_fits m.defAllocator hf
  obtain ⟨hk, hk1, _⟩ := sizeInWordsOf_eq m.natWordSize sz hws hs1 hs2
  have hkr : toInt (MemoryManager.sizeInWordsOf m.natWordSize sz) =
      (sz - 1) / m.natWordSize + 1 := by
    rw [hk]
    exact toInt_of_range _ (by omega) hs3
  have hu := fits16_of_partition _ n hp hn
  have hcn := holeCount_le_of_partition m.holeList n hp
  refine ⟨fun hc hfuel => allocate_returns m sel himp n sz hp hu hc fuel hfuel, ?_⟩
  intro r m' h
  rcases allocate_spec m sel himp n sz hp hu (by omega) fuel r m' h with
    ⟨h1, h2, h3⟩ | ⟨pre, x, post, hl, hsx, h3, _⟩
  · rw [hkr] at h3
    exact ⟨⟨fun _ => h3, fun _ => h1⟩, fun _ => h2⟩
  · obtain ⟨hxh, hle⟩ := hfit pre x post _ hsx
    rw [hkr] at hle
    have hne : r ≠ none := by rw [h3]; exact Option.some_ne_none _
    refine ⟨⟨fun hr => absurd hr hne, fun hall => ?_⟩, fun hr => absurd hr hne⟩
    have := hall x (by rw [hl]; simp) hxh
    omega

/-- On an arena of at most 65535 words, when the placement function returns the start
`s` of the free node `(s, L)` with room for the `k` words of the request, and
`s * wordSize` fits in 32 bits, `allocate` returns `memBlock + s * wordSize` and marks
the node occupied when `L = k`, or replaces it by the occupied node `(s, k)` followed
by the free node `(s + k, L - k)` when `L > k`. -/
theorem allocate_postcondition (m : MemoryManager) (n sz s len : Int) (pre post : List Node)
    (fuel : Nat) (list : List Int) (hws : 0 < m.natWordSize)
    (hp : Partition n m.holeList) (hn : n ≤ 65535) (hs1 : 1 ≤ sz)
    (hs2 : sz < 18446744073709551616)
    (hl : m.holeList = pre ++ ⟨s, len, true⟩ :: post)
    (hg : MemoryManager.getList fuel m = some list)
    (ha : m.defAllocator fuel (toInt ((sz - 1) / m.natWordSize + 1)) list = some s)
    (hk : (sz - 1) / m.natWordSize + 1 ≤ len) (haddr : s * m.natWordSize < 4294967296) :
    MemoryManager.allocate fuel m sz =
      some (some (m.memBlock + s * m.natWordSize),
        { m with holeList :=
          if len = (sz - 1) / m.natWordSize + 1 then pre ++ ⟨s, len, false⟩ :: post
          else pre ++ ⟨s, (sz - 1) / m.natWordSize + 1, false⟩ ::
            ⟨s + ((sz - 1) / m.natWordSize + 1), len - ((sz - 1) / m.natWordSize + 1), true⟩ ::
              post }) := by
  obtain ⟨hkeq, hk1, _⟩ := sizeInWordsOf_eq m.natWordSize sz hws hs1 hs2
  have hb := partitionFrom_bounds _ 0 n hp ⟨s, len, true⟩ (by rw [hl]; simp)
  simp only at hb
  have hpre : ∀ y ∈ pre, y.head ≠ s := by
    intro y hy
    have := partition_heads_before pre ⟨s, len, true⟩ post 0 n (hl ▸ hp) y hy
    simp only at this
    omega
  rw [← hkeq] at ha hk ⊢
  rw [allocate_of_decomp fuel m sz list s pre ⟨s, len, true⟩ post hg ha (by omega) hl rfl hpre]
  rw [place_eq pre ⟨s, len, true⟩ post _ (by simp only; omega) (by simp only; omega)
    (by omega) hk]
  have hprod : 0 ≤ s * m.natWordSize := Int.mul_nonneg (by omega) (by omega)
  have e1 : toUnsigned s = s := by unfold toUnsigned; omega
  have e2 : toUnsigned (s * m.natWordSize) = s * m.natWordSize := by
    unfold toUnsigned; omega
  simp only [e1, e2]

theorem absorbNext_of_head (x : Node) (post : List Node)
    (h : ∀ y, post.head? = some y → y.isHole = false) : absorbNext x post = (x, post) := by
  cases post with
  | nil => rfl
  | cons y post =>
    have := h y rfl
    simp [absorbNext, this]

theorem absorbPrev_of_last (pre : List Node) (x : Node)
    (h : ∀ p, pre.getLast? = some p → p.isHole = false) : absorbPrev pre x = (pre, x) := by
  rcases List.eq_nil_or_concat pre with rfl | ⟨pre1, p, rfl⟩
  · rfl
  · rw [List.concat_eq_append] at h ⊢
    have := h p (by simp)
    rw [absorbPrev_concat]
    simp [this]

theorem round_trip_core (m : MemoryManager) (sz : Int) (pre : List Node) (x : Node)
    (post : List Node) (a : Int) (m' : MemoryManager) (hws : 0 < m.natWordSize)
    (hl : m.holeList = pre ++ x :: post) (hxh : x.isHole = true)
    (hpre : ∀ y ∈ pre, y.head ≠ x.head) (hadj : NoAdjacentHoles m.holeList)
    (hh0 : 0 ≤ x.head) (hprod1 : x.head * m.natWordSize < 4294967296)
    (hlen : -2147483648 ≤ x.len ∧ x.len < 2147483648)
    (h3 : some a = some (m.memBlock + toUnsigned (toUnsigned x.head * m.natWordSize)))
    (h4 : m' = { m with
      holeList := place pre x post (MemoryManager.sizeInWordsOf m.natWordSize sz) }) :
    MemoryManager.free m' a = m := by
  obtain ⟨_, _, hlast, hhead⟩ := (noAdjacentHoles_mid pre x post).mp (hl ▸ hadj)
  have hlast' : ∀ p, pre.getLast? = some p → p.isHole = false := by
    intro p hp'
    have := hlast p hp'
    simpa [hxh] using this
  have hhead' : ∀ y, post.head? = some y → y.isHole = false := by
    intro y hy
    have := hhead y hy
    simpa [hxh] using this
  -- the returned pointer and the offset that `free` computes from it
  have hprod0 : 0 ≤ x.head * m.natWordSize := Int.mul_nonneg hh0 (by omega)
  have e1 : toUnsigned x.head = x.head := by
    have : x.head ≤ x.head * m.natWordSize := by
      have := Int.mul_le_mul_of_nonneg_left (show 1 ≤ m.natWordSize by omega) hh0
      simpa using this
    unfold toUnsigned; omega
  have e2 : toUnsigned (x.head * m.natWordSize) = x.head * m.natWordSize := by
    unfold toUnsigned; omega
  rw [e1, e2] at h3
  have ha : a = m.memBlock + x.head * m.natWordSize := (Option.some.inj h3)
  have hoff : Int.tdiv (a - m'.memBlock) m'.natWordSize = x.head := by
    rw [h4, ha]
    simp only [add_sub_cancel_left]
    exact Int.mul_tdiv_cancel _ (by omega)
  have hk0 : 0 ≤ MemoryManager.sizeInWordsOf m.natWordSize sz ∧
      MemoryManager.sizeInWordsOf m.natWordSize sz < 18446744073709551616 := by
    unfold MemoryManager.sizeInWordsOf toSizeT
    omega
  have hm' : m'.holeList = place pre x post (MemoryManager.sizeInWordsOf m.natWordSize sz) := by
    rw [h4]
  unfold place at hm'
  split at hm'
  · -- exact fit
    rw [free_of_decomp m' a pre _ post hm' (by rw [hoff]) (by rw [hoff]; exact hpre)]
    unfold coalesce
    rw [absorbNext_of_head _ post hhead', absorbPrev_of_last pre _ hlast']
    rw [h4]
    cases m
    cases x
    simp only at hl hxh ⊢
    rw [hl, hxh]
  · -- split
    rw [free_of_decomp m' a pre _ _ hm' (by rw [hoff]) (by rw [hoff]; exact hpre)]
    unfold coalesce
    have hnext : absorbNext (⟨x.head, toInt (MemoryManager.sizeInWordsOf m.natWordSize sz), false⟩ : Node)
        (⟨toInt (toSizeT (toSizeT x.head + MemoryManager.sizeInWordsOf m.natWordSize sz)),
          toInt (toSizeT (toSizeT x.len - MemoryManager.sizeInWordsOf m.natWordSize sz)),
          x.isHole⟩ :: post) = (⟨x.head, x.len, false⟩, post) := by
      have earith : toInt (toInt (MemoryManager.sizeInWordsOf m.natWordSize sz) +
          toInt (toSizeT (toSizeT x.len - MemoryManager.sizeInWordsOf m.natWordSize sz))) =
          x.len := by
        generalize MemoryManager.sizeInWordsOf m.natWordSize sz = k at hk0
        unfold toInt toSizeT
        omega
      simp only [absorbNext, hxh, if_true, earith]
    rw [hnext, absorbPrev_of_last pre _ hlast']
    rw [h4]
    cases m
    cases x
    simp only at hl hxh ⊢
    rw [hl, hxh]

theorem holeCount_of_noAdjacentHoles : ∀ (l : List Node), NoAdjacentHoles l →
    2 * holeCount l ≤ l.length + 1
  | [], _ => by simp [holeCount]
  | [a], _ => by
    rw [holeCount_cons]
    split <;> simp [holeCount]
  | a :: b :: rest, h => by
    have h1 : ¬ (a.isHole = true ∧ b.isHole = true) := h.1
    have h2 : NoAdjacentHoles (b :: rest) := h.2
    have ih := holeCount_of_noAdjacentHoles (b :: rest) h2
    by_cases ha : a.isHole = true
    · have hb : ¬ b.isHole = true := fun hb => h1 ⟨ha, hb⟩
      have h3 : NoAdjacentHoles rest := by
        cases rest with
        | nil => trivial
        | cons c rest => exact h2.2
      have ih2 := holeCount_of_noAdjacentHoles rest h3
      rw [holeCount_cons, if_pos ha, holeCount_cons, if_neg hb]
      simp only [List.length_cons]
      omega
    · rw [holeCount_cons, if_neg ha]
      simp only [List.length_cons] at ih ⊢
      omega

theorem strategy_on_no_hole (f : Allocator) (hf : f = bestFit ∨ f = worstFit) (fuel : Nat)
    (r res : Int) (h : f fuel r [0] = some res) : res = -1 := by
  have h16 : ∀ v ∈ ([] : List Int), 0 ≤ v ∧ v < 65536 := by simp
  rcases hf with rfl | rfl
  · have hfuel := bestFit_fuel r 0 [] (by norm_num) fuel res h
    obtain ⟨res1, h1, hsel⟩ := bestFit_returns r 0 [] (by norm_num) rfl h16 fuel hfuel
    have e : res1 = res := Option.some.inj (h1.symm.trans h)
    subst e
    rcases hsel with ⟨h2, _⟩ | ⟨i, hi, _⟩
    · exact h2
    · omega
  · have hfuel := worstFit_fuel r 0 [] (by norm_num) fuel res h
    obtain ⟨res1, h1, hsel⟩ := worstFit_returns r 0 [] (by norm_num) rfl h16 fuel hfuel
    have e : res1 = res := Option.some.inj (h1.symm.trans h)
    subst e
    rcases hsel with ⟨h2, _⟩ | ⟨i, hi, _⟩
    · exact h2
    · omega

theorem single_node_of_not_fits16 (l : List Node) (n : Int) (hp : Partition n l)
    (hn : n ≤ 65536) (hu : ¬ Fits16 l) : ∃ x, l = [x] ∧ x.head = 0 ∧ x.len = 65536 := by
  unfold Fits16 at hu
  push_neg at hu
  obtain ⟨y, hy, hne⟩ := hu
  have hb := partitionFrom_bounds l 0 n hp y hy
  have hlen : y.len = 65536 := by
    by_contra hcon
    have e1 : toUint16 y.head = y.head := by unfold toUint16; omega
    have e2 : toUint16 y.len = y.len := by unfold toUint16; omega
    exact hne e1 e2
  obtain ⟨pre, post, rfl⟩ := List.append_of_mem hy
  obtain ⟨h1, _, h3⟩ := (partitionFrom_mid pre y post 0 n).mp hp
  have hpre : pre = [] := by
    cases pre with
    | nil => rfl
    | cons p pre =>
      have := partitionFrom_bounds _ 0 y.head h1 p (by simp)
      omega
  have hpost : post = [] := by
    cases post with
    | nil => rfl
    | cons p post =>
      have := partitionFrom_bounds _ _ n h3 p (by simp)
      omega
  subst hpre hpost
  exact ⟨y, rfl, by omega, hlen⟩

/-- On an arena of at most 65536 words whose byte size is at most 2^32, with best fit
or worst fit and both invariants, `allocate` of any size followed by `free` of the
returned pointer gives back the state before the allocation. -/
theorem allocate_free_round_trip (m : MemoryManager) (n sz : Int) (fuel : Nat)
    (hws : 0 < m.natWordSize) (hf : m.defAllocator = bestFit ∨ m.defAllocator = worstFit)
    (hp : Partition n m.holeList) (hn : n ≤ 65536) (hadj : NoAdjacentHoles m.holeList)
    (hbytes : n * m.natWordSize ≤ 4294967296) (a : Int) (m' : MemoryManager)
    (h : MemoryManager.allocate fuel m sz = some (some a, m')) :
    MemoryManager.free m' a = m := by
  have hlen16 := partitionFrom_length m.holeList 0 n hp
  have hcnt := holeCount_of_noAdjacentHoles m.holeList hadj
  have hprod : ∀ x ∈ m.holeList, 0 ≤ x.head ∧ x.head * m.natWordSize < 4294967296 ∧
      -2147483648 ≤ x.len ∧ x.len < 2147483648 := by
    intro x hx
    have hb := partitionFrom_bounds _ 0 n hp x hx
    have : x.head * m.natWordSize < n * m.natWordSize :=
      Int.mul_lt_mul_of_pos_right (by omega) hws
    omega
  by_cases hu : Fits16 m.holeList
  · obtain ⟨sel, himp, hfit⟩ := selected_fits m.defAllocator hf
    rcases allocate_spec m sel himp n sz hp hu (by omega) fuel (some a) m' h with
      ⟨h1, _, _⟩ | ⟨pre, x, post, hl, hsx, h3, h4⟩
    · exact Option.noConfusion h1
    · obtain ⟨hxh, _⟩ := hfit pre x post _ hsx
      have hpre : ∀ y ∈ pre, y.head ≠ x.head := by
        intro y hy
        have := partition_heads_before pre x post 0 n (hl ▸ hp) y hy
        omega
      obtain ⟨q1, q2, q3⟩ := hprod x (by rw [hl]; simp)
      exact round_trip_core m sz pre x post a m' hws hl hxh hpre hadj q1 q2 q3 h3 h4
  · obtain ⟨y, hly, hy0, hy1⟩ := single_node_of_not_fits16 m.holeList n hp hn hu
    rcases allocate_cases fuel m sz (some a) m' h with
      ⟨h1, _⟩ | ⟨list, offset, pre, x, post, hg, ha, ho, hl, hx, hpre, h3, h4⟩
    · exact Option.noConfusion h1
    · have hpx : pre = [] ∧ x = y ∧ post = [] := by
        rw [hly] at hl
        cases pre with
        | nil =>
          simp only [List.nil_append, List.cons.injEq] at hl
          exact ⟨rfl, hl.1.symm, hl.2.symm⟩
        | cons p pre =>
          simp only [List.cons_append, List.cons.injEq] at hl
          have := hl.2
          cases pre <;> simp at this
      obtain ⟨rfl, rfl, rfl⟩ := hpx
      have hxh : x.isHole = true := by
        by_contra hcon
        have hc : holeCount m.holeList = 0 := by
          rw [hly, holeCount_cons, if_neg hcon]; rfl
        have hg2 := getList_eq fuel m (by rw [hc]; norm_num)
        rw [hg] at hg2
        split at hg2
        · have hsum : holeSummary m.holeList = [0] := by
            unfold holeSummary
            rw [hc]
            rfl
          rw [hsum] at hg2
          rw [Option.some.inj hg2] at ha
          exact ho (strategy_on_no_hole _ hf fuel _ offset ha)
        · exact Option.noConfusion hg2
      obtain ⟨q1, q2, q3⟩ := hprod x (by rw [hly]; simp)
      exact round_trip_core m sz [] x [] a m' hws hl hxh (by simp) hadj q1 q2 q3 h3 h4

/-! ## The claims on concrete inputs, and the placement claims -/

theorem oneWordHoles_range : ∀ (n : Nat) (off : Int), 0 ≤ off → off + 2 * n ≤ 65536 →
    ∀ v ∈ oneWordHoles n off, 0 ≤ v ∧ v < 65536 := by
  intro n
  induction n with
  | zero => intro off _ _ v hv; simp [oneWordHoles] at hv
  | succ n ih =>
    intro off h0 h1 v hv
    simp only [oneWordHoles, List.mem_cons] at hv
    rcases hv with rfl | rfl | hv
    · push_cast at h1; omega
    · omega
    · exact ih (off + 2) (by omega) (by push_cast at h1; omega) v hv

theorem oneWordHoles_length : ∀ (n : Nat) (off : Int), (oneWordHoles n off).length = 2 * n := by
  intro n
  induction n with
  | zero => intro off; rfl
  | succ n ih => intro off; simp [oneWordHoles, ih]; omega

/-- Claim C1 (partition invariant), evaluated at an input where the code breaks it: in
a 20-word arena of 2-byte words, `allocate(0)` computes `(0 - 1)/2 + 1` in `size_t`,
hands 0 words to best fit and inserts an occupied node of length 0 in front of the
hole, so the hole list is no longer a partition of `[0, 20)` into nodes of positive
length. -/
theorem partition_broken_by_allocate_zero :
    holeListOf (runCalls 10 arena20 [Call.allocate 0]) = some [⟨0, 0, false⟩, ⟨0, 20, true⟩] ∧
    ¬ Partition 20 [⟨0, 0, false⟩, ⟨0, 20, true⟩] := by
  decide

/-- Claim C3 (allocate then free restores the hole list), evaluated at an input where
the code does not: with words of 2147483648 bytes, `initialize(3)` and
`allocate(2147483649)` leave two occupied words and a one-word hole at word 2, a list
that satisfies both invariants. Then `allocate(1)` takes the hole and returns
`memBlock + (2 * 2147483648 mod 2^32)`, which is `memBlock`, and `free` of that pointer
finds the node at word 0: the first node ends up free and the second occupied. -/
theorem round_trip_fails_on_wide_words :
    holeListOf (runCalls 10
      (MemoryManager.initializeArena (MemoryManager.construct 2147483648 bestFit 0) 3 4096)
      [Call.allocate 2147483649]) = some wideWords3.holeList ∧
    Partition 3 wideWords3.holeList ∧ NoAdjacentHoles wideWords3.holeList ∧
    outcome (MemoryManager.allocate 10 wideWords3 1) =
      some (some 4096, [⟨0, 2, false⟩, ⟨2, 1, false⟩]) ∧
    allocateThenFree 10 wideWords3 1 = some [⟨0, 2, true⟩, ⟨2, 1, false⟩] ∧
    allocateThenFree 10 wideWords3 1 ≠ some wideWords3.holeList := by
  decide

/-- Claim C4 (allocate postcondition), evaluated at an input where the returned pointer
is not `memBlock + s * wordSize`: with words of 2147483648 bytes and the hole `(2, 2)`,
`allocate(1)` under worst fit splits the hole as the claim says, but the product
`2 * 2147483648` is computed in `unsigned` and wraps to 0, so the pointer is
`memBlock` itself. -/
theorem allocate_address_wraps_on_wide_words :
    holeListOf (runCalls 10
      (MemoryManager.initializeArena (MemoryManager.construct 2147483648 worstFit 0) 4 4096)
      [Call.allocate 2147483649]) = some wideWords4.holeList ∧
    Partition 4 wideWords4.holeList ∧
    MemoryManager.getList 10 wideWords4 = some [1, 2, 2] ∧
    worstFit 10 1 [1, 2, 2] = some 2 ∧
    outcome (MemoryManager.allocate 10 wideWords4 1) =
      some (some 4096, [⟨0, 2, false⟩, ⟨2, 1, false⟩, ⟨3, 1, true⟩]) ∧
    (4096 : Int) ≠ wideWords4.memBlock + 2 * wideWords4.natWordSize := by
  decide

/-- Claim C5 (no fit exactly when no hole is large enough), evaluated at the arena size
65536: the only hole has length 65536, `getList` stores it as the `uint16_t` 0, best
fit finds no hole of length at least 1, and `allocate(1)` returns `nullptr` although a
free node of length 65536 is there. -/
theorem allocate_fails_on_full_size_arena :
    arena65536.holeList = [⟨0, 65536, true⟩] ∧
    MemoryManager.getList 10 arena65536 = some [1, 0, 0] ∧
    outcome (MemoryManager.allocate 10 arena65536 1) = some (none, [⟨0, 65536, true⟩]) ∧
    (∃ nd ∈ arena65536.holeList, nd.isHole = true ∧ 1 ≤ nd.len) := by
  decide

/-- Claim C6 (a request of 0 bytes is rounded to one word), evaluated on a 16-word arena
of 4-byte words: for 0 bytes the `size_t` expression `(0 - 1)/4 + 1` is 2^62, the
placement function receives the `int` 0, and `allocate(0)` inserts an occupied node of
length 0, whereas `allocate(1)` reserves one word. -/
theorem allocate_zero_reserves_no_word :
    toInt (MemoryManager.sizeInWordsOf 4 0) = 0 ∧
    outcome (MemoryManager.allocate 10 arena16 0) =
      some (some 4096, [⟨0, 0, false⟩, ⟨0, 16, true⟩]) ∧
    outcome (MemoryManager.allocate 10 arena16 1) =
      some (some 4096, [⟨0, 1, false⟩, ⟨1, 15, true⟩]) := by
  decide

/-- Claim C7 (best fit returns its selection for every summary), evaluated on the
well-formed summary of 32768 one-word holes: the `uint16_t` counter never reaches the
bound 65536, so `bestFit` returns for no amount of fuel. -/
theorem bestFit_never_returns_on_32768_holes :
    summary32768.length = 65537 ∧ (∀ v ∈ summary32768, 0 ≤ v ∧ v < 65536) ∧
    ∀ fuel : Nat, bestFit fuel 1 summary32768 = none := by
  refine ⟨?_, ?_, ?_⟩
  · rw [summary32768, List.length_cons, oneWordHoles_length]
  · intro v hv
    rw [summary32768, List.mem_cons] at hv
    rcases hv with rfl | hv
    · omega
    · exact oneWordHoles_range 32768 0 (le_refl _) (by norm_num) v hv
  · intro fuel
    rw [summary32768, bestFit_cons]
    exact bestFitLoop_diverges 1 _ 32768 (le_refl _) fuel 1 65536 (-1) (by norm_num)

/-- Claim C8 (worst fit returns its selection for every summary), evaluated on the
well-formed summary of 32768 one-word holes: the `uint16_t` counter never reaches the
bound 65536, so `worstFit` returns for no amount of fuel. -/
theorem worstFit_never_returns_on_32768_holes :
    summary32768.length = 65537 ∧ (∀ v ∈ summary32768, 0 ≤ v ∧ v < 65536) ∧
    ∀ fuel : Nat, worstFit fuel 1 summary32768 = none := by
  refine ⟨?_, ?_, ?_⟩
  · rw [summary32768, List.length_cons, oneWordHoles_length]
  · intro v hv
    rw [summary32768, List.mem_cons] at hv
    rcases hv with rfl | hv
    · omega
    · exact oneWordHoles_range 32768 0 (le_refl _) (by norm_num) v hv
  · intro fuel
    rw [summary32768, worstFit_cons]
    exact worstFitLoop_diverges 1 _ 32768 (le_refl _) fuel 1 (-1) (-1) (by norm_num)

/-- Claim C9 fails as stated: with two qualifying holes of the same length 5 at the
different offsets 0 and 10, best fit and worst fit both return offset 0. -/
theorem bestFit_worstFit_agree_on_equal_holes :
    holeLength [0, 5, 10, 5] 0 ≥ 3 ∧ holeLength [0, 5, 10, 5] 1 ≥ 3 ∧
    holeOffset [0, 5, 10, 5] 0 ≠ holeOffset [0, 5, 10, 5] 1 ∧
    bestFit 10 3 [2, 0, 5, 10, 5] = some (holeOffset [0, 5, 10, 5] 0) ∧
    worstFit 10 3 [2, 0, 5, 10, 5] = some (holeOffset [0, 5, 10, 5] 0) := by
  decide

/-- Claim C9, amended: on a well-formed summary of fewer than 32768 holes with pairwise
distinct offsets, `bestFit` and `worstFit` both return; best fit returns the first
qualifying hole of minimal length, worst fit the first hole of maximal length (or
both -1 when no hole qualifies), and the two results are equal if and only if all
qualifying holes have the same length. -/
theorem bestFit_worstFit_same_iff (r : Int) (c : Nat) (body : List Int) (hc : c < 32768)
    (hlen : body.length = 2 * c) (h16 : ∀ v ∈ body, 0 ≤ v ∧ v < 65536)
    (hdist : ∀ i j, i < c → j < c → holeOffset body i = holeOffset body j → i = j)
    (fuel : Nat) (hf : c < fuel) :
    ∃ b w, bestFit fuel r ((c : Int) :: body) = some b ∧
      worstFit fuel r ((c : Int) :: body) = some w ∧
      BestSel r body c b ∧ WorstSel r body c w ∧
      (b = w ↔ ∀ i j, i < c → j < c → r ≤ holeLength body i → r ≤ holeLength body j →
        holeLength body i = holeLength body j) := by
  obtain ⟨b, hb, hbs⟩ := bestFit_returns r c body hc hlen h16 fuel hf
  obtain ⟨w, hw, hws⟩ := worstFit_returns r c body hc hlen h16 fuel hf
  refine ⟨b, w, hb, hw, hbs, hws, ?_⟩
  rcases hbs with ⟨hb1, hbn⟩ | ⟨ib, hib, hqb, hbo, hbmin, hbfirst⟩
  · rcases hws with ⟨hw1, _⟩ | ⟨iw, hiw, hqw, _, _, _⟩
    · constructor
      · intro _ i j hi _ hqi _
        have := hbn i hi
        omega
      · intro _
        rw [hb1, hw1]
    · have := hbn iw hiw
      omega
  · rcases hws with ⟨_, hwn⟩ | ⟨iw, hiw, hqw, hwo, hwmax, hwfirst⟩
    · have := hwn ib hib
      omega
    · constructor
      · intro hbw i j hi hj hqi hqj
        have hidx : ib = iw := hdist ib iw hib hiw (by rw [← hbo, ← hwo, hbw])
        subst hidx
        have h1 := hbmin i hi hqi
        have h2 := hwmax i hi
        have h3 := hbmin j hj hqj
        have h4 := hwmax j hj
        omega
      · intro hall
        have heq := hall ib iw hib hiw hqb hqw
        have hidx : ib = iw := by
          rcases Nat.lt_trichotomy ib iw with h | h | h
          · have := hwfirst ib h
            omega
          · exact h
          · have := hbfirst iw h hqw
            omega
        rw [hbo, hwo, hidx]

/-- The amended claim C9 at the summary of three holes of lengths 5, 4 and 9. -/
theorem bestFit_worstFit_same_iff_witness :
    ∃ b w, bestFit 10 3 [((3 : Nat) : Int), 0, 5, 10, 4, 20, 9] = some b ∧
      worstFit 10 3 [((3 : Nat) : Int), 0, 5, 10, 4, 20, 9] = some w ∧
      BestSel 3 [0, 5, 10, 4, 20, 9] 3 b ∧ WorstSel 3 [0, 5, 10, 4, 20, 9] 3 w ∧
      (b = w ↔ ∀ i j, i < 3 → j < 3 → 3 ≤ holeLength [0, 5, 10, 4, 20, 9] i →
        3 ≤ holeLength [0, 5, 10, 4, 20, 9] j →
        holeLength [0, 5, 10, 4, 20, 9] i = holeLength [0, 5, 10, 4, 20, 9] j) :=
  bestFit_worstFit_same_iff 3 3 [0, 5, 10, 4, 20, 9] (by decide) (by decide) (by decide)
    (by intro i j hi hj; interval_cases i <;> interval_cases j <;> decide) 10 (by decide)

/-- Whatever the signs, the truncated quotient times the divisor is less than the
divisor away from the dividend. -/
theorem tdiv_near (d w : Int) (hw : 0 < w) :
    d - w < Int.tdiv d w * w ∧ Int.tdiv d w * w < d + w := by
  rcases le_or_lt 0 d with h | h
  · rw [Int.tdiv_eq_ediv h (le_of_lt hw)]
    have h1 := Int.ediv_add_emod d w
    have h2 := Int.emod_nonneg d (ne_of_gt hw)
    have h3 := Int.emod_lt_of_pos d hw
    have h4 : d / w * w = w * (d / w) := Int.mul_comm _ _
    omega
  · have e : Int.tdiv d w = -Int.tdiv (-d) w := by
      rw [← Int.neg_tdiv, neg_neg]
    rw [e, Int.tdiv_eq_ediv (by omega) (le_of_lt hw)]
    have h1 := Int.ediv_add_emod (-d) w
    have h2 := Int.emod_nonneg (-d) (ne_of_gt hw)
    have h3 := Int.emod_lt_of_pos (-d) hw
    have h4 : -(-d / w) * w = -(w * (-d / w)) := by ring
    omega

/-- When the offset that `free` looks up is the start of no node, `free` leaves the
state as it is. -/
theorem free_of_unknown_quotient (m : MemoryManager) (address : Int)
    (hno : ∀ nd ∈ m.holeList, nd.head ≠ MemoryManager.freeOffset m address) :
    MemoryManager.free m address = m :=
  free_of_findHead_none m address (findHead_none _ _ 0 hno)

/-- When no node of the hole list starts less than one word away from the address, that
is, when every `start * wordSize` is at least `wordSize` bytes below or above the byte
offset of the address from `memBlock`, `free` leaves the whole state unchanged,
whichever way the quotient is rounded. -/
theorem free_away_from_starts (m : MemoryManager) (address : Int) (hws : 0 < m.natWordSize)
    (hno : ∀ nd ∈ m.holeList,
      nd.head * m.natWordSize ≤ address - m.memBlock - m.natWordSize ∨
      address - m.memBlock + m.natWordSize ≤ nd.head * m.natWordSize) :
    MemoryManager.free m address = m := by
  apply free_of_unknown_quotient
  intro nd hnd hcon
  have hnear := tdiv_near (address - m.memBlock) m.natWordSize hws
  unfold MemoryManager.freeOffset at hcon
  rw [← hcon] at hnear
  rcases hno nd hnd with h | h <;> omega

/-- On a word-aligned address no node starts less than one word away exactly when the
byte offset is `start * wordSize` for no node. -/
theorem away_from_starts_aligned (m : MemoryManager) (j : Int) (hws : 0 < m.natWordSize) :
    (∀ nd ∈ m.holeList,
      nd.head * m.natWordSize ≤ j * m.natWordSize - m.natWordSize ∨
      j * m.natWordSize + m.natWordSize ≤ nd.head * m.natWordSize) ↔
    ∀ nd ∈ m.holeList, j * m.natWordSize ≠ nd.head * m.natWordSize := by
  constructor
  · intro h nd hnd hcon
    rcases h nd hnd with h1 | h1 <;> omega
  · intro h nd hnd
    have hne : nd.head ≠ j := fun e => h nd hnd (by rw [e])
    rcases lt_or_gt_of_ne hne with h1 | h1
    · left
      have : nd.head * m.natWordSize ≤ (j - 1) * m.natWordSize :=
        Int.mul_le_mul_of_nonneg_right (by omega) (le_of_lt hws)
      rw [sub_mul, one_mul] at this
      exact this
    · right
      have : (j + 1) * m.natWordSize ≤ nd.head * m.natWordSize :=
        Int.mul_le_mul_of_nonneg_right (by omega) (le_of_lt hws)
      rw [add_mul, one_mul] at this
      exact this

/-! ## Claims C11 to C13: `initialize` and the encoding of `getList` -/

/-- Claim C11: `initialize(sizeInWords)` with `sizeInWords > 65536` returns the state it
was called on, so the hole list, the byte limit and the start of the arena are as
they were, whatever the state was. -/
theorem initialize_invalid_size_noop (m : MemoryManager) (sizeInWords newBlock : Int)
    (h : 65536 < sizeInWords) :
    MemoryManager.initializeArena m sizeInWords newBlock = m ∧
    (MemoryManager.initializeArena m sizeInWords newBlock).holeList = m.holeList ∧
    MemoryManager.getMemoryLimit (MemoryManager.initializeArena m sizeInWords newBlock) =
      MemoryManager.getMemoryLimit m ∧
    MemoryManager.getMemoryStart (MemoryManager.initializeArena m sizeInWords newBlock) =
      MemoryManager.getMemoryStart m := by
  have e : MemoryManager.initializeArena m sizeInWords newBlock = m := by
    unfold MemoryManager.initializeArena
    rw [if_pos h]
  rw [e]
  exact ⟨rfl, rfl, rfl, rfl⟩

/-- Claim C11 at `initialize(70000)` on the used 20-word arena. -/
theorem initialize_invalid_size_noop_witness :
    MemoryManager.initializeArena arena20Used 70000 12288 = arena20Used ∧
    (MemoryManager.initializeArena arena20Used 70000 12288).holeList = arena20Used.holeList ∧
    MemoryManager.getMemoryLimit (MemoryManager.initializeArena arena20Used 70000 12288) =
      MemoryManager.getMemoryLimit arena20Used ∧
    MemoryManager.getMemoryStart (MemoryManager.initializeArena arena20Used 70000 12288) =
      MemoryManager.getMemoryStart arena20Used :=
  initialize_invalid_size_noop arena20Used 70000 12288 (by decide)

/-- What `initialize` leaves for a valid size: one free node over the whole arena, the
new block, and as byte limit the product of size and word size reduced to 32 bits. -/
theorem initializeArena_valid (m : MemoryManager) (sizeInWords newBlock : Int)
    (h0 : 0 ≤ sizeInWords) (h1 : sizeInWords ≤ 65536) :
    (MemoryManager.initializeArena m sizeInWords newBlock).holeList =
      [⟨0, sizeInWords, true⟩] ∧
    (MemoryManager.initializeArena m sizeInWords newBlock).memBlock = newBlock ∧
    (MemoryManager.initializeArena m sizeInWords newBlock).natWordSize = m.natWordSize ∧
    (MemoryManager.initializeArena m sizeInWords newBlock).defAllocator = m.defAllocator ∧
    MemoryManager.getMemoryLimit (MemoryManager.initializeArena m sizeInWords newBlock) =
      toUnsigned (toSizeT (sizeInWords * m.natWordSize)) := by
  have e : toInt sizeInWords = sizeInWords := by unfold toInt; omega
  unfold MemoryManager.initializeArena MemoryManager.getMemoryLimit
  rw [if_neg (by omega), e]
  cases hl : m.holeList with
  | nil => simp [hl]
  | cons a l => simp [hl, MemoryManager.shutdown]

/-- When the byte size of the arena fits 32 bits, `getMemoryLimit()` after
`initialize(sizeInWords)` is `sizeInWords * wordSize`. -/
theorem initializeArena_limit (m : MemoryManager) (sizeInWords newBlock : Int)
    (h0 : 0 ≤ sizeInWords) (h1 : sizeInWords ≤ 65536) (hws : 0 ≤ m.natWordSize)
    (hfit : sizeInWords * m.natWordSize < 4294967296) :
    MemoryManager.getMemoryLimit (MemoryManager.initializeArena m sizeInWords newBlock) =
      sizeInWords * m.natWordSize := by
  rw [(initializeArena_valid m sizeInWords newBlock h0 h1).2.2.2.2]
  have : 0 ≤ sizeInWords * m.natWordSize := Int.mul_nonneg h0 hws
  unfold toUnsigned toSizeT
  omega

/-- Claim C12 (re-initialisation resets hole list and byte limit), evaluated at an
input where the byte limit is not `sizeInWords * wordSize`: with words of 65536 bytes,
`initialize(65536)` on a new manager leaves the single free node `(0, 65536)`, but
the product 65536 * 65536 = 2^32 is stored in the `unsigned` field `memoryLimit` and
`getMemoryLimit()` returns 0. -/
theorem memory_limit_wraps_at_4GiB :
    arena4GiB.holeList = [⟨0, 65536, true⟩] ∧
    MemoryManager.getWordSize arena4GiB = 65536 ∧
    MemoryManager.getMemoryLimit arena4GiB = 0 ∧
    MemoryManager.getMemoryLimit arena4GiB ≠ 65536 * MemoryManager.getWordSize arena4GiB := by
  decide

/-! ### The encoding of `getList` -/

theorem holeCount_eq_freeSegments (l : List Node) : holeCount l = (freeSegments l).length := by
  induction l with
  | nil => rfl
  | cons nd rest ih =>
    rw [holeCount_cons]
    unfold freeSegments at ih ⊢
    by_cases hh : nd.isHole = true
    · rw [if_pos hh, List.filter_cons_of_pos (by simpa using hh), List.length_cons, ih]
    · rw [if_neg hh, List.filter_cons_of_neg (by simpa using hh), ih]

theorem holePairs_eq_encodePairs (l : List Node)
    (h : ∀ y ∈ l, y.isHole = true → toUint16 y.head = y.head ∧ toUint16 y.len = y.len) :
    holePairs l = encodePairs (freeSegments l) := by
  induction l with
  | nil => rfl
  | cons nd rest ih =>
    have ih' := ih (fun y hy => h y (List.mem_cons_of_mem _ hy))
    rw [holePairs_cons]
    unfold freeSegments at ih' ⊢
    by_cases hh : nd.isHole = true
    · obtain ⟨e1, e2⟩ := h nd (List.mem_cons_self _ _) hh
      rw [if_pos hh, List.filter_cons_of_pos (by simpa using hh), ih', e1, e2]
      rfl
    · rw [if_neg hh, List.filter_cons_of_neg (by simpa using hh), ih']

theorem encodePairs_length (l : List Node) : (encodePairs l).length = 2 * l.length := by
  induction l with
  | nil => rfl
  | cons nd rest ih => simp [encodePairs, ih]; omega

/-- Claim C13 fails as stated: on the fresh arena of 65536 words the only free segment
has length 65536, and `getList` returns `[1, 0, 0]`, not `[1, 0, 65536]`; no amount of
fuel makes it return the latter. -/
theorem getList_truncates_full_arena_hole :
    Partition 65536 arena65536w.holeList ∧
    summaryEncoding arena65536w.holeList = [1, 0, 65536] ∧
    MemoryManager.getList 10 arena65536w = some [1, 0, 0] ∧
    ∀ fuel, MemoryManager.getList fuel arena65536w ≠
      some (summaryEncoding arena65536w.holeList) := by
  refine ⟨by decide, by decide, by decide, fun fuel => ?_⟩
  rw [getList_eq fuel arena65536w (by decide)]
  split
  · decide
  · exact fun h => Option.noConfusion h

/-- Claim C13, amended: when the hole list partitions an arena of at most 65536 words,
no free segment is 65536 words long and there are fewer than 32768 free segments,
`getList` returns (with fuel above twice the number of free segments) the number of
free segments followed by start and length of each free segment in hole-list order;
the sequence has twice that number plus one entries, all of them 16-bit values. -/
theorem getList_encoding (m : MemoryManager) (n : Int) (fuel : Nat)
    (hp : Partition n m.holeList) (hn : n ≤ 65536)
    (hlen : ∀ y ∈ m.holeList, y.isHole = true → y.len ≤ 65535)
    (hc : (freeSegments m.holeList).length < 32768)
    (hfuel : 2 * (freeSegments m.holeList).length < fuel) :
    MemoryManager.getList fuel m = some (summaryEncoding m.holeList) ∧
    (summaryEncoding m.holeList).length = 2 * (freeSegments m.holeList).length + 1 ∧
    ∀ v ∈ summaryEncoding m.holeList, 0 ≤ v ∧ v < 65536 := by
  have hcount := holeCount_eq_freeSegments m.holeList
  have hfit : ∀ y ∈ m.holeList, y.isHole = true →
      toUint16 y.head = y.head ∧ toUint16 y.len = y.len := by
    intro y hy hh
    have hb := partitionFrom_bounds _ 0 n hp y hy
    have := hlen y hy hh
    unfold toUint16
    omega
  have hpairs := holePairs_eq_encodePairs m.holeList hfit
  have hsum : holeSummary m.holeList = summaryEncoding m.holeList := by
    rw [holeSummary_eq _ (by omega), hpairs, hcount]
    rfl
  have hmod : holeCount m.holeList % 65536 = holeCount m.holeList :=
    Nat.mod_eq_of_lt (by omega)
  refine ⟨?_, ?_, ?_⟩
  · rw [getList_eq fuel m (by omega), hmod, if_pos (by omega), hsum]
  · unfold summaryEncoding
    rw [List.length_cons, encodePairs_length]
  · intro v hv
    rw [← hsum, holeSummary_eq _ (by omega)] at hv
    rcases List.mem_cons.mp hv with rfl | hv
    · omega
    · exact holePairs_range _ v hv

/-- The amended claim C13 on the 20-word arena with five words occupied. -/
theorem getList_encoding_witness :
    MemoryManager.getList 10 arena20Used = some (summaryEncoding arena20Used.holeList) ∧
    (summaryEncoding arena20Used.holeList).length =
      2 * (freeSegments arena20Used.holeList).length + 1 ∧
    ∀ v ∈ summaryEncoding arena20Used.holeList, 0 ≤ v ∧ v < 65536 :=
  getList_encoding arena20Used 20 10 (by decide) (by decide) (by decide) (by decide)
    (by decide)

/-! ## Claims C16 and C17: `free` -/

theorem coalesce_eq_freedList (pre : List Node) (x : Node) (post : List Node) (n : Int)
    (hp : Partition n (pre ++ x :: post)) (hn : n ≤ 65536) :
    coalesce pre x post = freedList pre x post := by
  have hx := partitionFrom_bounds _ 0 n hp x (by simp)
  -- first merge step
  have hnext : absorbNext x post =
      (⟨x.head, x.len + absorbedLen post.head?, x.isHole⟩,
        if isFreeNeighbour post.head? = true then post.tail else post) := by
    cases post with
    | nil => simp [absorbNext, absorbedLen, isFreeNeighbour]
    | cons y post =>
      have hy := partitionFrom_bounds _ 0 n hp y (by simp)
      by_cases hh : y.isHole = true
      · have e : toInt (x.len + y.len) = x.len + y.len := by unfold toInt; omega
        simp [absorbNext, absorbedLen, isFreeNeighbour, hh, e]
      · simp [absorbNext, absorbedLen, isFreeNeighbour, hh]
  have hal : 0 ≤ absorbedLen post.head? ∧ absorbedLen post.head? ≤ 65536 := by
    cases post with
    | nil => simp [absorbedLen]
    | cons y post =>
      have hy := partitionFrom_bounds _ 0 n hp y (by simp)
      simp only [List.head?_cons, absorbedLen]
      split <;> omega
  unfold coalesce freedList
  rw [hnext]
  rcases List.eq_nil_or_concat pre with rfl | ⟨pre1, p, rfl⟩
  · simp [absorbPrev_nil, absorbedLen, isFreeNeighbour]
  · rw [List.concat_eq_append] at hp ⊢
    have hpb := partitionFrom_bounds _ 0 n hp p (by simp)
    rw [absorbPrev_concat]
    have hlast : (pre1 ++ [p]).getLast? = some p := by simp
    rw [hlast]
    by_cases hh : p.isHole = true
    · have e : toInt (x.len + absorbedLen post.head? + p.len) =
          x.len + p.len + absorbedLen post.head? := by
        unfold toInt; omega
      have hpl : absorbedLen (some p) = p.len := by simp [absorbedLen, hh]
      have hpf : isFreeNeighbour (some p) = true := by simp [isFreeNeighbour, hh]
      rw [if_pos hh, hpl, hpf, if_pos rfl, List.dropLast_concat]
      simp only [e, hh, if_true]
    · have hpl : absorbedLen (some p) = 0 := by simp [absorbedLen, hh]
      have hpf : ¬ isFreeNeighbour (some p) = true := by simpa [isFreeNeighbour] using hh
      rw [if_neg hh, hpl, if_neg hpf]
      simp only [hh, add_zero]
      rfl

/-- Claim C16: in an arena of at most 65536 words of `wordSize ≥ 1` bytes whose hole
list is a partition, `free` of the address of the occupied segment `(s, len)` replaces
that segment and its free immediate neighbours by one free segment: it starts at the
previous segment when that one is free and at `s` otherwise, its length is `len` plus
the lengths of the free neighbours, and every other segment stays as it is, in the
same order. -/
theorem free_coalesces (m : MemoryManager) (n s len : Int) (pre post : List Node)
    (hws : 0 < m.natWordSize) (hp : Partition n m.holeList) (hn : n ≤ 65536)
    (hl : m.holeList = pre ++ ⟨s, len, false⟩ :: post) :
    MemoryManager.free m (m.memBlock + s * m.natWordSize) =
      { m with holeList := freedList pre ⟨s, len, false⟩ post } := by
  have hoff : Int.tdiv (m.memBlock + s * m.natWordSize - m.memBlock) m.natWordSize = s := by
    simp only [add_sub_cancel_left]
    exact Int.mul_tdiv_cancel _ (by omega)
  have hpre : ∀ y ∈ pre, y.head ≠ s := by
    intro y hy
    have := partition_heads_before pre ⟨s, len, false⟩ post 0 n (hl ▸ hp) y hy
    simp only at this
    omega
  rw [free_of_decomp m _ pre ⟨s, len, false⟩ post hl (by rw [hoff]) (by rw [hoff]; exact hpre)]
  rw [coalesce_eq_freedList pre _ post n (hl ▸ hp) hn]

/-- Claim C16 on the scenario of the specification: in the 20-word arena of 2-byte
words, after `allocate(10)`, `allocate(8)` and `free` of the first block the list is
free `(0, 5)`, occupied `(5, 4)`, free `(9, 11)`, and `free` of the second block leaves
the single free segment `(0, 20)`. -/
theorem free_coalesces_witness :
    holeListOf (runCalls 10 arena20 [Call.allocate 10, Call.allocate 8, Call.free 4096]) =
      some arena20Middle.holeList ∧
    (MemoryManager.free arena20Middle (4096 + 5 * 2)).holeList = [⟨0, 20, true⟩] :=
  ⟨by decide,
    congrArg MemoryManager.holeList
      (free_coalesces arena20Middle 20 5 4 [⟨0, 5, true⟩] [⟨9, 11, true⟩]
        (by decide) (by decide) (by decide) rfl)⟩

theorem free_eq_freeAt (m : MemoryManager) (address : Int) :
    MemoryManager.free m address =
      MemoryManager.freeAt m (MemoryManager.freeOffset m address) := rfl

/-- For an address a whole number of words above the start of the arena, the offset
that `free` looks up is that number of words. -/
theorem freeOffset_aligned (m : MemoryManager) (s : Int) (hws : 0 < m.natWordSize) :
    MemoryManager.freeOffset m (m.memBlock + s * m.natWordSize) = s := by
  unfold MemoryManager.freeOffset
  simp only [add_sub_cancel_left]
  exact Int.mul_tdiv_cancel _ (by omega)

/-- For an address at or above the start of the arena, the offset that `free` looks up
is the byte offset divided by the word size and rounded down. -/
theorem freeOffset_floor (m : MemoryManager) (address : Int) (hws : 0 < m.natWordSize)
    (h : m.memBlock ≤ address) :
    MemoryManager.freeOffset m address = (address - m.memBlock) / m.natWordSize := by
  unfold MemoryManager.freeOffset
  exact Int.tdiv_eq_ediv (by omega) (by omega)

/-- Claim C17 (the offset of `free` is rounded up), evaluated with word size 2 on the
arena with occupied one-word segments at words 0 and 1: `free(memBlock + 1)` looks up
offset 0 and `free(memBlock + 3)` offset 1, where rounding up gives 1 and 2; so
`free(memBlock + 3)` frees the segment at word 1, while a lookup of offset 2 would
have found the hole at word 2 and changed nothing. -/
theorem free_offset_rounds_down :
    holeListOf (runCalls 10 arena20 [Call.allocate 2, Call.allocate 2]) =
      some arena20Two.holeList ∧
    MemoryManager.freeOffset arena20Two (4096 + 1) = 0 ∧ ceilDiv 1 2 = 1 ∧
    MemoryManager.freeOffset arena20Two (4096 + 3) = 1 ∧ ceilDiv 3 2 = 2 ∧
    (MemoryManager.free arena20Two (4096 + 3)).holeList = [⟨0, 1, false⟩, ⟨1, 19, true⟩] ∧
    (MemoryManager.freeAt arena20Two (ceilDiv 3 2)).holeList = arena20Two.holeList := by
  decide

/-! ## Claim C18: termination -/

theorem holeCount_alternating : ∀ (n : Nat) (start : Int),
    holeCount (alternating n start) = n + 1 := by
  intro n
  induction n with
  | zero => intro start; rfl
  | succ n ih =>
    intro start
    simp only [alternating, holeCount_cons, ih]
    simp

theorem partitionFrom_alternating : ∀ (n : Nat) (start : Int),
    PartitionFrom start (alternating n start) (start + 2 * n + 1) := by
  intro n
  induction n with
  | zero =>
    intro start
    simp [alternating, PartitionFrom]
  | succ n ih =>
    intro start
    rw [alternating, partitionFrom_cons, partitionFrom_cons]
    refine ⟨rfl, Int.one_pos, rfl, Int.one_pos, ?_⟩
    have e : start + 1 + 1 = start + 2 := by ring
    have e2 : start + 2 * ((n + 1 : Nat) : Int) + 1 = start + 2 + 2 * (n : Int) + 1 := by
      push_cast; ring
    rw [e, e2]
    exact ih (start + 2)

theorem noAdjacentHoles_alternating : ∀ (n : Nat) (start : Int),
    NoAdjacentHoles (alternating n start) := by
  intro n
  induction n with
  | zero => intro start; trivial
  | succ n ih =>
    intro start
    have h := ih (start + 2)
    cases n with
    | zero => exact ⟨by simp, by simp, trivial⟩
    | succ k => exact ⟨by simp, by simp, h⟩

theorem holePairs_alternating : ∀ (n : Nat) (start : Int), 0 ≤ start →
    start + 2 * n < 65536 → holePairs (alternating n start) = oneWordHoles (n + 1) start := by
  intro n
  induction n with
  | zero =>
    intro start h0 h1
    have e : toUint16 start = start := by unfold toUint16; omega
    simp [alternating, holePairs, oneWordHoles, e]
    rfl
  | succ n ih =>
    intro start h0 h1
    have e : toUint16 start = start := by unfold toUint16; omega
    have ih' := ih (start + 2) (by omega) (by push_cast at h1; omega)
    have e1 : toUint16 1 = 1 := rfl
    rw [alternating, holePairs_cons, holePairs_cons, if_pos rfl, if_neg (by simp), ih', e, e1]
    rfl

/-- Claim C18 (every operation returns), evaluated on the 65535-word arena in which
every even word is a one-word hole and every odd word is occupied: the list is a
partition without adjacent holes and has 32768 holes; the copy loop of `getList`
compares its `uint16_t` counter with 65536 and never exits, so neither `getList` nor
`allocate` returns for any fuel and any request, and on the summary of this list
`bestFit` and `worstFit` do not return either. -/
theorem operations_hang_on_32768_holes :
    Partition 65535 arenaAlternating.holeList ∧
    NoAdjacentHoles arenaAlternating.holeList ∧
    holeCount arenaAlternating.holeList = 32768 ∧
    holeSummary arenaAlternating.holeList = summary32768 ∧
    (∀ fuel : Nat, MemoryManager.getList fuel arenaAlternating = none) ∧
    (∀ (fuel : Nat) (sizeInBytes : Int),
      MemoryManager.allocate fuel arenaAlternating sizeInBytes = none) ∧
    (∀ (fuel : Nat) (sizeInWords : Int),
      bestFit fuel sizeInWords (holeSummary arenaAlternating.holeList) = none ∧
      worstFit fuel sizeInWords (holeSummary arenaAlternating.holeList) = none) := by
  have hl : arenaAlternating.holeList = alternating 32767 0 := rfl
  have hc : holeCount arenaAlternating.holeList = 32768 := by
    rw [hl, holeCount_alternating]
  have hs : holeSummary arenaAlternating.holeList = summary32768 := by
    rw [holeSummary_eq _ (by rw [hc]; norm_num), hc, hl,
      holePairs_alternating 32767 0 (le_refl _) (by norm_num)]
    rfl
  have hg : ∀ fuel : Nat, MemoryManager.getList fuel arenaAlternating = none :=
    fun fuel => getList_diverges fuel arenaAlternating (by rw [hc])
  refine ⟨?_, ?_, hc, hs, hg, fun fuel sz => allocate_of_getList_none fuel _ sz (hg fuel), ?_⟩
  · rw [hl]
    have := partitionFrom_alternating 32767 0
    norm_num at this
    exact this
  · rw [hl]
    exact noAdjacentHoles_alternating 32767 0
  · intro fuel r
    rw [hs, summary32768, bestFit_cons, worstFit_cons]
    exact ⟨bestFitLoop_diverges r _ 32768 (le_refl _) fuel 1 65536 (-1) (by norm_num),
      worstFitLoop_diverges r _ 32768 (le_refl _) fuel 1 (-1) (-1) (by norm_num)⟩

/-! ## Claim C15: the textual memory map -/

theorem dumpLoop_eq : ∀ (l : List Node) (memMap : List Char),
    dumpLoop l memMap = memMap ++ dumpLoop l [] := by
  intro l
  induction l with
  | nil => intro memMap; simp [dumpLoop]
  | cons nd rest ih =>
    intro memMap
    unfold dumpLoop
    split
    · rw [ih (memMap ++ dumpEntry nd), ih ([] ++ dumpEntry nd)]
      simp
    · exact ih memMap

theorem dumpEntry_eq (nd : Node) : dumpEntry nd = segmentText nd ++ [' ', '-', ' '] := by
  simp [dumpEntry, segmentText]

theorem dumpLoop_cons_hole (nd : Node) (rest : List Node) (memMap : List Char)
    (h : nd.isHole = true) :
    dumpLoop (nd :: rest) memMap = dumpLoop rest (memMap ++ dumpEntry nd) := by
  simp [dumpLoop, h]

theorem dumpLoop_cons_used (nd : Node) (rest : List Node) (memMap : List Char)
    (h : ¬ nd.isHole = true) :
    dumpLoop (nd :: rest) memMap = dumpLoop rest memMap := by
  simp [dumpLoop, h]

theorem dumpLoop_freeSegments (l : List Node) : dumpLoop l [] = dumpLoop (freeSegments l) [] := by
  induction l with
  | nil => rfl
  | cons nd rest ih =>
    unfold freeSegments at ih ⊢
    by_cases hh : nd.isHole = true
    · rw [List.filter_cons_of_pos (by simpa using hh), dumpLoop_cons_hole _ _ _ hh,
        dumpLoop_cons_hole _ _ _ hh, dumpLoop_eq rest, dumpLoop_eq (List.filter _ rest), ih]
    · rw [List.filter_cons_of_neg (by simpa using hh), dumpLoop_cons_used _ _ _ hh]
      exact ih

theorem dumpLoop_joined : ∀ (hs : List Node), (∀ y ∈ hs, y.isHole = true) → hs ≠ [] →
    dumpLoop hs [] = joinedByDash (hs.map segmentText) ++ [' ', '-', ' '] := by
  intro hs
  induction hs with
  | nil => intro _ h; exact absurd rfl h
  | cons nd rest ih =>
    intro hall _
    have hnd := hall nd (List.mem_cons_self _ _)
    rw [dumpLoop_cons_hole _ _ _ hnd, dumpLoop_eq rest, List.nil_append, dumpEntry_eq]
    cases rest with
    | nil => simp [dumpLoop, joinedByDash]
    | cons nd2 rest2 =>
      rw [ih (fun y hy => hall y (List.mem_cons_of_mem _ hy)) (List.cons_ne_nil _ _)]
      simp [joinedByDash]

/-- Claim C15: the text that `dumpMemoryMap` writes is the texts `[start, length]` of
the free segments, in hole-list order, joined by `" - "`; it is empty when the hole
list has no free segment. The text built by the loop is taken to fit a `std::string`
(fewer than 2^64 characters). -/
theorem memoryMapText_eq (m : MemoryManager)
    (hsize : ((dumpLoop m.holeList []).length : Int) < 18446744073709551616) :
    MemoryManager.memoryMapText m = joinedByDash ((freeSegments m.holeList).map segmentText) ∧
    (freeSegments m.holeList = [] → MemoryManager.memoryMapText m = []) := by
  have key : MemoryManager.memoryMapText m =
      joinedByDash ((freeSegments m.holeList).map segmentText) := by
    unfold MemoryManager.memoryMapText
    rw [dumpLoop_freeSegments] at hsize ⊢
    cases hfs : freeSegments m.holeList with
    | nil => simp [dumpLoop, joinedByDash]
    | cons nd rest =>
      have hall : ∀ y ∈ freeSegments m.holeList, y.isHole = true := by
        intro y hy
        unfold freeSegments at hy
        simpa using (List.mem_filter.mp hy).2
      rw [hfs] at hall hsize
      have hj := dumpLoop_joined (nd :: rest) hall (List.cons_ne_nil _ _)
      rw [hj] at hsize ⊢
      rw [List.length_append] at hsize ⊢
      have hlen3 : ([' ', '-', ' '] : List Char).length = 3 := rfl
      rw [hlen3] at hsize ⊢
      have hcount : (toSizeT (((joinedByDash ((nd :: rest).map segmentText)).length + 3 : Nat) - 3)).toNat
          = (joinedByDash ((nd :: rest).map segmentText)).length := by
        unfold toSizeT
        push_cast at hsize ⊢
        omega
      rw [hcount, List.take_left']
      rfl
  refine ⟨key, fun h => ?_⟩
  rw [key, h]
  rfl

/-- Claim C15 on the list free `(0, 5)`, occupied `(5, 4)`, free `(9, 11)`. -/
theorem memoryMapText_eq_witness :
    MemoryManager.memoryMapText arena20Middle =
      joinedByDash ((freeSegments arena20Middle.holeList).map segmentText) ∧
    (freeSegments arena20Middle.holeList = [] → MemoryManager.memoryMapText arena20Middle = []) :=
  memoryMapText_eq arena20Middle (by decide)

/-! ## Claims C19 and C20: safety of `allocate` -/

/-- Claim C19 (live allocations lie inside the arena and do not overlap), evaluated on
a 20-word arena of 1-byte words: `allocate(4294967297)` hands the placement function
the `int` 1, reserves one word and returns `memBlock`, and a second call returns
`memBlock + 1`; both blocks are live, neither fits the 20 bytes of the arena, and the
second starts inside the first. -/
theorem oversized_allocations_succeed :
    MemoryManager.sizeInWordsOf 1 4294967297 = 4294967297 ∧
    toInt (MemoryManager.sizeInWordsOf 1 4294967297) = 1 ∧
    outcome (MemoryManager.allocate 10 arena20Bytes 4294967297) =
      some (some 4096, [⟨0, 1, false⟩, ⟨1, 19, true⟩]) ∧
    outcome (MemoryManager.allocate 10 ⟨1, bestFit, 20, 4096, [⟨0, 1, false⟩, ⟨1, 19, true⟩]⟩
        4294967297) =
      some (some 4097, [⟨0, 1, false⟩, ⟨1, 1, false⟩, ⟨2, 18, true⟩]) ∧
    ¬ ((4096 : Int) + 4294967297 * 1 ≤ arena20Bytes.memBlock + 20 * 1) ∧
    (4096 : Int) ≤ 4097 ∧ (4097 : Int) < 4096 + 4294967297 * 1 := by
  decide

/-- Claim C20 fails as stated: with a placement function that always returns offset 0,
`allocate(4)` on the arena whose first five words are occupied succeeds and issues
words 0 and 1 of the occupied segment again; with one that always returns offset 5,
`allocate(40)` asks for 20 words of the 15-word hole and leaves a free node of length
-5, so the list is no partition any more. -/
theorem allocate_follows_any_offset :
    Partition 20 arena20Used.holeList ∧
    (∃ nd ∈ arena20Used.holeList, nd.head = 0 ∧ nd.isHole = false) ∧
    outcome (MemoryManager.allocate 10 { arena20Used with defAllocator := alwaysOffset 0 } 4) =
      some (some 4096, [⟨0, 2, false⟩, ⟨2, 3, false⟩, ⟨5, 15, true⟩]) ∧
    outcome (MemoryManager.allocate 10 { arena20Used with defAllocator := alwaysOffset 5 } 40) =
      some (some 4106, [⟨0, 5, false⟩, ⟨5, 20, false⟩, ⟨25, -5, true⟩]) ∧
    ¬ Partition 20 [⟨0, 5, false⟩, ⟨5, 20, false⟩, ⟨25, -5, true⟩] := by
  decide

theorem allocate_of_unknown_offset (fuel : Nat) (m : MemoryManager) (sz : Int) (list : List Int)
    (offset : Int) (hg : MemoryManager.getList fuel m = some list)
    (ha : m.defAllocator fuel (toInt (MemoryManager.sizeInWordsOf m.natWordSize sz)) list =
      some offset)
    (hno : ∀ y ∈ m.holeList, y.head ≠ offset) :
    MemoryManager.allocate fuel m sz = some (none, m) := by
  unfold MemoryManager.allocate
  simp only [hg, ha, findHead_none offset m.holeList 0 hno]
  split <;> rfl

/-- Claim C20, amended: for every placement function, on a hole list with fewer than
32768 holes that partitions an arena of at most 65536 words of at least one byte, and a
request of `k ≥ 1` words on which the placement function returns, `allocate` is driven
by the returned offset alone. When the offset is the start of no node (as -1 is),
`allocate` returns `nullptr` and leaves the state as it was. When it is the start of a
node, `allocate` succeeds whether or not that node is a hole or has `k` words: it
returns an address, which is `memBlock + start * wordSize` when `start * wordSize` is
below 2^32, and changes only the hole list; if the node has at least `k` words, it is
marked occupied (`k` words exactly) or replaced by an occupied node of `k` words
followed by the rest of it with the flag it had, the list is again a partition of the
arena, and every node has positive length. -/
theorem allocate_driven_by_offset (m : MemoryManager) (n sz offset : Int) (fuel : Nat)
    (hws : 0 < m.natWordSize) (hp : Partition n m.holeList) (hn : n ≤ 65536)
    (hk : 1 ≤ MemoryManager.sizeInWordsOf m.natWordSize sz)
    (hc : holeCount m.holeList < 32768) (hfuel : 2 * holeCount m.holeList < fuel)
    (hs : m.defAllocator fuel (toInt (MemoryManager.sizeInWordsOf m.natWordSize sz))
      (holeSummary m.holeList) = some offset) :
    ((∀ y ∈ m.holeList, y.head ≠ offset) →
      MemoryManager.allocate fuel m sz = some (none, m)) ∧
    ∀ pre x post, m.holeList = pre ++ x :: post → x.head = offset →
      ∃ address holeList1,
        MemoryManager.allocate fuel m sz =
          some (some address, { m with holeList := holeList1 }) ∧
        (x.head * m.natWordSize < 4294967296 →
          address = m.memBlock + x.head * m.natWordSize) ∧
        (MemoryManager.sizeInWordsOf m.natWordSize sz ≤ x.len →
          holeList1 =
            (if x.len = MemoryManager.sizeInWordsOf m.natWordSize sz then
              pre ++ { x with isHole := false } :: post
            else
              pre ++ ⟨x.head, MemoryManager.sizeInWordsOf m.natWordSize sz, false⟩ ::
                ⟨x.head + MemoryManager.sizeInWordsOf m.natWordSize sz,
                  x.len - MemoryManager.sizeInWordsOf m.natWordSize sz, x.isHole⟩ :: post) ∧
          Partition n holeList1 ∧ ∀ y ∈ holeList1, 0 < y.len) := by
  have hmod : holeCount m.holeList % 65536 = holeCount m.holeList :=
    Nat.mod_eq_of_lt (by omega)
  have hg : MemoryManager.getList fuel m = some (holeSummary m.holeList) := by
    rw [getList_eq fuel m (by omega), hmod, if_pos hfuel]
  refine ⟨fun hno => allocate_of_unknown_offset fuel m sz _ offset hg hs hno, ?_⟩
  intro pre x post hl hx
  have hb := partitionFrom_bounds _ 0 n hp x (by rw [hl]; simp)
  have hpre : ∀ y ∈ pre, y.head ≠ offset := by
    intro y hy
    have := partition_heads_before pre x post 0 n (hl ▸ hp) y hy
    omega
  refine ⟨_, _, allocate_of_decomp fuel m sz _ offset pre x post hg hs (by omega) hl hx hpre,
    fun hlt => ?_, fun hle => ?_⟩
  · have hprod0 : 0 ≤ x.head * m.natWordSize := Int.mul_nonneg (by omega) (by omega)
    have e1 : toUnsigned x.head = x.head := by unfold toUnsigned; omega
    have e2 : toUnsigned (x.head * m.natWordSize) = x.head * m.natWordSize := by
      unfold toUnsigned; omega
    rw [e1, e2]
  · have hpart := partition_place pre x post n _ (hl ▸ hp) hn hk hle
    exact ⟨place_eq pre x post _ (by omega) (by omega) (by omega) hle, hpart,
      fun y hy => (partitionFrom_bounds _ 0 n hpart y hy).2.1⟩

/-- The amended claim C20 with a placement function that always returns offset 0, on
the arena whose first five words are occupied, for a request of 4 bytes: the occupied
node `(0, 5)` is the node chosen, `allocate` succeeds and returns `memBlock`, and the
node is replaced by the occupied nodes `(0, 2)` and `(2, 3)`. -/
theorem allocate_driven_by_offset_witness :
    ∃ address holeList1,
      MemoryManager.allocate 10 { arena20Used with defAllocator := alwaysOffset 0 } 4 =
        some (some address,
          { ({ arena20Used with defAllocator := alwaysOffset 0 } : MemoryManager) with
            holeList := holeList1 }) ∧
      ((0 : Int) * 2 < 4294967296 → address = 4096 + 0 * 2) ∧
      (MemoryManager.sizeInWordsOf 2 4 ≤ 5 →
        holeList1 =
          (if (5 : Int) = MemoryManager.sizeInWordsOf 2 4 then
            [] ++ ({ (⟨0, 5, false⟩ : Node) with isHole := false }) :: [⟨5, 15, true⟩]
          else
            [] ++ ⟨0, MemoryManager.sizeInWordsOf 2 4, false⟩ ::
              ⟨0 + MemoryManager.sizeInWordsOf 2 4, 5 - MemoryManager.sizeInWordsOf 2 4,
                false⟩ :: [⟨5, 15, true⟩]) ∧
        Partition 20 holeList1 ∧ ∀ y ∈ holeList1, 0 < y.len) :=
  (allocate_driven_by_offset { arena20Used with defAllocator := alwaysOffset 0 } 20 4 0 10
    (by decide) (by decide) (by decide) (by decide) (by decide) (by decide) rfl).2
    [] ⟨0, 5, false⟩ [⟨5, 15, true⟩] rfl rfl

/-! ## Claim C14: the occupancy bitmap -/

theorem packBits_bounds (β : Int → Int) (hβ : ∀ i, β i = 0 ∨ β i = 1) (base : Int) :
    ∀ t : Nat, 0 ≤ packBits β base t ∧ packBits β base t < 2 ^ t := by
  intro t
  induction t with
  | zero => simp [packBits]
  | succ t ih =>
    have h2 : (0 : Int) < 2 ^ t := by positivity
    rw [packBits, pow_succ]
    rcases hβ (base + t) with h | h <;> rw [h] <;> constructor <;> omega

theorem packBits_extend (β : Int → Int) (base : Int) (t : Nat)
    (h0 : ∀ j : Nat, t ≤ j → β (base + j) = 0) :
    ∀ k : Nat, packBits β base (t + k) = packBits β base t := by
  intro k
  induction k with
  | zero => rfl
  | succ k ih =>
    rw [← Nat.add_assoc, packBits, ih, h0 (t + k) (Nat.le_add_right _ _)]
    simp

theorem packBits_bit_aux (β : Int → Int) (hβ : ∀ i, β i = 0 ∨ β i = 1) (base : Int) (t : Nat) :
    ∀ k : Nat, packBits β base (t + 1 + k) / 2 ^ t % 2 = β (base + t) := by
  have h2 : (0 : Int) < 2 ^ t := by positivity
  intro k
  induction k with
  | zero =>
    have hb := packBits_bounds β hβ base t
    rw [Nat.add_zero, packBits, Int.add_mul_ediv_right _ _ (ne_of_gt h2),
      Int.ediv_eq_zero_of_lt hb.1 hb.2, zero_add]
    rcases hβ (base + t) with h | h <;> rw [h] <;> rfl
  | succ k ih =>
    have e : β (base + ((t + 1 + k : Nat) : Int)) * 2 ^ (t + 1 + k) =
        2 ^ t * (2 * (2 ^ k * β (base + ((t + 1 + k : Nat) : Int)))) := by
      rw [pow_add, pow_add, pow_one]
      ring
    rw [← Nat.add_assoc, packBits, e, Int.add_mul_ediv_left _ _ (ne_of_gt h2),
      Int.add_mul_emod_self_left, ih]

theorem packBits_bit (β : Int → Int) (hβ : ∀ i, β i = 0 ∨ β i = 1) (base : Int) (t : Nat)
    (ht : t < 8) : packBits β base 8 / 2 ^ t % 2 = β (base + t) := by
  have h := packBits_bit_aux β hβ base t (7 - t)
  have e : t + 1 + (7 - t) = 8 := by omega
  rw [e] at h
  exact h

theorem storeByte_eq (list : List (Option Int)) (i : Nat) (v : Int) (h : i < list.length) :
    storeByte list i v = some (list.set i (some (v % 256))) := by
  unfold storeByte
  rw [if_pos ⟨Int.natCast_nonneg i, by exact_mod_cast h⟩]
  rfl

theorem bitmapInner_succ (count : Nat) (bit : Int) (s : BitmapState) :
    bitmapInner (count + 1) bit s =
      if (s.numEight + 1) % 8 = 0 then
        match storeByte s.list ((s.numEight + 1) / 8 + 1)
            (s.bite + bit * 2 ^ (s.numEight % 8).toNat) with
        | none => none
        | some list => bitmapInner count bit ⟨list, s.numEight + 1, 0⟩
      else bitmapInner count bit
        ⟨s.list, s.numEight + 1, s.bite + bit * 2 ^ (s.numEight % 8).toNat⟩ := rfl

theorem bitmapInner_step (β : Int → Int) (hβ : ∀ i, β i = 0 ∨ β i = 1) (nb : Int) (p : Nat)
    (s : BitmapState) (count : Nat) (bit : Int) (hpn : (p : Int) < 8 * nb)
    (hbit : β p = bit) (hinv : BitmapInv β nb p s) :
    ∃ s1, bitmapInner (count + 1) bit s = bitmapInner count bit s1 ∧
      BitmapInv β nb (p + 1) s1 := by
  obtain ⟨h1, h2, h3, h4, h5, h6⟩ := hinv
  have hbite : s.bite + bit * 2 ^ (s.numEight % 8).toNat =
      packBits β (8 * ((p / 8 : Nat) : Int)) (p % 8 + 1) := by
    have e1 : ((p : Int) % 8).toNat = p % 8 := by omega
    have e2 : (8 * ((p / 8 : Nat) : Int)) + ((p % 8 : Nat) : Int) = p := by omega
    rw [packBits, h2, h1, ← hbit, e1, e2]
  rw [bitmapInner_succ, hbite, h1]
  by_cases h8 : ((p : Int) + 1) % 8 = 0
  · rw [if_pos h8]
    have hidx : ((p : Int) + 1) / 8 + 1 = ((p / 8 + 2 : Nat) : Int) := by omega
    have hlt : p / 8 + 2 < s.list.length := by rw [h3]; omega
    rw [hidx, storeByte_eq _ _ _ hlt]
    refine ⟨_, rfl, ?_⟩
    have hfull : p % 8 + 1 = 8 := by omega
    have hb := packBits_bounds β hβ (8 * ((p / 8 : Nat) : Int)) 8
    have hmod : packBits β (8 * ((p / 8 : Nat) : Int)) 8 % 256 =
        packBits β (8 * ((p / 8 : Nat) : Int)) 8 := Int.emod_eq_of_lt hb.1 hb.2
    rw [hfull, hmod]
    have hz : (p + 1) % 8 = 0 := by omega
    refine ⟨by push_cast; rfl, ?_, ?_, ?_, ?_, ?_⟩
    · show (0 : Int) = _
      rw [hz]; rfl
    · show (List.set _ _ _).length = _
      rw [List.length_set, h3]
    · show (List.set _ _ _)[0]? = _
      rw [List.getElem?_set_ne (by omega), h4]
    · show (List.set _ _ _)[1]? = _
      rw [List.getElem?_set_ne (by omega), h5]
    · intro b hb8
      show (List.set _ _ _)[b + 2]? = _
      by_cases hbe : b = p / 8
      · rw [hbe, List.getElem?_set_self hlt]
      · rw [List.getElem?_set_ne (by omega), h6 b (by omega)]
  · rw [if_neg h8]
    refine ⟨_, rfl, ?_⟩
    have hd : (p + 1) / 8 = p / 8 := by omega
    have hm : (p + 1) % 8 = p % 8 + 1 := by omega
    refine ⟨by push_cast; rfl, ?_, h3, h4, h5, ?_⟩
    · show packBits _ _ _ = _
      rw [hd, hm]
    · intro b hb8
      exact h6 b (by omega)

theorem bitmapInner_run (β : Int → Int) (hβ : ∀ i, β i = 0 ∨ β i = 1) (nb : Int) (bit : Int) :
    ∀ (count p : Nat) (s : BitmapState), ((p + count : Nat) : Int) ≤ 8 * nb →
      (∀ j : Nat, j < count → β ((p + j : Nat) : Int) = bit) → BitmapInv β nb p s →
      ∃ s1, bitmapInner count bit s = some s1 ∧ BitmapInv β nb (p + count) s1 := by
  intro count
  induction count with
  | zero => intro p s _ _ hinv; exact ⟨s, rfl, hinv⟩
  | succ count ih =>
    intro p s hle hbits hinv
    obtain ⟨s1, e1, hinv1⟩ := bitmapInner_step β hβ nb p s count bit (by push_cast at hle; omega)
      (hbits 0 (Nat.succ_pos _)) hinv
    obtain ⟨s2, e2, hinv2⟩ := ih (p + 1) s1 (by push_cast at hle ⊢; omega)
      (fun j hj => by
        have := hbits (j + 1) (by omega)
        rw [show p + 1 + j = p + (j + 1) by omega]
        exact this) hinv1
    refine ⟨s2, by rw [e1, e2], ?_⟩
    rw [show p + (count + 1) = p + 1 + count by omega]
    exact hinv2

theorem bitmapOuter_run (β : Int → Int) (hβ : ∀ i, β i = 0 ∨ β i = 1) (nb : Int) :
    ∀ (l : List Node) (p : Nat) (stop : Int) (s : BitmapState), PartitionFrom p l stop →
      stop ≤ 8 * nb →
      (∀ nd ∈ l, ∀ i, nd.head ≤ i → i < nd.head + nd.len →
        β i = if nd.isHole = true then 0 else 1) →
      BitmapInv β nb p s →
      ∃ s1, bitmapOuter l s = some s1 ∧ BitmapInv β nb stop.toNat s1 := by
  intro l
  induction l with
  | nil =>
    intro p stop s hp _ _ hinv
    rw [partitionFrom_nil] at hp
    refine ⟨s, rfl, ?_⟩
    rw [← hp]
    exact hinv
  | cons nd rest ih =>
    intro p stop s hp hstop hbits hinv
    rw [partitionFrom_cons] at hp
    obtain ⟨hh, hlen, hrest⟩ := hp
    have hle := partitionFrom_le _ _ _ hrest
    have hcast : ((p + nd.len.toNat : Nat) : Int) = p + nd.len := by omega
    obtain ⟨s1, e1, hinv1⟩ := bitmapInner_run β hβ nb (if nd.isHole = true then 0 else 1)
      nd.len.toNat p s (by omega)
      (fun j hj => hbits nd (List.mem_cons_self _ _) _ (by omega) (by omega)) hinv
    obtain ⟨s2, e2, hinv2⟩ := ih (p + nd.len.toNat) stop s1 (by rw [hcast]; exact hrest) hstop
      (fun y hy => hbits y (List.mem_cons_of_mem _ hy)) hinv1
    refine ⟨s2, ?_, hinv2⟩
    show (match bitmapInner nd.len.toNat (if nd.isHole = true then 0 else 1) s with
      | none => none
      | some s1 => bitmapOuter rest s1) = some s2
    rw [e1]
    exact e2

theorem occupiedBit_values (l : List Node) (i : Int) :
    occupiedBit l i = 0 ∨ occupiedBit l i = 1 := by
  unfold occupiedBit
  split
  · exact Or.inr rfl
  · exact Or.inl rfl

theorem partitionFrom_cover_unique : ∀ (l : List Node) (a b : Int), PartitionFrom a l b →
    ∀ x ∈ l, ∀ y ∈ l, ∀ i : Int, x.head ≤ i → i < x.head + x.len → y.head ≤ i →
      i < y.head + y.len → x = y := by
  intro l
  induction l with
  | nil => intro a b _ x hx; simp at hx
  | cons nd rest ih =>
    intro a b hp x hx y hy i hx1 hx2 hy1 hy2
    rw [partitionFrom_cons] at hp
    obtain ⟨hh, _, hrest⟩ := hp
    have hb := partitionFrom_bounds _ _ _ hrest
    rcases List.mem_cons.mp hx with ex | hxr <;> rcases List.mem_cons.mp hy with ey | hyr
    · rw [ex, ey]
    · have := (hb y hyr).1
      rw [ex] at hx2
      omega
    · have := (hb x hxr).1
      rw [ey] at hy2
      omega
    · exact ih _ _ hrest x hxr y hyr i hx1 hx2 hy1 hy2

theorem occupiedBit_of_mem (l : List Node) (a b : Int) (hp : PartitionFrom a l b) (nd : Node)
    (hnd : nd ∈ l) (i : Int) (h1 : nd.head ≤ i) (h2 : i < nd.head + nd.len) :
    occupiedBit l i = if nd.isHole = true then 0 else 1 := by
  unfold occupiedBit
  by_cases hh : nd.isHole = true
  · rw [if_pos hh, if_neg]
    rintro ⟨y, hy, hyh, hy1, hy2⟩
    have := partitionFrom_cover_unique l a b hp y hy nd hnd i hy1 hy2 h1 h2
    rw [this, hh] at hyh
    exact Bool.noConfusion hyh
  · rw [if_neg hh, if_pos]
    exact ⟨nd, hnd, by simpa using hh, h1, h2⟩

theorem occupiedBit_outside (l : List Node) (a b : Int) (hp : PartitionFrom a l b) (i : Int)
    (h : b ≤ i) : occupiedBit l i = 0 := by
  unfold occupiedBit
  rw [if_neg]
  rintro ⟨y, hy, _, _, hy2⟩
  have := (partitionFrom_bounds l a b hp y hy).2.2
  omega

theorem bitmapBodySize_eq (n : Int) : bitmapBodySize n = (n + 7) / 8 := by
  unfold bitmapBodySize ceilDiv
  omega

theorem bitmapBytes_length (l : List Node) (n : Int) (hn : 0 ≤ n) :
    (bitmapBytes l n).length = (bitmapBodySize n + 2).toNat := by
  have := bitmapBodySize_eq n
  simp only [bitmapBytes, List.length_cons, List.length_map, List.length_range]
  omega

theorem bitmapBytes_ext (l : List Node) (n : Int) (hn : 0 ≤ n) (r : List (Option Int))
    (hlen : r.length = (bitmapBodySize n + 2).toNat)
    (h0 : r[0]? = some (some (bitmapBodySize n % 256)))
    (h1 : r[1]? = some (some (bitmapBodySize n / 256)))
    (hb : ∀ b : Nat, b < (bitmapBodySize n).toNat →
      r[b + 2]? = some (some (packBits (occupiedBit l) (8 * (b : Int)) 8))) :
    r = (bitmapBytes l n).map some := by
  have hnb := bitmapBodySize_eq n
  apply List.ext_getElem?
  intro k
  rcases k with _ | _ | b
  · rw [h0]; simp [bitmapBytes]
  · rw [h1]; simp [bitmapBytes]
  · by_cases hlt : b < (bitmapBodySize n).toNat
    · rw [hb b hlt]
      simp [bitmapBytes, List.getElem?_range hlt]
    · rw [List.getElem?_eq_none (by omega), List.getElem?_eq_none]
      rw [List.length_map, bitmapBytes_length l n hn]
      omega

theorem storeByte_int (list : List (Option Int)) (i v : Int) (h0 : 0 ≤ i)
    (h : i.toNat < list.length) :
    storeByte list i v = some (list.set i.toNat (some (v % 256))) := by
  unfold storeByte
  rw [if_pos ⟨h0, by omega⟩]

theorem getBitmap_numByte (m : MemoryManager) (n : Int) (hws : 0 < m.natWordSize)
    (hn0 : 0 ≤ n) (hn : n ≤ 65536) (hlim : m.memoryLimit = n * m.natWordSize) :
    toInt (toUnsigned (m.memoryLimit / m.natWordSize + 7) / 8) = bitmapBodySize n := by
  rw [hlim, Int.mul_ediv_cancel _ (ne_of_gt hws), bitmapBodySize_eq]
  unfold toInt toUnsigned
  omega

theorem bitmapInv_start (β : Int → Int) (nb : Int) (h0 : 0 ≤ nb) (h1 : nb ≤ 8192) :
    BitmapInv β nb 0
      ⟨((List.replicate (2 + nb).toNat (none : Option Int)).set 0 (some (nb % 256 % 256))).set 1
        (some (nb / 256 % 256)), 0, 0⟩ := by
  have e1 : nb % 256 % 256 = nb % 256 := by omega
  have e2 : nb / 256 % 256 = nb / 256 := by omega
  rw [e1, e2]
  refine ⟨rfl, rfl, ?_, ?_, ?_, ?_⟩
  · show (List.set _ _ _).length = _
    rw [List.length_set, List.length_set, List.length_replicate]
    congr 1
    omega
  · show (List.set _ _ _)[0]? = _
    rw [List.getElem?_set_ne (by omega), List.getElem?_set_self]
    rw [List.length_replicate]
    omega
  · show (List.set _ _ _)[1]? = _
    rw [List.getElem?_set_self]
    rw [List.length_set, List.length_replicate]
    omega
  · intro b hb
    omega

/-- The bitmap of an arena below 4 GiB: for every word size of at least one byte and
every hole list that partitions an arena of `n ≤ 65536` words whose byte size
`n * natWordSize` is stored in `memoryLimit` without wrapping, `getBitmap` returns
`ceil(n / 8) + 2` bytes, all of them assigned: the count `ceil(n / 8)` low byte first,
then the body, in which bit `i mod 8` of byte `i div 8` is 1 exactly when word `i` lies
in an occupied segment; the bits of the last byte beyond word `n - 1` are 0. -/
theorem getBitmap_encoding (m : MemoryManager) (n : Int) (hws : 0 < m.natWordSize)
    (hp : Partition n m.holeList) (hn : n ≤ 65536)
    (hlim : m.memoryLimit = n * m.natWordSize) :
    MemoryManager.getBitmap m = some ((bitmapBytes m.holeList n).map some) ∧
    (bitmapBytes m.holeList n).length = (bitmapBodySize n + 2).toNat ∧
    (bitmapBytes m.holeList n).getD 0 0 = bitmapBodySize n % 256 ∧
    (bitmapBytes m.holeList n).getD 1 0 = bitmapBodySize n / 256 ∧
    ∀ i : Nat, (i : Int) < 8 * bitmapBodySize n →
      (bitmapBytes m.holeList n).getD (i / 8 + 2) 0 / 2 ^ (i % 8) % 2 =
        occupiedBit m.holeList i ∧
      (n ≤ i → occupiedBit m.holeList i = 0) := by
  have hn0 : 0 ≤ n := partitionFrom_le _ _ _ hp
  have hnb := bitmapBodySize_eq n
  have hβ := occupiedBit_values m.holeList
  refine ⟨?_, bitmapBytes_length _ _ hn0, rfl, rfl, ?_⟩
  · have hnb0 : 0 ≤ bitmapBodySize n := by omega
    have hnb1 : bitmapBodySize n ≤ 8192 := by omega
    obtain ⟨s1, e1, hinv⟩ := bitmapOuter_run (occupiedBit m.holeList) hβ (bitmapBodySize n)
      m.holeList 0 n _ hp (by omega)
      (fun nd hnd i h1 h2 => occupiedBit_of_mem _ _ _ hp nd hnd i h1 h2)
      (bitmapInv_start _ _ hnb0 hnb1)
    obtain ⟨h1, h2, h3, h4, h5, h6⟩ := hinv
    unfold MemoryManager.getBitmap
    rw [if_neg (ne_of_gt hws)]
    simp only []
    rw [getBitmap_numByte m n hws hn0 hn hlim,
      storeByte_int _ 0 _ (le_refl _) (by rw [List.length_replicate]; show 0 < _; omega)]
    simp only []
    rw [storeByte_int _ 1 _ (by decide)
      (by rw [List.length_set, List.length_replicate]; show 1 < _; omega)]
    simp only []
    show (match bitmapOuter m.holeList _ with
      | none => none
      | some s => if s.numEight % 8 ≠ 0 then storeByte s.list (bitmapBodySize n + 1) s.bite
          else some s.list) = _
    rw [show Int.toNat 0 = 0 from rfl, show Int.toNat 1 = 1 from rfl, e1]
    simp only []
    by_cases h8 : n % 8 = 0
    · rw [if_neg (by rw [h1]; omega)]
      congr 1
      exact bitmapBytes_ext _ _ hn0 _ h3 h4 h5 (fun b hb => h6 b (by omega))
    · rw [if_pos (by rw [h1]; omega)]
      have hidx : (bitmapBodySize n + 1).toNat = n.toNat / 8 + 2 := by omega
      have hlt : n.toNat / 8 + 2 < s1.list.length := by rw [h3]; omega
      rw [storeByte_int _ _ _ (by omega) (by rw [hidx]; exact hlt), hidx]
      congr 1
      have hext := packBits_extend (occupiedBit m.holeList) (8 * ((n.toNat / 8 : Nat) : Int))
        (n.toNat % 8)
        (fun j hj => occupiedBit_outside _ _ _ hp _ (by omega)) (8 - n.toNat % 8)
      rw [show n.toNat % 8 + (8 - n.toNat % 8) = 8 by omega] at hext
      have hb := packBits_bounds (occupiedBit m.holeList) hβ (8 * ((n.toNat / 8 : Nat) : Int)) 8
      have hmod : s1.bite % 256 =
          packBits (occupiedBit m.holeList) (8 * ((n.toNat / 8 : Nat) : Int)) 8 := by
        rw [h2, ← hext]
        exact Int.emod_eq_of_lt hb.1 hb.2
      rw [hmod]
      refine bitmapBytes_ext _ _ hn0 _ ?_ ?_ ?_ ?_
      · rw [List.length_set, h3]
      · rw [List.getElem?_set_ne (by omega), h4]
      · rw [List.getElem?_set_ne (by omega), h5]
      · intro b hb
        by_cases hbe : b = n.toNat / 8
        · rw [hbe, List.getElem?_set_self hlt]
        · rw [List.getElem?_set_ne (by omega), h6 b (by omega)]
  · intro i hi
    refine ⟨?_, fun h => occupiedBit_outside _ _ _ hp _ h⟩
    have hlt : i / 8 < (bitmapBodySize n).toNat := by omega
    have hget : (bitmapBytes m.holeList n).getD (i / 8 + 2) 0 =
        packBits (occupiedBit m.holeList) (8 * ((i / 8 : Nat) : Int)) 8 := by
      simp only [bitmapBytes, List.getD_cons_succ]
      rw [List.getD_eq_getElem?_getD, List.getElem?_map, List.getElem?_range hlt]
      rfl
    rw [hget, packBits_bit _ hβ _ _ (Nat.mod_lt _ (by decide))]
    congr 1
    omega

/-- The bitmap of the 20-word arena with words 5 to 8 occupied: three body bytes. -/
theorem getBitmap_arena20Middle :
    MemoryManager.getBitmap arena20Middle = some [some 3, some 0, some 224, some 1, some 0] ∧
    bitmapBytes arena20Middle.holeList 20 = [3, 0, 224, 1, 0] := by
  decide

/-- Claim C14 (the bitmap has `ceil(N / 8) + 2` bytes, starting with that count),
evaluated where the byte size of the arena does not fit `unsigned`. On the fresh arena
of 65536 words of 65536 bytes `memoryLimit` is 0, so the array has 2 bytes instead of
8194 and the loop writes behind it. On the 4-word arena of 2147483648-byte words the
array has 2 bytes instead of 3 and the bits of the four words overwrite the second
byte of the count. -/
theorem getBitmap_miscounts_wide_arena :
    Partition 65536 arena4GiB.holeList ∧ arena4GiB.memoryLimit = 0 ∧
    bitmapBodySize 65536 + 2 = 8194 ∧
    MemoryManager.getBitmap arena4GiB = none ∧
    Partition 4 wideWords4.holeList ∧ bitmapBodySize 4 + 2 = 3 ∧
    MemoryManager.getBitmap wideWords4 = some [some 0, some 3] := by
  decide

/-! ## Live blocks on an arena below 4 GiB -/

theorem partition_same_head (l : List Node) (n : Int) (hp : Partition n l) (x y : Node)
    (hx : x ∈ l) (hy : y ∈ l) (h : x.head = y.head) : x = y := by
  have bx := partitionFrom_bounds l 0 n hp x hx
  have by1 := partitionFrom_bounds l 0 n hp y hy
  exact partitionFrom_cover_unique l 0 n hp x hx y hy x.head (le_refl _) (by omega)
    (by omega) (by omega)

theorem partition_disjoint (l : List Node) (n : Int) (hp : Partition n l) (x y : Node)
    (hx : x ∈ l) (hy : y ∈ l) (h : x ≠ y) :
    x.head + x.len ≤ y.head ∨ y.head + y.len ≤ x.head := by
  have bx := partitionFrom_bounds l 0 n hp x hx
  have by1 := partitionFrom_bounds l 0 n hp y hy
  by_contra hcon
  rcases le_total x.head y.head with hle | hle
  · exact h (partitionFrom_cover_unique l 0 n hp x hx y hy y.head hle (by omega)
      (le_refl _) (by omega))
  · exact h (partitionFrom_cover_unique l 0 n hp x hx y hy x.head (le_refl _) (by omega)
      hle (by omega))

theorem occupied_mem_place (pre : List Node) (x : Node) (post : List Node) (k : Int)
    (hx : x.isHole = true) (nd : Node) (hnd : nd ∈ pre ++ x :: post)
    (hocc : nd.isHole = false) :
    nd ∈ pre ++ { x with isHole := false } :: post ∧
    nd ∈ pre ++ ⟨x.head, k, false⟩ :: ⟨x.head + k, x.len - k, x.isHole⟩ :: post := by
  have hne : nd ≠ x := by
    intro e
    rw [e, hx] at hocc
    exact Bool.noConfusion hocc
  simp only [List.mem_append, List.mem_cons] at hnd ⊢
  rcases hnd with h | h | h
  · exact ⟨Or.inl h, Or.inl h⟩
  · exact absurd h hne
  · exact ⟨Or.inr (Or.inr h), Or.inr (Or.inr (Or.inr h))⟩

theorem occupied_mem_freedList (pre : List Node) (x : Node) (post : List Node) (nd : Node)
    (hnd : nd ∈ pre ++ x :: post) (hocc : nd.isHole = false) (hne : nd ≠ x) :
    nd ∈ freedList pre x post := by
  unfold freedList
  simp only [List.mem_append, List.mem_cons] at hnd ⊢
  rcases hnd with h | h | h
  · left
    rcases List.eq_nil_or_concat pre with e | ⟨pre1, p, e⟩
    · rw [e] at h
      simp at h
    · rw [List.concat_eq_append] at e
      subst e
      have hlast : (pre1 ++ [p]).getLast? = some p := by simp
      rw [hlast]
      show nd ∈ if p.isHole = true then (pre1 ++ [p]).dropLast else pre1 ++ [p]
      by_cases hp : p.isHole = true
      · rw [if_pos hp, List.dropLast_concat]
        rcases List.mem_append.mp h with h1 | h1
        · exact h1
        · rw [List.mem_singleton] at h1
          rw [h1, hp] at hocc
          exact Bool.noConfusion hocc
      · rw [if_neg hp]
        exact h
  · exact absurd h hne
  · right; right
    cases post with
    | nil => simp at h
    | cons q post1 =>
      simp only [List.head?_cons, isFreeNeighbour, List.tail_cons]
      by_cases hq : q.isHole = true
      · rw [if_pos hq]
        rcases List.mem_cons.mp h with h1 | h1
        · rw [h1, hq] at hocc
          exact Bool.noConfusion hocc
        · exact h1
      · rw [if_neg hq]
        exact h

theorem liveInv_allocate (wordSize n base : Int) (hws : 0 < wordSize) (hn : n ≤ 65535)
    (hbytes : n * wordSize ≤ 4294967296) (m : MemoryManager) (hm : ArenaInv wordSize n m)
    (live : List (Int × Int)) (hlive : LiveInv base m live) (fuel : Nat) (sz : Int)
    (hsz : SaneCall wordSize (Call.allocate sz)) (r : Option Int) (m' : MemoryManager)
    (h : MemoryManager.allocate fuel m sz = some (r, m')) :
    (r = none ∧ LiveInv base m' live) ∨
    ∃ a, r = some a ∧
      LiveInv base m' ((a, MemoryManager.sizeInWordsOf m.natWordSize sz) :: live) := by
  obtain ⟨hw, hf, hp, _, _⟩ := hm
  obtain ⟨hs1, hs2, hs3⟩ := hsz
  obtain ⟨hk, hk1, _⟩ := sizeInWordsOf_eq wordSize sz hws hs1 hs2
  rw [← hw] at hk hk1
  have hkr : toInt (MemoryManager.sizeInWordsOf m.natWordSize sz) =
      MemoryManager.sizeInWordsOf m.natWordSize sz := by
    apply toInt_of_range
    · omega
    · rw [hk, hw]; exact hs3
  obtain ⟨hb, hnd, hall⟩ := hlive
  obtain ⟨sel, himp, hfit⟩ := selected_fits m.defAllocator hf
  have hcn := holeCount_le_of_partition m.holeList n hp
  rcases allocate_spec m sel himp n sz hp (fits16_of_partition _ n hp (by omega)) (by omega)
      fuel r m' h with
    ⟨h1, h2, _⟩ | ⟨pre, x, post, hl, hsx, h3, h4⟩
  · left
    rw [h2]
    exact ⟨h1, hb, hnd, hall⟩
  · right
    obtain ⟨hxh, hle⟩ := hfit pre x post _ hsx
    rw [hkr] at hle
    have hxm : x ∈ m.holeList := by rw [hl]; simp
    have hbx := partitionFrom_bounds _ 0 n hp x hxm
    have hprod : x.head * m.natWordSize < 4294967296 := by
      have : x.head * m.natWordSize < n * m.natWordSize :=
        Int.mul_lt_mul_of_pos_right (by omega) (by omega)
      rw [hw] at this ⊢
      omega
    have hprod0 : 0 ≤ x.head * m.natWordSize := Int.mul_nonneg (by omega) (by omega)
    have e1 : toUnsigned x.head = x.head := by unfold toUnsigned; omega
    have e2 : toUnsigned (x.head * m.natWordSize) = x.head * m.natWordSize := by
      unfold toUnsigned; omega
    rw [e1, e2, hb] at h3
    refine ⟨_, h3, ?_⟩
    have hpl := place_eq pre x post (MemoryManager.sizeInWordsOf m.natWordSize sz)
      (by omega) (by omega) (by omega) hle
    have hlist : m'.holeList = place pre x post (MemoryManager.sizeInWordsOf m.natWordSize sz) := by
      rw [h4]
    have hws' : m'.natWordSize = m.natWordSize := by rw [h4]
    have hmb' : m'.memBlock = m.memBlock := by rw [h4]
    refine ⟨by rw [hmb', hb], ?_, ?_⟩
    · rw [List.map_cons, List.nodup_cons]
      refine ⟨?_, hnd⟩
      intro hmem
      obtain ⟨b, hbl, hba⟩ := List.mem_map.mp hmem
      obtain ⟨nd, hndm, hocc, haddr, _⟩ := hall b hbl
      simp only at hba
      rw [haddr] at hba
      have hheads : nd.head = x.head :=
        Int.eq_of_mul_eq_mul_right (ne_of_gt (by omega : 0 < m.natWordSize)) (by omega)
      have := partition_same_head _ n hp nd x hndm hxm hheads
      rw [this, hxh] at hocc
      exact Bool.noConfusion hocc
    · intro b hbm
      rw [hlist, hpl, hws']
      rcases List.mem_cons.mp hbm with e | hbl
      · rw [e]
        by_cases hxk : x.len = MemoryManager.sizeInWordsOf m.natWordSize sz
        · rw [if_pos hxk]
          exact ⟨{ x with isHole := false }, by simp, rfl, rfl, hxk.symm⟩
        · rw [if_neg hxk]
          exact ⟨⟨x.head, MemoryManager.sizeInWordsOf m.natWordSize sz, false⟩, by simp, rfl,
            rfl, rfl⟩
      · obtain ⟨nd, hndm, hocc, haddr, hlen⟩ := hall b hbl
        have hsurv := occupied_mem_place pre x post
          (MemoryManager.sizeInWordsOf m.natWordSize sz) hxh nd (hl ▸ hndm) hocc
        refine ⟨nd, ?_, hocc, haddr, hlen⟩
        by_cases hxk : x.len = MemoryManager.sizeInWordsOf m.natWordSize sz
        · rw [if_pos hxk]; exact hsurv.1
        · rw [if_neg hxk]; exact hsurv.2

theorem liveInv_free (wordSize n base : Int) (hws : 0 < wordSize) (hn : n ≤ 65536)
    (m : MemoryManager) (hm : ArenaInv wordSize n m) (live : List (Int × Int))
    (hlive : LiveInv base m live) (address : Int)
    (ha : live.any (fun b => b.1 = address) = true) :
    LiveInv base (MemoryManager.free m address) (live.filter (fun b => b.1 ≠ address)) := by
  obtain ⟨hw, _, hp, _, _⟩ := hm
  obtain ⟨hb, hnd, hall⟩ := hlive
  obtain ⟨b0, hb0, hb0a⟩ := List.any_eq_true.mp ha
  have hb0a' : b0.1 = address := by simpa using hb0a
  obtain ⟨x, hxm, hxocc, hxaddr, _⟩ := hall b0 hb0
  obtain ⟨pre, post, hl⟩ := List.append_of_mem hxm
  have hx : x = ⟨x.head, x.len, false⟩ := by
    cases x with
    | mk hd ln ih =>
      simp only at hxocc
      rw [hxocc]
  rw [hx] at hl
  have hfree := free_coalesces m n x.head x.len pre post (by omega) hp hn hl
  rw [hb] at hfree
  rw [← hb0a', hxaddr, hfree]
  refine ⟨rfl, ?_, ?_⟩
  · exact List.Nodup.sublist (List.Sublist.map _ (List.filter_sublist _)) hnd
  · intro b hbm
    obtain ⟨hbl, hbne⟩ := List.mem_filter.mp hbm
    have hbne' : b.1 ≠ base + x.head * m.natWordSize := by simpa using hbne
    obtain ⟨nd, hndm, hocc, haddr, hlen⟩ := hall b hbl
    refine ⟨nd, ?_, hocc, haddr, hlen⟩
    show nd ∈ freedList pre ⟨x.head, x.len, false⟩ post
    apply occupied_mem_freedList pre _ post nd (hl ▸ hndm) hocc
    intro e
    apply hbne'
    rw [haddr, e]

theorem liveInv_runLive (wordSize n base : Int) (hws : 0 < wordSize) (hn : n ≤ 65535)
    (hbytes : n * wordSize ≤ 4294967296) (fuel : Nat) :
    ∀ (calls : List Call) (m : MemoryManager) (live : List (Int × Int)) (m' : MemoryManager)
      (live' : List (Int × Int)), (∀ c ∈ calls, SaneCall wordSize c) →
      ArenaInv wordSize n m → LiveInv base m live →
      runLive fuel m live calls = some (m', live') →
      ArenaInv wordSize n m' ∧ LiveInv base m' live' := by
  intro calls
  induction calls with
  | nil =>
    intro m live m' live' _ hm hlive h
    simp only [runLive, Option.some.injEq, Prod.mk.injEq] at h
    rw [← h.1, ← h.2]
    exact ⟨hm, hlive⟩
  | cons c rest ih =>
    intro m live m' live' hs hm hlive h
    have hc := hs c (List.mem_cons_self _ _)
    have hrest : ∀ c ∈ rest, SaneCall wordSize c := fun c hc => hs c (List.mem_cons_of_mem _ hc)
    cases c with
    | allocate sz =>
      simp only [runLive] at h
      cases ha : MemoryManager.allocate fuel m sz with
      | none => simp [ha] at h
      | some out =>
        obtain ⟨r, m1⟩ := out
        have hm1 := arenaInv_allocate wordSize n hws (by omega) m hm fuel sz hc r m1 ha
        have hl1 := liveInv_allocate wordSize n base hws hn hbytes m hm live hlive fuel sz hc
          r m1 ha
        rw [ha] at h
        cases r with
        | none =>
          rcases hl1 with ⟨_, hl⟩ | ⟨a, e, _⟩
          · exact ih m1 live m' live' hrest hm1 hl h
          · exact Option.noConfusion e
        | some a =>
          rcases hl1 with ⟨e, _⟩ | ⟨a1, e, hl⟩
          · exact Option.noConfusion e
          · rw [← Option.some.inj e] at hl
            exact ih m1 _ m' live' hrest hm1 hl h
    | free a =>
      simp only [runLive] at h
      by_cases hany : live.any (fun b => b.1 = a) = true
      · rw [if_pos hany] at h
        exact ih _ _ m' live' hrest (arenaInv_free wordSize n (by omega) m hm a)
          (liveInv_free wordSize n base hws (by omega) m hm live hlive a hany) h
      · rw [if_neg hany] at h
        exact Option.noConfusion h
    | setAllocator f =>
      simp only [runLive] at h
      refine ih _ _ m' live' hrest ?_ ?_ h
      · obtain ⟨hw, _, hp, hadj, hfull⟩ := hm
        exact ⟨hw, hc, hp, hadj, hfull⟩
      · exact hlive

theorem liveSafe_of_inv (wordSize n base : Int) (hws : 0 < wordSize) (m : MemoryManager)
    (hm : ArenaInv wordSize n m) (live : List (Int × Int)) (hlive : LiveInv base m live) :
    LiveSafe wordSize n base live := by
  obtain ⟨hw, _, hp, _, _⟩ := hm
  obtain ⟨_, hnd, hall⟩ := hlive
  rw [hw] at hall
  refine ⟨?_, hnd, ?_⟩
  · intro b hb
    obtain ⟨nd, hndm, _, haddr, hlen⟩ := hall b hb
    have hbd := partitionFrom_bounds _ 0 n hp nd hndm
    have h0 : 0 ≤ nd.head * wordSize := Int.mul_nonneg (by omega) (by omega)
    have h1 : (nd.head + nd.len) * wordSize ≤ n * wordSize :=
      Int.mul_le_mul_of_nonneg_right hbd.2.2 (by omega)
    rw [haddr, hlen]
    refine ⟨by omega, ?_, hbd.2.1, ?_⟩
    · rw [add_sub_cancel_left]
      exact Int.mul_emod_left _ _
    · rw [add_mul] at h1
      omega
  · intro b hb c hc hne
    obtain ⟨x, hxm, _, hxa, hxl⟩ := hall b hb
    obtain ⟨y, hym, _, hya, hyl⟩ := hall c hc
    have hxy : x ≠ y := by
      intro e
      apply hne
      rw [hxa, hya, e]
    rw [hxa, hya, hxl, hyl]
    rcases partition_disjoint _ n hp x y hxm hym hxy with h | h
    · left
      have := Int.mul_le_mul_of_nonneg_right h (by omega : 0 ≤ wordSize)
      rw [add_mul] at this
      omega
    · right
      have := Int.mul_le_mul_of_nonneg_right h (by omega : 0 ≤ wordSize)
      rw [add_mul] at this
      omega

/-- Live blocks on an arena below 4 GiB: after `initialize(n)` with `1 ≤ n ≤ 65535` and
`n * wordSize ≤ 2^32`, under best fit or worst fit, along every sequence of calls that
all return, in which each allocation asks for at least one byte and fewer than 2^31
words and `free` is only called with the address of a live block, every live block
starts on a word boundary at or after the arena base and ends inside the arena, and no
two live blocks share a byte. -/
theorem live_blocks_safe (wordSize n memBlock0 base : Int) (allocator : Allocator)
    (hws : 0 < wordSize) (halloc : allocator = bestFit ∨ allocator = worstFit)
    (hn1 : 1 ≤ n) (hn2 : n ≤ 65535) (hbytes : n * wordSize ≤ 4294967296) (fuel : Nat)
    (calls : List Call) (hsane : ∀ c ∈ calls, SaneCall wordSize c) (m : MemoryManager)
    (live : List (Int × Int))
    (h : runLive fuel (MemoryManager.initializeArena
      (MemoryManager.construct wordSize allocator memBlock0) n base) [] calls =
        some (m, live)) :
    LiveSafe wordSize n base live := by
  have hinit := arenaInv_initializeArena wordSize n memBlock0 base allocator halloc hn1
    (by omega)
  have hlive0 : LiveInv base (MemoryManager.initializeArena
      (MemoryManager.construct wordSize allocator memBlock0) n base) [] := by
    refine ⟨?_, List.nodup_nil, fun b hb => absurd hb (List.not_mem_nil _)⟩
    unfold MemoryManager.initializeArena
    rw [if_neg (by omega)]
  obtain ⟨hm, hl⟩ := liveInv_runLive wordSize n base hws hn2 hbytes fuel calls _ [] m live
    hsane hinit hlive0 h
  exact liveSafe_of_inv wordSize n base hws m hm live hl

/-- The live blocks of the 20-word arena of 2-byte words after `allocate(10)`,
`allocate(8)` and `free` of the first block: the second block, 4 words at byte 10. -/
theorem live_blocks_arena20 :
    (runLive 10 arena20 [] [Call.allocate 10, Call.allocate 8, Call.free 4096]).map Prod.snd =
      some [(4106, 4)] := by
  decide
